import Mathlib

/-!
# httpcontext: path tree and filter pipeline

A shallow embedding of `path_tree.go`, `context.go` and `handler.go` of the
`httpcontext` package, followed by theorems about route registration, route
resolution and the execution of the filter chain.

Conventions of the embedding.

* A Go `string` is a byte sequence.  It is modelled as a `List Char`, every list
  element standing for one byte; all operations the package performs on strings
  (length, indexing, slicing, comparison, `strings.Split` on `"/"`) act element-wise.
* The trie is mutated in place through pointers in Go; here every mutator returns
  the updated value, and the child a pointer designates is identified by its
  position in `childrenNode`.
* A Go function value can only be compared with `nil`; a handler is an `Option H`
  and a filter list a `List F` (`nil` is the empty list).
* A run-time panic is an explicit result (`Except Panic _`, `Outcome.panicked`).
* A filter or handler is a Go closure that receives the `*Context`.  Its body is modelled by
  a `Prog`: the calls it makes on the context (`Next`, `Abort`, `AppendFilters`,
  `WriteStatus`), in order, with branching on what it reads from the context, ending in a
  return or a panic.  The methods of `Context` are translated from the source; `Next` runs
  the rest of the chain inside the calling filter, as in Go.
* Running a chain takes an evaluation budget (`fuel`), since a filter may append filters and
  call `Next` without end.  Statements that a run returns are proved for every budget above
  a bound; statements about what a run never does are proved for every budget.
* `Context.trace` is the list of chain events of the request, in order; it exists only to
  state what is executed and when.
-/

namespace HttpContext

/-- A Go string: a sequence of bytes, one list element per byte. -/
abbrev GoString := List Char

/-- Value carried by a Go panic.  Run-time errors (`indexOutOfRange`,
`nilDereference`) and `error msg` implement the `error` interface, `value v` is any
other panic value (for instance a string). -/
inductive Panic where
  | indexOutOfRange : Panic
  | nilDereference : Panic
  | error (msg : String) : Panic
  | value (v : String) : Panic
  deriving DecidableEq, Repr

/-! ## path_tree.go -/

/-- The struct `PathTreeNode`: one trie node. -/
inductive PathTreeNode (H F : Type) where
  | mk (path : GoString) (handler : Option H) (filters : List F)
      (wildcardName : GoString) (childrenNode : List (PathTreeNode H F)) : PathTreeNode H F

namespace PathTreeNode

variable {H F : Type}

/-- Field `path`. -/
def path : PathTreeNode H F → GoString
  | mk p _ _ _ _ => p

/-- Field `handler`. -/
def handler : PathTreeNode H F → Option H
  | mk _ h _ _ _ => h

/-- Field `filters`. -/
def filters : PathTreeNode H F → List F
  | mk _ _ f _ _ => f

/-- Field `wildcardName`. -/
def wildcardName : PathTreeNode H F → GoString
  | mk _ _ _ w _ => w

/-- Field `childrenNode`. -/
def childrenNode : PathTreeNode H F → List (PathTreeNode H F)
  | mk _ _ _ _ cs => cs

/-- Assignment `n.handler = h`. -/
def setHandler (h : Option H) : PathTreeNode H F → PathTreeNode H F
  | mk p _ f w cs => mk p h f w cs

/-- Assignment `n.filters = fs`. -/
def setFilters (fs : List F) : PathTreeNode H F → PathTreeNode H F
  | mk p h _ w cs => mk p h fs w cs

/-- Assignment `n.wildcardName = w`. -/
def setWildcardName (w : GoString) : PathTreeNode H F → PathTreeNode H F
  | mk p h f _ cs => mk p h f w cs

/-- Assignment `n.childrenNode = cs`. -/
def setChildrenNode (cs : List (PathTreeNode H F)) : PathTreeNode H F → PathTreeNode H F
  | mk p h f w _ => mk p h f w cs

end PathTreeNode

/-- The function `isWildcard`: `l > 3`, `path[0:2] == "{:"`, `path[l-1] == '}'`, and the
name is `path[2 : l-1]`. -/
def isWildcard (path : GoString) : GoString × Bool :=
  let l := path.length
  if 3 < l then
    if path.take 2 = ['{', ':'] ∧ path[l - 1]? = some '}' then
      ((path.take (l - 1)).drop 2, true)
    else ([], false)
  else ([], false)

/-- The constructor `NewPathTreeNode`. -/
def NewPathTreeNode {H F : Type} (p : GoString) : PathTreeNode H F :=
  let node : PathTreeNode H F := .mk p none [] [] []
  match isWildcard p with
  | (name, true) => node.setWildcardName name
  | (_, false) => node

/-- Position of the first element satisfying `matcher`: the element the `range` loop of
`matchChildNode` returns a pointer to. -/
def firstIdx {α : Type} (matcher : α → Bool) : List α → Option Nat
  | [] => none
  | a :: as => if matcher a then some 0 else (firstIdx matcher as).map (· + 1)

/-- Update through a pointer to the element at position `i`. -/
def modifyAt {α : Type} (f : α → α) : Nat → List α → List α
  | _, [] => []
  | 0, a :: as => f a :: as
  | i + 1, a :: as => a :: modifyAt f i as

namespace PathTreeNode

variable {H F : Type}

/-- The method `AppendChildNode`. -/
def AppendChildNode (n child : PathTreeNode H F) : PathTreeNode H F :=
  n.setChildrenNode (n.childrenNode ++ [child])

/-- The method `matchChildNode`: the first child accepted by `matcher`, or `nil`. -/
def matchChildNode (n : PathTreeNode H F) (matcher : PathTreeNode H F → Bool) :
    Option (PathTreeNode H F) :=
  n.childrenNode.find? matcher

/-- The method `findChildNode`: the first child whose `path` equals `p`. -/
def findChildNode (n : PathTreeNode H F) (p : GoString) : Option (PathTreeNode H F) :=
  n.matchChildNode (fun node => decide (node.path = p))

/-- Position in `childrenNode` of the node `findChildNode` points to. -/
def findChildIdx (n : PathTreeNode H F) (p : GoString) : Option Nat :=
  firstIdx (fun node => decide (node.path = p)) n.childrenNode

/-- Apply `f` to the child at position `i`, in place. -/
def updateChild (n : PathTreeNode H F) (i : Nat) (f : PathTreeNode H F → PathTreeNode H F) :
    PathTreeNode H F :=
  n.setChildrenNode (modifyAt f i n.childrenNode)

end PathTreeNode

/-- The function `strings.Split(s, "/")` of the Go standard library: the substrings
between the separators; a string without separator, the empty one included, gives a
single element. -/
def split : GoString → List GoString
  | [] => [[]]
  | c :: cs =>
    if c = '/' then [] :: split cs
    else
      match split cs with
      | [] => [[c]]
      | seg :: segs => (c :: seg) :: segs

/-- The struct `PathTree`. -/
structure PathTree (H F : Type) where
  root : PathTreeNode H F

/-- The constructor `NewPathTree`. -/
def NewPathTree {H F : Type} : PathTree H F :=
  ⟨NewPathTreeNode ['/']⟩

/-- A Go `map[string]string`, as an association list with at most one entry per key. -/
abbrev Params := List (GoString × GoString)

/-- The map assignment `params[k] = v`. -/
def Params.set (m : Params) (k v : GoString) : Params :=
  if m.any (fun e => decide (e.1 = k)) then
    m.map (fun e => if e.1 = k then (k, v) else e)
  else m ++ [(k, v)]

/-- The map read `params[k]`. -/
def Params.get (m : Params) (k : GoString) : Option GoString :=
  (m.find? (fun e => decide (e.1 = k))).map Prod.snd

namespace PathTree

variable {H F : Type}

/-- The method `putNode`, on the remaining segments `paths[idx:]`.  `curNode` is the child
found by `findChildNode`, or the fresh node appended to the children; it is updated in
place. -/
def putNode (handler : H) (filters : List F) :
    List GoString → PathTreeNode H F → PathTreeNode H F
  | [], node => node
  | path :: rest, node =>
    let located : PathTreeNode H F × Nat :=
      match node.findChildIdx path with
      | some i => (node, i)
      | none => (node.AppendChildNode (NewPathTreeNode path), node.childrenNode.length)
    located.1.updateChild located.2 (fun curNode =>
      match rest with
      | [] =>
        let cur := curNode.setHandler (some handler)
        if 0 < filters.length then cur.setFilters filters else cur
      | _ :: _ => putNode handler filters rest curNode)

/-- The method `Put`.  Indexing the empty string at `urlStr[0]` panics. -/
def Put (urlStr : GoString) (handler : Option H) (filters : List F) (t : PathTree H F) :
    Except Panic (PathTree H F) :=
  match handler with
  | none => .ok t
  | some h =>
    if urlStr = ['/'] then .ok ⟨t.root.setHandler (some h)⟩
    else
      match urlStr[0]? with
      | none => .error .indexOutOfRange
      | some c =>
        if c = '/' then .ok ⟨putNode h filters (split (urlStr.drop 1)) t.root⟩
        else .ok t

/-- The method `findNode`, on the remaining segments `paths[idx:]`; the map `params` is
threaded through. -/
def findNode : List GoString → PathTreeNode H F → Params → Option (PathTreeNode H F) × Params
  | [], _, params => (none, params)
  | path :: rest, node, params =>
    let found : Option (PathTreeNode H F) × Params :=
      match node.findChildNode path with
      | some cur => (some cur, params)
      | none =>
        match node.matchChildNode (fun cnode => decide (cnode.wildcardName ≠ [])) with
        | some cur => (some cur, params.set cur.wildcardName path)
        | none => (none, params)
    match found.1 with
    | none => (none, found.2)
    | some curNode =>
      match rest with
      | [] => (some curNode, found.2)
      | _ :: _ => findNode rest curNode found.2

/-- The method `FindHandler`: handler, filters and params; `nil` params is `none`.
Indexing the empty string at `urlStr[0]` panics. -/
def FindHandler (urlStr : GoString) (t : PathTree H F) :
    Except Panic (Option H × List F × Option Params) :=
  if urlStr = ['/'] then .ok (t.root.handler, t.root.filters, none)
  else
    match urlStr[0]? with
    | none => .error .indexOutOfRange
    | some c =>
      if c = '/' then
        match findNode (split (urlStr.drop 1)) t.root [] with
        | (some node, params) => .ok (node.handler, node.filters, some params)
        | (none, _) => .ok (none, [], none)
      else .ok (none, [], none)

end PathTree

/-- One call `tree.Put(pattern, handler, filters...)`. -/
structure PutCall (H F : Type) where
  pattern : GoString
  handler : Option H
  filters : List F

/-- The tree after one call of `Put`; a call that panics has not modified the tree. -/
def putStep {H F : Type} (t : PathTree H F) (c : PutCall H F) : PathTree H F :=
  match t.Put c.pattern c.handler c.filters with
  | .ok t1 => t1
  | .error _ => t

/-- The tree after a sequence of `Put` calls. -/
def putAll {H F : Type} (calls : List (PutCall H F)) (t : PathTree H F) : PathTree H F :=
  calls.foldl putStep t

/-- The update `putNode` makes on the node of the last segment. -/
def setRoute {H F : Type} (handler : H) (filters : List F) (curNode : PathTreeNode H F) :
    PathTreeNode H F :=
  if 0 < filters.length then (curNode.setHandler (some handler)).setFilters filters
  else curNode.setHandler (some handler)

/-- The update `putNode` makes on `curNode`, for the remaining segments `rest`. -/
def putCur {H F : Type} (handler : H) (filters : List F) (rest : List GoString)
    (curNode : PathTreeNode H F) : PathTreeNode H F :=
  match rest with
  | [] => setRoute handler filters curNode
  | _ :: _ => PathTree.putNode handler filters rest curNode

/-- The node `curNode` of `putNode`: the child found, or a fresh node. -/
def curOf {H F : Type} (n : PathTreeNode H F) (seg : GoString) : PathTreeNode H F :=
  (n.findChildNode seg).getD (NewPathTreeNode seg)

mutual
/-- Number of nodes of a subtree. -/
def PathTreeNode.size {H F : Type} : PathTreeNode H F → Nat
  | .mk _ _ _ _ cs => 1 + sizeChildren cs
/-- Number of nodes of a list of subtrees. -/
def sizeChildren {H F : Type} : List (PathTreeNode H F) → Nat
  | [] => 0
  | c :: cs => c.size + sizeChildren cs
end

/-- The relation `m` is a node of the subtree rooted at `n`. -/
inductive IsNodeOf {H F : Type} : PathTreeNode H F → PathTreeNode H F → Prop where
  | self (n : PathTreeNode H F) : IsNodeOf n n
  | child {m c n : PathTreeNode H F} : c ∈ n.childrenNode → IsNodeOf m c → IsNodeOf m n

/-- The segment list `strings.Split(s[1:], "/")` of a pattern or path. -/
def segments (s : GoString) : List GoString :=
  split (s.drop 1)

/-- A pattern segment matches a path segment: it is equal to it, or it is a wildcard. -/
def segMatches (pat seg : GoString) : Prop :=
  pat = seg ∨ (isWildcard pat).2 = true

/-- The node reached from `n` by descending, segment after segment, into the child that
`findChildNode` returns. -/
def nodeAt {H F : Type} : List GoString → PathTreeNode H F → Option (PathTreeNode H F)
  | [], n => some n
  | seg :: rest, n => (n.findChildNode seg).bind (nodeAt rest)

/-- The handler stored on the node `nodeAt` reaches, if any. -/
def handlerAt {H F : Type} (segs : List GoString) (n : PathTreeNode H F) : Option H :=
  (nodeAt segs n).bind PathTreeNode.handler

/-- The node a pattern designates, as the list of segments below the root: the root itself
for `"/"`, the split of the rest for another pattern starting with `'/'`. -/
def address (urlStr : GoString) : Option (List GoString) :=
  if urlStr = ['/'] then some []
  else
    match urlStr[0]? with
    | none => none
    | some c => if c = '/' then some (split (urlStr.drop 1)) else none

/-- Well-formed subtree: the wildcard name of every node is the one `isWildcard` gives for
its path, and no node has two children with the same path. -/
inductive WF {H F : Type} : PathTreeNode H F → Prop where
  | mk (p : GoString) (h : Option H) (f : List F) (cs : List (PathTreeNode H F)) :
      (cs.map PathTreeNode.path).Nodup → (∀ c ∈ cs, WF c) →
      WF (.mk p h f (isWildcard p).1 cs)

/-! ## context.go -/

/-- What a running filter can read of the chain state and of the response. -/
structure View where
  filterIndex : Nat
  numFilters : Nat
  statuses : List Nat

/-- The body of a `FilterFunc` or `ContextFunc`, as the sequence of calls it makes on its
`*Context` argument: it returns, calls `Next`, `Abort`, `AppendFilters` or `WriteStatus`
and goes on, panics, or chooses how to go on from what it reads. -/
inductive Prog where
  | ret : Prog
  | next (k : Prog) : Prog
  | abort (k : Prog) : Prog
  | appendFilters (fs : List Prog) (k : Prog) : Prog
  | writeStatus (status : Nat) (k : Prog) : Prog
  | panic (v : Panic) : Prog
  | branch (k : View → Prog) : Prog

/-- What is observed of the chain during one request: the filter at index `i` starts
executing, `Next` is called, `Abort` is called, `AppendFilters` extends the chain by `n`. -/
inductive Event where
  | start (i : Nat) : Event
  | next : Event
  | abort : Event
  | append (n : Nat) : Event
  deriving DecidableEq, Repr

/-- The struct `Context`, restricted to the chain state (`filters`, `filterIndex`), the path
parameters and what was sent to the `ResponseWriter`; `trace` records the events of the
request. -/
structure Context where
  filters : List Prog
  filterIndex : Nat
  pathParams : Option Params
  statuses : List Nat
  written : List String
  trace : List Event

/-- Result of running code on a context: normal return, a panic that is unwinding, or the
evaluation budget exhausted. -/
inductive Outcome where
  | done (c : Context) : Outcome
  | panicked (v : Panic) (c : Context) : Outcome
  | outOfFuel (c : Context) : Outcome

/-- The context an outcome carries. -/
def Outcome.ctx : Outcome → Context
  | .done c => c
  | .panicked _ c => c
  | .outOfFuel c => c

/-- The type assertion `v.(error)` followed by `err.Error()`.  The text of a run-time error
is the one Go gives, without the index and length it adds for an index out of range. -/
def Panic.asError : Panic → Option String
  | .indexOutOfRange => some "runtime error: index out of range"
  | .nilDereference => some "runtime error: invalid memory address or nil pointer dereference"
  | .error msg => some msg
  | .value _ => none

namespace Context

/-- What a filter reads of the context. -/
def view (c : Context) : View :=
  ⟨c.filterIndex, c.filters.length, c.statuses⟩

/-- The method `WriteStatus`. -/
def WriteStatus (status : Nat) (c : Context) : Context :=
  { c with statuses := c.statuses ++ [status] }

/-- The method `Write`, called without arguments: `fmt.Fprintf(c.ResponseWriter, format)`.
The field `written` records the format strings of the calls; what `Fprintf` makes of a format
that contains verbs is not modelled. -/
def Write (format : String) (c : Context) : Context :=
  { c with written := c.written ++ [format] }

/-- The method `Write500`: the status is written, then `err.Error()` is evaluated, which
dereferences `err`; a nil `err` is `none`. -/
def Write500 (err : Option String) (c : Context) : Outcome :=
  let c1 := c.WriteStatus 500
  match err with
  | none => .panicked .nilDereference c1
  | some msg => .done (c1.Write msg)

/-- The method `AppendFilters`. -/
def AppendFilters (filters : List Prog) (c : Context) : Context :=
  if 0 < filters.length then
    { c with filters := c.filters ++ filters, trace := c.trace ++ [.append filters.length] }
  else c

/-- The method `Abort`. -/
def Abort (c : Context) : Context :=
  { c with filterIndex := c.filters.length + 1, trace := c.trace ++ [.abort] }

/-- The statement `c.filterIndex++`. -/
def incr (c : Context) : Context :=
  { c with filterIndex := c.filterIndex + 1 }

/-- Record an event of the request. -/
def emit (e : Event) (c : Context) : Context :=
  { c with trace := c.trace ++ [e] }

mutual
/-- Run the body of a filter on the context.  A call of `Next` is `c.filterIndex++` followed
by `execFilters`, whose loop bound is `len(c.filters)` at that moment. -/
def runBody : Nat → Prog → Context → Outcome
  | 0, _, c => .outOfFuel c
  | _ + 1, .ret, c => .done c
  | n + 1, .next k, c =>
    match execLoop n c.filters.length (c.emit .next).incr with
    | .done c1 => runBody n k c1
    | o => o
  | n + 1, .abort k, c => runBody n k c.Abort
  | n + 1, .appendFilters fs k, c => runBody n k (c.AppendFilters fs)
  | n + 1, .writeStatus s k, c => runBody n k (c.WriteStatus s)
  | _ + 1, .panic v, c => .panicked v c
  | n + 1, .branch k, c => runBody n (k c.view) c
/-- The loop of `execFilters`, `for l := len(c.filters); c.filterIndex < l; c.filterIndex++`,
with its bound `l` evaluated once, by the caller. -/
def execLoop : Nat → Nat → Context → Outcome
  | 0, _, c => .outOfFuel c
  | n + 1, l, c =>
    if c.filterIndex < l then
      match c.filters[c.filterIndex]? with
      | none => .panicked .indexOutOfRange c
      | some fn =>
        match runBody n fn (c.emit (.start c.filterIndex)) with
        | .done c1 => execLoop n l c1.incr
        | o => o
    else .done c
end

/-- The method `execFilters`. -/
def execFilters (fuel : Nat) (c : Context) : Outcome :=
  execLoop fuel c.filters.length c

/-- The method `Next`. -/
def Next (fuel : Nat) (c : Context) : Outcome :=
  execFilters fuel (c.emit .next).incr

/-- The method `processWithFilters`: the handler is appended to the chain, the chain is run,
and the deferred function recovers a panic and calls `Write500`, with the error when the
panic value is one and with `nil` otherwise. -/
def processWithFilters (fuel : Nat) (fn : Prog) (c : Context) : Outcome :=
  match execFilters fuel (c.AppendFilters [fn]) with
  | .panicked v c1 =>
    match v.asError with
    | some msg => c1.Write500 (some msg)
    | none => c1.Write500 none
  | o => o

end Context

/-- The part of `*http.Request` the dispatcher reads: the URL path, and the error
`ParseForm` returns, if any. -/
structure Request where
  path : GoString
  parseFormErr : Option String

/-- The constructor `NewContext`; on a `ParseForm` error it writes a 500 response and
returns `nil`, here the writes made to the response. -/
def NewContext (req : Request) (filters : List Prog) : Except Context Context :=
  let c : Context :=
    { filters := if 0 < filters.length then [] ++ filters else [],
      filterIndex := 0, pathParams := none, statuses := [], written := [], trace := [] }
  match req.parseFormErr with
  | some err => .error (c.Write500 (some err)).ctx
  | none => .ok c

/-! ## handler.go -/

/-- The struct `ServeMux`. -/
structure ServeMux where
  mux : PathTree Prog Prog
  filters : List Prog

/-- What `ServeHTTP` did with a request: nothing (no handler found), only the failed
construction of the context, or a run of the filter chain. -/
inductive Served where
  | unrouted : Served
  | noContext (c : Context) : Served
  | processed (o : Outcome) : Served

/-- The method `ServeHTTP`. -/
def ServeMux.ServeHTTP (fuel : Nat) (m : ServeMux) (req : Request) : Except Panic Served :=
  match m.mux.FindHandler req.path with
  | .error v => .error v
  | .ok (none, _, _) => .ok .unrouted
  | .ok (some fn, filters, params) =>
    let copyFilters := ([] ++ m.filters) ++ filters
    match NewContext req copyFilters with
    | .error c => .ok (.noContext c)
    | .ok ctx =>
      .ok (.processed (Context.processWithFilters fuel fn { ctx with pathParams := params }))

/-- The sequence of chain positions at which a filter started executing. -/
def started : List Event → List Nat
  | [] => []
  | .start i :: es => i :: started es
  | _ :: es => started es

/-- A body that makes no call on the chain: it only writes, reads and returns. -/
inductive Quiet : Prog → Prop where
  | ret : Quiet .ret
  | writeStatus (status : Nat) {k : Prog} : Quiet k → Quiet (.writeStatus status k)
  | branch {k : View → Prog} : (∀ v, Quiet (k v)) → Quiet (.branch k)

/-- A body that either simply returns or calls `Next` at most once, and never calls `Abort`
or `AppendFilters` nor panics. -/
inductive Simple : Prog → Prop where
  | ret : Simple .ret
  | next {k : Prog} : Quiet k → Simple (.next k)
  | writeStatus (status : Nat) {k : Prog} : Simple k → Simple (.writeStatus status k)
  | branch {k : View → Prog} : (∀ v, Simple (k v)) → Simple (.branch k)

/-- A body that never calls `Abort` or `AppendFilters` and does not panic. -/
inductive Tame : Prog → Prop where
  | ret : Tame .ret
  | next {k : Prog} : Tame k → Tame (.next k)
  | writeStatus (status : Nat) {k : Prog} : Tame k → Tame (.writeStatus status k)
  | branch {k : View → Prog} : (∀ v, Tame (k v)) → Tame (.branch k)

/-- The chain is terminated: the cursor exceeds the chain length. -/
def Context.Dead (c : Context) : Prop :=
  c.filters.length < c.filterIndex

/-- Whether the last chain event of a trace is an `Abort` not followed by an extension of the
chain, starting from `d`. -/
def abortedAfter : Bool → List Event → Bool
  | d, [] => d
  | _, .abort :: es => abortedAfter true es
  | _, .append _ :: es => abortedAfter false es
  | d, _ :: es => abortedAfter d es

/-- No filter starts while the chain is aborted and not extended since, starting from `d`. -/
def abortRespected : Bool → List Event → Prop
  | _, [] => True
  | _, .abort :: es => abortRespected true es
  | _, .append _ :: es => abortRespected false es
  | d, .start _ :: es => d = false ∧ abortRespected d es
  | d, .next :: es => abortRespected d es

/-- Relation between the context `c` on which the loop of `execFilters` is entered for the
chain `chain` and the context `c1` it returns: the chain is unchanged, the cursor has reached
the end, and the filters from the cursor on have started, once each and in order. -/
def ChainRan (chain : List Prog) (c c1 : Context) : Prop :=
  c1.filters = chain ∧ chain.length ≤ c1.filterIndex ∧
    started c1.trace = started c.trace ++ List.range' c.filterIndex (chain.length - c.filterIndex)

/-- State of the context while the filter at index `i` of `chain` executes, `t0` being the
positions started up to and including `i`: either the filter has not called `Next` yet, or it
has and the rest of the chain has run. -/
def InFilter (chain : List Prog) (i : Nat) (t0 : List Nat) (c : Context) : Prop :=
  c.filters = chain ∧
    ((c.filterIndex = i ∧ started c.trace = t0) ∨
      (chain.length ≤ c.filterIndex ∧
        started c.trace = t0 ++ List.range' (i + 1) (chain.length - (i + 1))))

/-- Relation between a context `c` and a later context `c1` of the same request: the chain
has not shrunk, the trace of `c1` extends the trace of `c`, and over the added events no
filter starts while the chain is aborted; if the chain is aborted at the end, it is
terminated in `c1`.  The flag `d` tells whether the chain is aborted in `c`, which requires
it to be terminated there. -/
def Advances (c c1 : Context) : Prop :=
  c.filters.length ≤ c1.filters.length ∧
    ∃ delta, c1.trace = c.trace ++ delta ∧
      ∀ d : Bool, (d = true → c.Dead) →
        abortRespected d delta ∧ (abortedAfter d delta = true → c1.Dead)

/-- The filter list stored on the node `nodeAt` reaches; `nil` when there is no such node. -/
def filtersAt {H F : Type} (segs : List GoString) (n : PathTreeNode H F) : List F :=
  ((nodeAt segs n).map PathTreeNode.filters).getD []

/-- Number of filters appended to the chain over a list of events. -/
def appended : List Event → Nat
  | [] => 0
  | .append n :: es => n + appended es
  | _ :: es => appended es

/-- The events `es` are possible from a chain of length `len` when filters may start only at
index `floor` or above: a filter starts at an index from `floor` on and below the chain
length, `AppendFilters` raises the chain length, and `Abort` raises the floor to the chain
length plus two. -/
def trackOK (len floor : Nat) : List Event → Prop
  | [] => True
  | .start i :: es => floor ≤ i ∧ i < len ∧ trackOK len floor es
  | .next :: es => trackOK len floor es
  | .abort :: es => trackOK len (len + 2) es
  | .append n :: es => trackOK (len + n) floor es

/-- The floor of `trackOK` after the events `es`. -/
def floorAfter (len floor : Nat) : List Event → Nat
  | [] => floor
  | .start _ :: es => floorAfter len floor es
  | .next :: es => floorAfter len floor es
  | .abort :: es => floorAfter len (len + 2) es
  | .append n :: es => floorAfter (len + n) floor es

/-- Relation between a context `c` and a later context `c1` of the same request.  The trace of
`c1` extends the trace of `c`, the chain has grown by what was appended, the cursor has not
moved back unless `Abort` was called, in which case it is above the former chain length, and
the added events follow `trackOK` for every floor that is at most the cursor of `c` plus the
slack `s` (0 at the head of the loop of `execFilters`, 1 inside a filter); the floor reached
is at most the cursor of `c1` plus one. -/
def Tracks (s : Nat) (c c1 : Context) : Prop :=
  ∃ delta, c1.trace = c.trace ++ delta ∧
    c1.filters.length = c.filters.length + appended delta ∧
    (Event.abort ∉ delta → c.filterIndex ≤ c1.filterIndex) ∧
    (c.filterIndex ≤ c1.filterIndex ∨ c.filters.length + 1 ≤ c1.filterIndex) ∧
    ∀ floor, floor ≤ c.filterIndex + s →
      trackOK c.filters.length floor delta ∧
        floorAfter c.filters.length floor delta ≤ c1.filterIndex + 1

/-- A body that never calls `Next`. -/
inductive NoNext : Prog → Prop where
  | ret : NoNext .ret
  | abort {k : Prog} : NoNext k → NoNext (.abort k)
  | appendFilters (fs : List Prog) {k : Prog} : NoNext k → NoNext (.appendFilters fs k)
  | writeStatus (status : Nat) {k : Prog} : NoNext k → NoNext (.writeStatus status k)
  | panic (v : Panic) : NoNext (.panic v)
  | branch {k : View → Prog} : (∀ v, NoNext (k v)) → NoNext (.branch k)

end HttpContext

/-! # Theorems -/

namespace HttpContext

open PathTreeNode PathTree

section ListLemmas

variable {α : Type}

theorem firstIdx_eq_none {p : α → Bool} {l : List α} (h : firstIdx p l = none) :
    l.find? p = none := by
  induction l with
  | nil => rfl
  | cons a as ih =>
    by_cases hp : p a = true
    · simp [firstIdx, hp] at h
    · simp only [firstIdx, hp, Bool.false_eq_true, if_false, Option.map_eq_none'] at h
      simp [List.find?, hp, ih h]

theorem firstIdx_eq_some {p : α → Bool} {l : List α} {i : Nat} (h : firstIdx p l = some i) :
    ∃ a, l.find? p = some a ∧ l[i]? = some a := by
  induction l generalizing i with
  | nil => simp [firstIdx] at h
  | cons a as ih =>
    by_cases hp : p a = true
    · simp only [firstIdx, hp, if_true, Option.some.injEq] at h
      subst h
      exact ⟨a, by simp [List.find?, hp], by simp⟩
    · simp only [firstIdx, hp, Bool.false_eq_true, if_false, Option.map_eq_some'] at h
      obtain ⟨j, hj, rfl⟩ := h
      obtain ⟨b, hb1, hb2⟩ := ih hj
      exact ⟨b, by simp [List.find?, hp, hb1], by simpa using hb2⟩

theorem find_eq_some_firstIdx {p : α → Bool} {l : List α} {a : α} (h : l.find? p = some a) :
    ∃ i, firstIdx p l = some i ∧ l[i]? = some a := by
  cases hi : firstIdx p l with
  | none => rw [firstIdx_eq_none hi] at h; cases h
  | some i =>
    obtain ⟨b, hb1, hb2⟩ := firstIdx_eq_some hi
    rw [hb1] at h
    cases h
    exact ⟨i, rfl, hb2⟩

theorem modifyAt_length_append (f : α → α) (l : List α) (a : α) :
    modifyAt f l.length (l ++ [a]) = l ++ [f a] := by
  induction l with
  | nil => rfl
  | cons b bs ih => simp [modifyAt, ih]

end ListLemmas

section NodeLemmas

variable {H F : Type}

@[simp] theorem path_mk (p : GoString) (h : Option H) (f : List F) (w : GoString)
    (cs : List (PathTreeNode H F)) : (PathTreeNode.mk p h f w cs).path = p := rfl

@[simp] theorem handler_mk (p : GoString) (h : Option H) (f : List F) (w : GoString)
    (cs : List (PathTreeNode H F)) : (PathTreeNode.mk p h f w cs).handler = h := rfl

@[simp] theorem filters_mk (p : GoString) (h : Option H) (f : List F) (w : GoString)
    (cs : List (PathTreeNode H F)) : (PathTreeNode.mk p h f w cs).filters = f := rfl

@[simp] theorem wildcardName_mk (p : GoString) (h : Option H) (f : List F) (w : GoString)
    (cs : List (PathTreeNode H F)) : (PathTreeNode.mk p h f w cs).wildcardName = w := rfl

@[simp] theorem childrenNode_mk (p : GoString) (h : Option H) (f : List F) (w : GoString)
    (cs : List (PathTreeNode H F)) : (PathTreeNode.mk p h f w cs).childrenNode = cs := rfl

@[simp] theorem setHandler_mk (p : GoString) (h h1 : Option H) (f : List F) (w : GoString)
    (cs : List (PathTreeNode H F)) :
    (PathTreeNode.mk p h f w cs).setHandler h1 = .mk p h1 f w cs := rfl

@[simp] theorem setFilters_mk (p : GoString) (h : Option H) (f f1 : List F) (w : GoString)
    (cs : List (PathTreeNode H F)) :
    (PathTreeNode.mk p h f w cs).setFilters f1 = .mk p h f1 w cs := rfl

@[simp] theorem setChildrenNode_mk (p : GoString) (h : Option H) (f : List F) (w : GoString)
    (cs cs1 : List (PathTreeNode H F)) :
    (PathTreeNode.mk p h f w cs).setChildrenNode cs1 = .mk p h f w cs1 := rfl

theorem isWildcard_false_name (p : GoString) (h : (isWildcard p).2 = false) :
    (isWildcard p).1 = [] := by
  unfold isWildcard at h ⊢
  dsimp only at h ⊢
  split_ifs at h ⊢ <;> simp_all

theorem newPathTreeNode_eq (p : GoString) :
    (NewPathTreeNode p : PathTreeNode H F) = .mk p none [] (isWildcard p).1 [] := by
  unfold NewPathTreeNode
  cases hw : isWildcard p with
  | mk name b =>
    cases b with
    | true => rfl
    | false =>
      have := isWildcard_false_name p (by rw [hw])
      rw [hw] at this
      simp only at this
      subst this
      rfl

theorem putNode_cons (h : H) (fs : List F) (seg : GoString) (rest : List GoString)
    (n : PathTreeNode H F) :
    putNode h fs (seg :: rest) n =
      match n.findChildIdx seg with
      | some i => n.updateChild i (putCur h fs rest)
      | none => n.setChildrenNode (n.childrenNode ++ [putCur h fs rest (NewPathTreeNode seg)]) := by
  rw [putNode]
  have hfun : (fun curNode : PathTreeNode H F =>
      match rest with
      | [] =>
        let cur := curNode.setHandler (some h)
        if 0 < fs.length then cur.setFilters fs else cur
      | _ :: _ => putNode h fs rest curNode) = putCur h fs rest := by
    funext c
    cases rest <;> simp [putCur, setRoute]
  rw [hfun]
  cases n with
  | mk p h0 f0 w cs =>
    cases hi : (PathTreeNode.mk p h0 f0 w cs).findChildIdx seg with
    | some i => rfl
    | none =>
      simp only [AppendChildNode, updateChild, childrenNode_mk, setChildrenNode_mk,
        modifyAt_length_append]

end NodeLemmas

section PutLemmas

variable {H F : Type}

theorem path_setRoute (h : H) (fs : List F) (c : PathTreeNode H F) :
    (setRoute h fs c).path = c.path := by
  cases c; unfold setRoute; split_ifs <;> rfl

theorem childrenNode_setRoute (h : H) (fs : List F) (c : PathTreeNode H F) :
    (setRoute h fs c).childrenNode = c.childrenNode := by
  cases c; unfold setRoute; split_ifs <;> rfl

theorem handler_setRoute (h : H) (fs : List F) (c : PathTreeNode H F) :
    (setRoute h fs c).handler = some h := by
  cases c; unfold setRoute; split_ifs <;> rfl

theorem wildcardName_setRoute (h : H) (fs : List F) (c : PathTreeNode H F) :
    (setRoute h fs c).wildcardName = c.wildcardName := by
  cases c; unfold setRoute; split_ifs <;> rfl

theorem path_putNode (h : H) (fs : List F) (ps : List GoString) (n : PathTreeNode H F) :
    (putNode h fs ps n).path = n.path := by
  cases ps with
  | nil => rfl
  | cons seg rest =>
    rw [putNode_cons]
    cases n with
    | mk p h0 f0 w cs => cases (PathTreeNode.mk p h0 f0 w cs).findChildIdx seg <;> rfl

theorem handler_putNode_cons (h : H) (fs : List F) (seg : GoString) (rest : List GoString)
    (n : PathTreeNode H F) : (putNode h fs (seg :: rest) n).handler = n.handler := by
  rw [putNode_cons]
  cases n with
  | mk p h0 f0 w cs => cases (PathTreeNode.mk p h0 f0 w cs).findChildIdx seg <;> rfl

theorem path_putCur (h : H) (fs : List F) (rest : List GoString) (c : PathTreeNode H F) :
    (putCur h fs rest c).path = c.path := by
  cases rest with
  | nil => exact path_setRoute h fs c
  | cons s r => exact path_putNode h fs (s :: r) c

theorem find_modifyAt {g : PathTreeNode H F → PathTreeNode H F}
    (hg : ∀ c, (g c).path = c.path) (seg q : GoString) :
    ∀ (cs : List (PathTreeNode H F)) (i : Nat),
      firstIdx (fun c => decide (c.path = seg)) cs = some i →
      (modifyAt g i cs).find? (fun c => decide (c.path = q)) =
        if q = seg then (cs.find? (fun c => decide (c.path = seg))).map g
        else cs.find? (fun c => decide (c.path = q)) := by
  intro cs
  induction cs with
  | nil => intro i h; simp [firstIdx] at h
  | cons a as ih =>
    intro i h
    by_cases ha : a.path = seg
    · simp only [firstIdx, ha, decide_True, if_true, Option.some.injEq] at h
      subst h
      by_cases hq : q = seg
      · subst hq
        simp [modifyAt, List.find?, hg, ha]
      · have : ¬ seg = q := fun e => hq e.symm
        simp [modifyAt, List.find?, hg, ha, hq, this]
    · simp only [firstIdx, ha, decide_False, Bool.false_eq_true, if_false,
        Option.map_eq_some'] at h
      obtain ⟨j, hj, rfl⟩ := h
      have := ih j hj
      by_cases hq : q = seg
      · subst hq
        simp only [if_true] at this
        simp [modifyAt, List.find?, ha, this]
      · simp only [hq, if_false] at this
        by_cases haq : a.path = q
        · simp [modifyAt, List.find?, haq, hq]
        · simp [modifyAt, List.find?, haq, hq, this]

theorem find_append_new (seg q : GoString) (cs : List (PathTreeNode H F))
    (x : PathTreeNode H F) (hx : x.path = seg)
    (h : cs.find? (fun c => decide (c.path = seg)) = none) :
    (cs ++ [x]).find? (fun c => decide (c.path = q)) =
      if q = seg then some x else cs.find? (fun c => decide (c.path = q)) := by
  rw [List.find?_append]
  by_cases hq : q = seg
  · subst hq
    simp [h, List.find?, hx]
  · have : ¬ seg = q := fun e => hq e.symm
    simp [List.find?, hx, hq, this]

theorem findChildNode_putNode (h : H) (fs : List F) (seg q : GoString) (rest : List GoString)
    (n : PathTreeNode H F) :
    (putNode h fs (seg :: rest) n).findChildNode q =
      if q = seg then some (putCur h fs rest (curOf n seg)) else n.findChildNode q := by
  rw [putNode_cons]
  cases n with
  | mk p h0 f0 w cs =>
    cases hi : (PathTreeNode.mk p h0 f0 w cs).findChildIdx seg with
    | some i =>
      simp only [findChildIdx, childrenNode_mk] at hi
      obtain ⟨a, ha, _⟩ := firstIdx_eq_some hi
      simp only [updateChild, childrenNode_mk, setChildrenNode_mk, findChildNode,
        matchChildNode, curOf]
      rw [find_modifyAt (path_putCur h fs rest) seg q cs i hi, ha]
      rfl
    | none =>
      simp only [findChildIdx, childrenNode_mk] at hi
      have hn := firstIdx_eq_none hi
      simp only [childrenNode_mk, setChildrenNode_mk, findChildNode, matchChildNode, curOf]
      rw [find_append_new seg q cs _ (by rw [path_putCur, newPathTreeNode_eq]; rfl) hn, hn]
      rfl

end PutLemmas

section HandlerAt

variable {H F : Type}

theorem handlerAt_nil (n : PathTreeNode H F) : handlerAt [] n = n.handler := rfl

theorem handlerAt_cons (q : GoString) (r : List GoString) (n : PathTreeNode H F) :
    handlerAt (q :: r) n = (n.findChildNode q).bind (handlerAt r) := by
  unfold handlerAt
  rw [nodeAt]
  cases n.findChildNode q <;> rfl

theorem findChildNode_new (p q : GoString) :
    (NewPathTreeNode p : PathTreeNode H F).findChildNode q = none := by
  rw [newPathTreeNode_eq]; rfl

theorem handlerAt_new (p : GoString) (qs : List GoString) :
    handlerAt qs (NewPathTreeNode p : PathTreeNode H F) = none := by
  cases qs with
  | nil => rw [handlerAt_nil, newPathTreeNode_eq]; rfl
  | cons q r => rw [handlerAt_cons, findChildNode_new]; rfl

theorem handlerAt_cons_curOf (seg : GoString) (r : List GoString) (n : PathTreeNode H F) :
    handlerAt (seg :: r) n = handlerAt r (curOf n seg) := by
  rw [handlerAt_cons]
  unfold curOf
  cases n.findChildNode seg with
  | none => simp [handlerAt_new]
  | some c => rfl

theorem findChildNode_setRoute (h : H) (fs : List F) (c : PathTreeNode H F) (q : GoString) :
    (setRoute h fs c).findChildNode q = c.findChildNode q := by
  unfold findChildNode matchChildNode
  rw [childrenNode_setRoute]

theorem handlerAt_setRoute (h : H) (fs : List F) (c : PathTreeNode H F) (qs : List GoString) :
    handlerAt qs (setRoute h fs c) = if qs = [] then some h else handlerAt qs c := by
  cases qs with
  | nil => simp [handlerAt_nil, handler_setRoute]
  | cons q r => simp [handlerAt_cons, findChildNode_setRoute]

theorem handlerAt_putNode (h : H) (fs : List F) :
    ∀ (ps : List GoString), ps ≠ [] → ∀ (n : PathTreeNode H F) (qs : List GoString),
      handlerAt qs (putNode h fs ps n) = if qs = ps then some h else handlerAt qs n := by
  intro ps
  induction ps with
  | nil => intro hne; exact absurd rfl hne
  | cons seg rest ih =>
    intro _ n qs
    cases qs with
    | nil => simp [handlerAt_nil, handler_putNode_cons]
    | cons q r =>
      rw [handlerAt_cons, findChildNode_putNode]
      by_cases hq : q = seg
      · subst hq
        simp only [if_true, Option.some_bind, List.cons.injEq, true_and]
        rw [handlerAt_cons_curOf]
        cases rest with
        | nil => exact handlerAt_setRoute h fs _ r
        | cons s t => exact ih (by simp) _ r
      · simp only [hq, if_false, List.cons.injEq, false_and]
        rw [handlerAt_cons]

end HandlerAt

section SplitLemmas

theorem split_ne_nil (s : GoString) : split s ≠ [] := by
  cases s with
  | nil => simp [split]
  | cons c cs =>
    unfold split
    split_ifs
    · simp
    · cases split cs <;> simp

theorem split_cons_slash (cs : GoString) : split ('/' :: cs) = [] :: split cs := by
  rw [split]; simp

theorem split_cons_other (c : Char) (cs : GoString) (hc : c ≠ '/') :
    ∃ seg segs, split cs = seg :: segs ∧ split (c :: cs) = (c :: seg) :: segs := by
  cases hs : split cs with
  | nil => exact absurd hs (split_ne_nil cs)
  | cons seg segs =>
    refine ⟨seg, segs, rfl, ?_⟩
    rw [split]
    simp [hc, hs]

theorem split_injective : ∀ (a b : GoString), split a = split b → a = b := by
  intro a
  induction a with
  | nil =>
    intro b hab
    cases b with
    | nil => rfl
    | cons d ds =>
      by_cases hd : d = '/'
      · subst hd
        rw [split_cons_slash] at hab
        simp only [split, List.cons.injEq, true_and] at hab
        exact absurd hab.symm (split_ne_nil ds)
      · obtain ⟨seg, segs, _, h2⟩ := split_cons_other d ds hd
        rw [h2] at hab
        simp [split] at hab
  | cons c cs ih =>
    intro b hab
    by_cases hc : c = '/'
    · subst hc
      rw [split_cons_slash] at hab
      cases b with
      | nil =>
        simp only [split, List.cons.injEq, true_and] at hab
        exact absurd hab (split_ne_nil cs)
      | cons d ds =>
        by_cases hd : d = '/'
        · subst hd
          rw [split_cons_slash] at hab
          simp only [List.cons.injEq, true_and] at hab
          rw [ih ds hab]
        · obtain ⟨seg, segs, _, h2⟩ := split_cons_other d ds hd
          rw [h2] at hab
          simp at hab
    · obtain ⟨seg, segs, h1, h2⟩ := split_cons_other c cs hc
      rw [h2] at hab
      cases b with
      | nil => simp [split] at hab
      | cons d ds =>
        by_cases hd : d = '/'
        · subst hd
          rw [split_cons_slash] at hab
          simp at hab
        · obtain ⟨seg1, segs1, h3, h4⟩ := split_cons_other d ds hd
          rw [h4] at hab
          simp only [List.cons.injEq] at hab
          obtain ⟨⟨hcd, hseg⟩, hsegs⟩ := hab
          have : split cs = split ds := by rw [h1, h3, hseg, hsegs]
          rw [hcd, ih ds this]

theorem address_root : address ['/'] = some [] := rfl

theorem address_eq_some_nil {p : GoString} (h : address p = some []) : p = ['/'] := by
  unfold address at h
  split_ifs at h with h1
  · exact h1
  · cases h0 : p[0]? with
    | none => rw [h0] at h; cases h
    | some c =>
      rw [h0] at h
      simp only at h
      split_ifs at h
      simp only [Option.some.injEq] at h
      exact absurd h (split_ne_nil _)

theorem address_cases (p : GoString) :
    (p = ['/'] ∧ address p = some []) ∨
    (p ≠ ['/'] ∧ ∃ rest, p = '/' :: rest ∧ address p = some (split rest)) ∨
    (address p = none ∧ ∀ rest, p ≠ '/' :: rest) := by
  by_cases h1 : p = ['/']
  · exact Or.inl ⟨h1, by rw [h1]; rfl⟩
  · cases p with
    | nil => exact Or.inr (Or.inr ⟨rfl, by simp⟩)
    | cons c cs =>
      by_cases hc : c = '/'
      · subst hc
        refine Or.inr (Or.inl ⟨h1, cs, rfl, ?_⟩)
        unfold address
        simp [h1]
      · refine Or.inr (Or.inr ⟨?_, ?_⟩)
        · unfold address
          simp [h1, hc]
        · intro rest h; simp at h; exact hc h.1

theorem address_injective {p q : GoString} {segs : List GoString}
    (hp : address p = some segs) (hq : address q = some segs) : p = q := by
  rcases address_cases p with ⟨h1, h2⟩ | ⟨_, r1, h1, h2⟩ | ⟨h2, _⟩
  · rw [h2] at hp
    cases hp
    rw [h1, address_eq_some_nil hq]
  · rcases address_cases q with ⟨h3, h4⟩ | ⟨_, r2, h3, h4⟩ | ⟨h4, _⟩
    · rw [h4] at hq
      cases hq
      rw [h3, address_eq_some_nil hp]
    · rw [h2] at hp
      rw [h4] at hq
      cases hp
      simp only [Option.some.injEq] at hq
      rw [h1, h3, split_injective r2 r1 hq]
    · rw [h4] at hq; cases hq
  · rw [h2] at hp; cases hp

end SplitLemmas

section PutStep

variable {H F : Type}

theorem putStep_cases (t : PathTree H F) (c : PutCall H F) :
    (putStep t c = t ∧ (c.handler = none ∨ address c.pattern = none)) ∨
    (∃ h, c.handler = some h ∧ c.pattern = ['/'] ∧
      putStep t c = ⟨t.root.setHandler (some h)⟩) ∨
    (∃ h rest, c.handler = some h ∧ c.pattern = '/' :: rest ∧ c.pattern ≠ ['/'] ∧
      putStep t c = ⟨putNode h c.filters (split rest) t.root⟩) := by
  cases hh : c.handler with
  | none =>
    left
    simp [putStep, Put, hh]
  | some h =>
    rcases address_cases c.pattern with ⟨h1, _⟩ | ⟨h1, rest, h2, _⟩ | ⟨h1, h2⟩
    · right; left
      refine ⟨h, rfl, h1, ?_⟩
      simp [putStep, Put, hh, h1]
    · right; right
      refine ⟨h, rest, rfl, h2, h1, ?_⟩
      have h3 : rest ≠ [] := fun e => h1 (by rw [h2, e])
      simp [putStep, Put, hh, h2, h3]
    · left
      refine ⟨?_, Or.inr h1⟩
      cases hp : c.pattern with
      | nil => simp [putStep, Put, hh, hp]
      | cons d ds =>
        have hd : d ≠ '/' := fun e => h2 ds (by rw [hp, e])
        simp [putStep, Put, hh, hp, hd]

theorem handlerAt_setHandler (h : Option H) (n : PathTreeNode H F) (qs : List GoString) :
    handlerAt qs (n.setHandler h) = if qs = [] then h else handlerAt qs n := by
  cases n with
  | mk p h0 f w cs =>
    cases qs with
    | nil => rfl
    | cons q r => simp only [handlerAt_cons, setHandler_mk, if_false]; rfl

theorem handlerAt_putStep_some (t : PathTree H F) (c : PutCall H F) (h : H)
    (segs qs : List GoString) (hh : c.handler = some h) (ha : address c.pattern = some segs) :
    handlerAt qs (putStep t c).root = if qs = segs then some h else handlerAt qs t.root := by
  rcases putStep_cases t c with ⟨_, h1 | h1⟩ | ⟨h0, h1, h2, h3⟩ | ⟨h0, rest, h1, h2, h3, h4⟩
  · rw [hh] at h1; cases h1
  · rw [ha] at h1; cases h1
  · rw [hh] at h1
    cases h1
    rw [h2] at ha
    cases ha
    rw [h3]
    exact handlerAt_setHandler (some h) t.root qs
  · rw [hh] at h1
    cases h1
    have : address c.pattern = some (split rest) := by
      rcases address_cases c.pattern with ⟨e, _⟩ | ⟨_, r, e1, e2⟩ | ⟨_, e⟩
      · exact absurd e h3
      · rw [h2] at e1
        cases e1
        exact e2
      · exact absurd h2 (e rest)
    rw [ha] at this
    cases this
    rw [h4]
    exact handlerAt_putNode h c.filters (split rest) (split_ne_nil rest) t.root qs

theorem handlerAt_putStep_other (t : PathTree H F) (c : PutCall H F) (p : GoString)
    (qs : List GoString) (hp : address p = some qs) (hne : c.pattern ≠ p) :
    handlerAt qs (putStep t c).root = handlerAt qs t.root := by
  cases hh : c.handler with
  | none =>
    rcases putStep_cases t c with ⟨h1, _⟩ | ⟨h0, h1, _⟩ | ⟨h0, _, h1, _⟩
    · rw [h1]
    · rw [hh] at h1; cases h1
    · rw [hh] at h1; cases h1
  | some h =>
    cases ha : address c.pattern with
    | none =>
      rcases putStep_cases t c with ⟨h1, _⟩ | ⟨h0, _, h2, _⟩ | ⟨h0, rest, _, h2, h3, _⟩
      · rw [h1]
      · rw [h2] at ha; cases ha
      · rcases address_cases c.pattern with ⟨e, _⟩ | ⟨_, r, _, e2⟩ | ⟨_, e⟩
        · exact absurd e h3
        · rw [ha] at e2; cases e2
        · exact absurd h2 (e rest)
    | some segs =>
      rw [handlerAt_putStep_some t c h segs qs hh ha]
      have : qs ≠ segs := by
        intro e
        subst e
        exact hne (address_injective ha hp)
      simp [this]

theorem putAll_append (xs ys : List (PutCall H F)) (t : PathTree H F) :
    putAll (xs ++ ys) t = putAll ys (putAll xs t) := by
  simp [putAll, List.foldl_append]

theorem putAll_cons (x : PutCall H F) (ys : List (PutCall H F)) (t : PathTree H F) :
    putAll (x :: ys) t = putAll ys (putStep t x) := rfl

theorem handlerAt_putAll_other (p : GoString) (qs : List GoString) (hp : address p = some qs) :
    ∀ (post : List (PutCall H F)) (t : PathTree H F), (∀ c ∈ post, c.pattern ≠ p) →
      handlerAt qs (putAll post t).root = handlerAt qs t.root := by
  intro post
  induction post with
  | nil => intro t _; rfl
  | cons c cs ih =>
    intro t hall
    rw [putAll_cons, ih _ (fun d hd => hall d (List.mem_cons_of_mem _ hd)),
      handlerAt_putStep_other t c p qs hp (hall c (List.mem_cons_self _ _))]

theorem handlerAt_putAll_last (pre post : List (PutCall H F)) (p : GoString) (h : H)
    (fs : List F) (qs : List GoString) (t : PathTree H F) (hp : address p = some qs)
    (hpost : ∀ c ∈ post, c.pattern ≠ p) :
    handlerAt qs (putAll (pre ++ ⟨p, some h, fs⟩ :: post) t).root = some h := by
  rw [putAll_append, putAll_cons, handlerAt_putAll_other p qs hp post _ hpost,
    handlerAt_putStep_some _ ⟨p, some h, fs⟩ h qs qs rfl hp]
  simp

end PutStep

section FindLemmas

variable {H F : Type}

theorem findNode_literal (seg : GoString) (rest : List GoString) (n cur : PathTreeNode H F)
    (params : Params) (h : n.findChildNode seg = some cur) :
    findNode (seg :: rest) n params =
      match rest with
      | [] => (some cur, params)
      | _ :: _ => findNode rest cur params := by
  rw [findNode]
  simp only [h]

theorem findNode_wildcard (seg : GoString) (rest : List GoString) (n cur : PathTreeNode H F)
    (params : Params) (h : n.findChildNode seg = none)
    (hw : n.matchChildNode (fun cnode => decide (cnode.wildcardName ≠ [])) = some cur) :
    findNode (seg :: rest) n params =
      match rest with
      | [] => (some cur, params.set cur.wildcardName seg)
      | _ :: _ => findNode rest cur (params.set cur.wildcardName seg) := by
  rw [findNode]
  simp only [h, hw]

theorem findNode_no_child (seg : GoString) (rest : List GoString) (n : PathTreeNode H F)
    (params : Params) (h : n.findChildNode seg = none)
    (hw : n.matchChildNode (fun cnode => decide (cnode.wildcardName ≠ [])) = none) :
    findNode (seg :: rest) n params = (none, params) := by
  rw [findNode]
  simp only [h, hw]

theorem findNode_literal_last (seg : GoString) (n cur : PathTreeNode H F) (params : Params)
    (h : n.findChildNode seg = some cur) :
    findNode [seg] n params = (some cur, params) :=
  findNode_literal seg [] n cur params h

theorem findNode_literal_cons (seg s : GoString) (r : List GoString) (n cur : PathTreeNode H F)
    (params : Params) (h : n.findChildNode seg = some cur) :
    findNode (seg :: s :: r) n params = findNode (s :: r) cur params :=
  findNode_literal seg (s :: r) n cur params h

theorem findNode_wildcard_last (seg : GoString) (n cur : PathTreeNode H F) (params : Params)
    (h : n.findChildNode seg = none)
    (hw : n.matchChildNode (fun cnode => decide (cnode.wildcardName ≠ [])) = some cur) :
    findNode [seg] n params = (some cur, params.set cur.wildcardName seg) :=
  findNode_wildcard seg [] n cur params h hw

theorem findNode_wildcard_cons (seg s : GoString) (r : List GoString) (n cur : PathTreeNode H F)
    (params : Params) (h : n.findChildNode seg = none)
    (hw : n.matchChildNode (fun cnode => decide (cnode.wildcardName ≠ [])) = some cur) :
    findNode (seg :: s :: r) n params = findNode (s :: r) cur (params.set cur.wildcardName seg) :=
  findNode_wildcard seg (s :: r) n cur params h hw

theorem findNode_of_nodeAt :
    ∀ (ps : List GoString) (n m : PathTreeNode H F) (params : Params), ps ≠ [] →
      nodeAt ps n = some m → findNode ps n params = (some m, params) := by
  intro ps
  induction ps with
  | nil => intro n m params hne; exact absurd rfl hne
  | cons seg rest ih =>
    intro n m params _ hm
    rw [nodeAt] at hm
    cases hc : n.findChildNode seg with
    | none => rw [hc] at hm; cases hm
    | some cur =>
      rw [hc] at hm
      simp only [Option.some_bind] at hm
      rw [findNode_literal seg rest n cur params hc]
      cases rest with
      | nil =>
        simp only [nodeAt, Option.some.injEq] at hm
        rw [hm]
      | cons s r => exact ih cur m params (by simp) hm

theorem FindHandler_root (t : PathTree H F) :
    FindHandler ['/'] t = .ok (t.root.handler, t.root.filters, none) := by
  simp [FindHandler]

theorem FindHandler_slash (rest : GoString) (hne : rest ≠ []) (t : PathTree H F) :
    FindHandler ('/' :: rest) t =
      match findNode (split rest) t.root [] with
      | (some node, params) => .ok (node.handler, node.filters, some params)
      | (none, _) => .ok (none, [], none) := by
  simp [FindHandler, hne]

theorem FindHandler_of_handlerAt (p : GoString) (segs : List GoString) (t : PathTree H F)
    (h : H) (hp : address p = some segs) (hh : handlerAt segs t.root = some h) :
    ∃ fs ps, FindHandler p t = .ok (some h, fs, ps) := by
  rcases address_cases p with ⟨h1, h2⟩ | ⟨h1, rest, h2, h3⟩ | ⟨h2, _⟩
  · rw [hp] at h2
    cases h2
    rw [h1, FindHandler_root]
    rw [handlerAt_nil] at hh
    exact ⟨_, _, by rw [hh]⟩
  · rw [hp] at h3
    cases h3
    have hne : rest ≠ [] := fun e => h1 (by rw [h2, e])
    rw [h2, FindHandler_slash rest hne]
    unfold handlerAt at hh
    cases hm : nodeAt (split rest) t.root with
    | none => rw [hm] at hh; cases hh
    | some m =>
      rw [hm] at hh
      simp only [Option.some_bind] at hh
      rw [findNode_of_nodeAt (split rest) t.root m [] (split_ne_nil rest) hm]
      exact ⟨m.filters, some [], by simp only [hh]⟩
  · rw [hp] at h2; cases h2

theorem address_of_head {p : GoString} (h : p.head? = some '/') : ∃ segs, address p = some segs := by
  rcases address_cases p with ⟨_, h2⟩ | ⟨_, _, _, h3⟩ | ⟨_, h3⟩
  · exact ⟨_, h2⟩
  · exact ⟨_, h3⟩
  · cases p with
    | nil => cases h
    | cons c cs =>
      simp only [List.head?_cons, Option.some.injEq] at h
      exact absurd (by rw [h]) (h3 cs)

end FindLemmas

/-- The handler `FindHandler` returns for a pattern starting with `'/'` is the one of the
last `Put` of that pattern. -/
theorem FindHandler_returns_last_put_aux {H F : Type} (pre post : List (PutCall H F))
    (P : GoString) (h : H) (fs : List F) (hslash : P.head? = some '/')
    (hpost : ∀ c ∈ post, c.pattern ≠ P) :
    ∃ fs1 params,
      FindHandler P (putAll (pre ++ ⟨P, some h, fs⟩ :: post) NewPathTree) =
        .ok (some h, fs1, params) := by
  obtain ⟨segs, hsegs⟩ := address_of_head hslash
  exact FindHandler_of_handlerAt P segs _ h hsegs
    (handlerAt_putAll_last pre post P h fs segs NewPathTree hsegs hpost)

/-- **C1.** For every tree built from `NewPathTree` by a sequence of `Put` calls, every
pattern `P` that starts with `'/'` and has no wildcard segment, and every non-nil handler
`h`: when the most recent `Put` whose pattern equals `P` registered `h` (calls with other
patterns may come before, between and after), `FindHandler(P)` returns `h` as its
handler. -/
theorem FindHandler_returns_last_put {H F : Type} (pre post : List (PutCall H F))
    (P : GoString) (h : H) (fs : List F)
    (hslash : P.head? = some '/')
    (_hlit : ∀ seg ∈ segments P, (isWildcard seg).2 = false)
    (hpost : ∀ c ∈ post, c.pattern ≠ P) :
    ∃ fs1 params,
      FindHandler P (putAll (pre ++ ⟨P, some h, fs⟩ :: post) NewPathTree) =
        .ok (some h, fs1, params) := by
  obtain ⟨segs, hsegs⟩ := address_of_head hslash
  have hlast : handlerAt segs
      (putAll (pre ++ ⟨P, some h, fs⟩ :: post) NewPathTree).root = some h :=
    handlerAt_putAll_last pre post P h fs segs NewPathTree hsegs hpost
  exact FindHandler_of_handlerAt P segs _ h hsegs hlast

/-- Witness of `FindHandler_returns_last_put`: `/api/v1/user` registered between two other
routes. -/
theorem FindHandler_returns_last_put_witness :
    ∃ fs1 params,
      FindHandler "/api/v1/user".toList
        (putAll ([⟨"/".toList, some 1, []⟩] ++
          ⟨"/api/v1/user".toList, some 2, []⟩ ::
            [⟨"/api/v1/\x7b:user\x7d/add".toList, some 3, []⟩])
          (NewPathTree : PathTree Nat Nat)) = .ok (some 2, fs1, params) :=
  FindHandler_returns_last_put _ _ _ 2 [] (by decide) (by decide) (by decide)

/-- The tree whose only route is `/api/v1/{:user}/add`. -/
theorem userAddTree_eq {H F : Type} (h : H) :
    (putAll [⟨"/api/v1/\x7b:user\x7d/add".toList, some h, []⟩] NewPathTree : PathTree H F) =
      ⟨.mk "/".toList none [] [] [.mk "api".toList none [] [] [.mk "v1".toList none [] []
        [.mk "\x7b:user\x7d".toList none [] "user".toList
          [.mk "add".toList (some h) [] [] []]]]]⟩ := by
  rfl

theorem split_append_slash (a b : GoString) (ha : '/' ∉ a) :
    split (a ++ '/' :: b) = a :: split b := by
  induction a with
  | nil => exact split_cons_slash b
  | cons c cs ih =>
    have hc : c ≠ '/' := fun e => ha (by rw [e]; exact List.mem_cons_self _ _)
    have hcs : '/' ∉ cs := fun e => ha (List.mem_cons_of_mem _ e)
    obtain ⟨seg, segs, h1, h2⟩ := split_cons_other c (cs ++ '/' :: b) hc
    rw [List.cons_append, h2]
    rw [ih hcs] at h1
    cases h1
    rfl

theorem userAdd_segments (s : GoString) (hs : '/' ∉ s) :
    split ("api/v1/".toList ++ s ++ "/add".toList) =
      ["api".toList, "v1".toList, s, "add".toList] := by
  have e : "api/v1/".toList ++ s ++ "/add".toList =
      "api".toList ++ '/' :: ("v1".toList ++ '/' :: (s ++ '/' :: "add".toList)) := by
    simp
  rw [e, split_append_slash _ _ (by decide), split_append_slash _ _ (by decide),
    split_append_slash _ _ hs]
  rfl

section Wildcard

variable {H F : Type}

/-- **C3 (as amended).** In the tree whose only route is `Put("/api/v1/{:user}/add", h)`, for
every segment `s` that contains no `'/'` and is not the text `{:user}` itself,
`FindHandler("/api/v1/" + s + "/add")` returns the handler `h`, no filters, and the params
map `{"user": s}`. -/
theorem FindHandler_captures_user (h : H) (s : GoString) (hs : '/' ∉ s)
    (hne : s ≠ "\x7b:user\x7d".toList) :
    FindHandler ("/api/v1/".toList ++ s ++ "/add".toList)
      (putAll [⟨"/api/v1/\x7b:user\x7d/add".toList, some h, []⟩] NewPathTree : PathTree H F) =
      .ok (some h, [], some [("user".toList, s)]) := by
  rw [userAddTree_eq]
  have e : "/api/v1/".toList ++ s ++ "/add".toList =
      '/' :: ("api/v1/".toList ++ s ++ "/add".toList) := by simp
  rw [e, FindHandler_slash _ (by simp), userAdd_segments s hs]
  have hne1 : ¬ "\x7b:user\x7d".toList = s := fun e => hne e.symm
  have hfind : (PathTreeNode.mk "v1".toList none [] []
      [.mk "\x7b:user\x7d".toList none [] "user".toList
        [.mk "add".toList (some h) [] [] []]] : PathTreeNode H F).findChildNode s = none := by
    unfold findChildNode matchChildNode
    simp only [childrenNode_mk, List.find?, path_mk]
    rw [decide_eq_false hne1]
  rw [findNode_literal_cons "api".toList "v1".toList [s, "add".toList]
    (.mk "/".toList none [] [] [.mk "api".toList none [] [] [.mk "v1".toList none [] []
      [.mk "\x7b:user\x7d".toList none [] "user".toList
        [.mk "add".toList (some h) [] [] []]]]] : PathTreeNode H F) _ [] rfl]
  rw [findNode_literal_cons "v1".toList s ["add".toList]
    (.mk "api".toList none [] [] [.mk "v1".toList none [] []
      [.mk "\x7b:user\x7d".toList none [] "user".toList
        [.mk "add".toList (some h) [] [] []]]] : PathTreeNode H F) _ [] rfl]
  rw [findNode_wildcard_cons s "add".toList [] _ _ [] hfind rfl]
  rw [findNode_literal_last "add".toList
    (.mk "\x7b:user\x7d".toList none [] "user".toList
        [.mk "add".toList (some h) [] [] []] : PathTreeNode H F) _ _ rfl]
  rfl

/-- Witness of `FindHandler_captures_user`: the segment `lisi`. -/
theorem FindHandler_captures_user_witness :
    FindHandler ("/api/v1/".toList ++ "lisi".toList ++ "/add".toList)
      (putAll [⟨"/api/v1/\x7b:user\x7d/add".toList, some 3, []⟩] NewPathTree : PathTree Nat Nat) =
      .ok (some 3, [], some [("user".toList, "lisi".toList)]) :=
  FindHandler_captures_user 3 "lisi".toList (by decide) (by decide)

/-- **C3 (counterexample).** The segment `{:user}` contains no `'/'`, and in the tree whose
only route is `Put("/api/v1/{:user}/add", 3)` the lookup of `/api/v1/{:user}/add` matches the
wildcard node as a literal: it returns the handler with an empty params map, not
`{"user": "{:user}"}`. -/
theorem FindHandler_wildcard_text_not_captured :
    '/' ∉ "\x7b:user\x7d".toList ∧
    FindHandler ("/api/v1/".toList ++ "\x7b:user\x7d".toList ++ "/add".toList)
      (putAll [⟨"/api/v1/\x7b:user\x7d/add".toList, some 3, []⟩] NewPathTree : PathTree Nat Nat) =
      .ok (some 3, [], some []) ∧
    FindHandler ("/api/v1/".toList ++ "\x7b:user\x7d".toList ++ "/add".toList)
      (putAll [⟨"/api/v1/\x7b:user\x7d/add".toList, some 3, []⟩] NewPathTree : PathTree Nat Nat) ≠
      .ok (some 3, [], some [("user".toList, "\x7b:user\x7d".toList)]) := by
  refine ⟨by decide, rfl, ?_⟩
  intro h
  have h2 : FindHandler ("/api/v1/".toList ++ "\x7b:user\x7d".toList ++ "/add".toList)
      (putAll [⟨"/api/v1/\x7b:user\x7d/add".toList, some 3, []⟩] NewPathTree : PathTree Nat Nat) =
      .ok (some 3, [], some []) := rfl
  rw [h2] at h
  simp at h

end Wildcard

/-- **C6.** At a level where the current node has a child whose path equals the current
segment, `findNode` descends into that child only: its result is the result of the lookup
below that child, whatever wildcard siblings exist, so a failure below the literal child is
the failure of the whole lookup.  In particular with `/api/v1/user` and
`/api/v1/{:user}/add` registered, the lookups of `/api/v1/user/del` and `/api/v1/user/add`
return a nil handler. -/
theorem findNode_literal_child_only (H F : Type) :
    (∀ (n cur : PathTreeNode H F) (seg : GoString) (rest : List GoString) (params : Params),
      n.findChildNode seg = some cur →
        (findNode (seg :: rest) n params =
          match rest with
          | [] => (some cur, params)
          | _ :: _ => findNode rest cur params) ∧
        (rest ≠ [] → (findNode rest cur params).1 = none →
          (findNode (seg :: rest) n params).1 = none)) ∧
    (∀ (h1 h2 : H),
      FindHandler "/api/v1/user/del".toList
        (putAll [⟨"/api/v1/user".toList, some h1, []⟩,
          ⟨"/api/v1/\x7b:user\x7d/add".toList, some h2, []⟩] NewPathTree : PathTree H F) =
        .ok (none, [], none) ∧
      FindHandler "/api/v1/user/add".toList
        (putAll [⟨"/api/v1/user".toList, some h1, []⟩,
          ⟨"/api/v1/\x7b:user\x7d/add".toList, some h2, []⟩] NewPathTree : PathTree H F) =
        .ok (none, [], none)) := by
  refine ⟨?_, ?_⟩
  · intro n cur seg rest params h
    refine ⟨findNode_literal seg rest n cur params h, ?_⟩
    intro hne hnone
    rw [findNode_literal seg rest n cur params h]
    cases rest with
    | nil => exact absurd rfl hne
    | cons s r => exact hnone
  · intro h1 h2
    exact ⟨rfl, rfl⟩

/-- Witness of `findNode_literal_child_only`: below `v1` the literal child `user` (without
children) is chosen for `user/add`, although its wildcard sibling `{:user}` has a child
`add`. -/
theorem findNode_literal_child_only_witness :
    (PathTreeNode.mk "v1".toList none [] []
        [.mk "user".toList (some 1) [] [] [],
         .mk "\x7b:user\x7d".toList none [] "user".toList
          [.mk "add".toList (some 2) [] [] []]] : PathTreeNode Nat Nat).findChildNode
        "user".toList = some (.mk "user".toList (some 1) [] [] []) ∧
    (findNode ["user".toList, "add".toList]
        (PathTreeNode.mk "v1".toList none [] []
          [.mk "user".toList (some 1) [] [] [],
           .mk "\x7b:user\x7d".toList none [] "user".toList
            [.mk "add".toList (some 2) [] [] []]] : PathTreeNode Nat Nat) []).1 = none :=
  ⟨rfl, ((findNode_literal_child_only Nat Nat).1
    (.mk "v1".toList none [] []
      [.mk "user".toList (some 1) [] [] [],
       .mk "\x7b:user\x7d".toList none [] "user".toList
        [.mk "add".toList (some 2) [] [] []]])
    (.mk "user".toList (some 1) [] [] []) "user".toList ["add".toList] [] rfl).2
    (by simp) rfl⟩

section WellFormed

variable {H F : Type}

theorem WF.nodup {n : PathTreeNode H F} (h : WF n) :
    (n.childrenNode.map PathTreeNode.path).Nodup := by
  cases h with
  | mk p h0 f cs hn hc => exact hn

theorem WF.children {n : PathTreeNode H F} (h : WF n) : ∀ c ∈ n.childrenNode, WF c := by
  cases h with
  | mk p h0 f cs hn hc => exact hc

theorem WF.wildcard {n : PathTreeNode H F} (h : WF n) :
    n.wildcardName = (isWildcard n.path).1 := by
  cases h with
  | mk p h0 f cs hn hc => rfl

theorem WF.intro (n : PathTreeNode H F) (hw : n.wildcardName = (isWildcard n.path).1)
    (hn : (n.childrenNode.map PathTreeNode.path).Nodup) (hc : ∀ c ∈ n.childrenNode, WF c) :
    WF n := by
  cases n with
  | mk p h0 f w cs =>
    simp only [wildcardName_mk, path_mk] at hw
    subst hw
    exact WF.mk p h0 f cs hn hc

theorem wf_new (p : GoString) : WF (NewPathTreeNode p : PathTreeNode H F) := by
  rw [newPathTreeNode_eq]
  exact WF.mk p none [] [] (by simp) (by simp)

theorem wf_setHandler (h : Option H) {n : PathTreeNode H F} (hn : WF n) :
    WF (n.setHandler h) := by
  cases hn with
  | mk p h0 f cs hn hc => exact WF.mk p h f cs hn hc

theorem wf_setRoute (h : H) (fs : List F) {n : PathTreeNode H F} (hn : WF n) :
    WF (setRoute h fs n) := by
  cases hn with
  | mk p h0 f cs hn hc =>
    unfold setRoute
    split_ifs
    · exact WF.mk p (some h) fs cs hn hc
    · exact WF.mk p (some h) f cs hn hc

theorem map_path_modifyAt {g : PathTreeNode H F → PathTreeNode H F}
    (hg : ∀ c, (g c).path = c.path) (cs : List (PathTreeNode H F)) (i : Nat) :
    (modifyAt g i cs).map PathTreeNode.path = cs.map PathTreeNode.path := by
  induction cs generalizing i with
  | nil => cases i <;> rfl
  | cons a as ih =>
    cases i with
    | zero => simp [modifyAt, hg]
    | succ j => simp [modifyAt, ih]

theorem mem_modifyAt {α : Type} {g : α → α} {cs : List α} {i : Nat} {c : α}
    (h : c ∈ modifyAt g i cs) : c ∈ cs ∨ ∃ c0 ∈ cs, c = g c0 := by
  induction cs generalizing i with
  | nil => simp [modifyAt] at h
  | cons a as ih =>
    cases i with
    | zero =>
      simp only [modifyAt, List.mem_cons] at h
      rcases h with h | h
      · exact Or.inr ⟨a, List.mem_cons_self _ _, h⟩
      · exact Or.inl (List.mem_cons_of_mem _ h)
    | succ j =>
      simp only [modifyAt, List.mem_cons] at h
      rcases h with h | h
      · exact Or.inl (by rw [h]; exact List.mem_cons_self _ _)
      · rcases ih h with h1 | ⟨c0, h1, h2⟩
        · exact Or.inl (List.mem_cons_of_mem _ h1)
        · exact Or.inr ⟨c0, List.mem_cons_of_mem _ h1, h2⟩

theorem wf_putNode (h : H) (fs : List F) :
    ∀ (ps : List GoString) (n : PathTreeNode H F), WF n → WF (putNode h fs ps n) := by
  intro ps
  induction ps with
  | nil => intro n hn; exact hn
  | cons seg rest ih =>
    intro n hn
    have hcur : ∀ c : PathTreeNode H F, WF c → WF (putCur h fs rest c) := by
      intro c hc
      cases rest with
      | nil => exact wf_setRoute h fs hc
      | cons s r => exact ih c hc
    rw [putNode_cons]
    cases hn with
    | mk p h0 f cs hnd hch =>
      cases hi : (PathTreeNode.mk p h0 f (isWildcard p).1 cs).findChildIdx seg with
      | some i =>
        simp only [updateChild, childrenNode_mk, setChildrenNode_mk]
        refine WF.mk p h0 f _ ?_ ?_
        · rw [map_path_modifyAt (path_putCur h fs rest)]
          exact hnd
        · intro c hc
          rcases mem_modifyAt hc with h1 | ⟨c0, h1, h2⟩
          · exact hch c h1
          · rw [h2]
            exact hcur c0 (hch c0 h1)
      | none =>
        simp only [findChildIdx, childrenNode_mk] at hi
        have hnone := firstIdx_eq_none hi
        simp only [childrenNode_mk, setChildrenNode_mk]
        refine WF.mk p h0 f _ ?_ ?_
        · rw [List.map_append, List.map_cons, List.map_nil, path_putCur, newPathTreeNode_eq,
            path_mk]
          refine List.Nodup.append hnd (by simp) ?_
          intro x hx1 hx2
          simp only [List.mem_singleton] at hx2
          subst hx2
          obtain ⟨c, hc1, hc2⟩ := List.mem_map.mp hx1
          have := List.find?_eq_none.mp hnone c hc1
          simp [hc2] at this
        · intro c hc
          rcases List.mem_append.mp hc with h1 | h1
          · exact hch c h1
          · simp only [List.mem_singleton] at h1
            rw [h1]
            exact hcur _ (wf_new seg)

theorem wf_putStep (t : PathTree H F) (c : PutCall H F) (ht : WF t.root) :
    WF (putStep t c).root := by
  rcases putStep_cases t c with ⟨h1, _⟩ | ⟨h0, _, _, h3⟩ | ⟨h0, rest, _, _, _, h4⟩
  · rw [h1]; exact ht
  · rw [h3]; exact wf_setHandler _ ht
  · rw [h4]; exact wf_putNode h0 c.filters _ _ ht

theorem wf_putAll (calls : List (PutCall H F)) :
    ∀ (t : PathTree H F), WF t.root → WF (putAll calls t).root := by
  induction calls with
  | nil => intro t ht; exact ht
  | cons c cs ih => intro t ht; exact ih _ (wf_putStep t c ht)

theorem wf_newTree : WF (NewPathTree : PathTree H F).root :=
  wf_new ['/']

theorem wf_of_isNodeOf {m n : PathTreeNode H F} (h : IsNodeOf m n) (hn : WF n) : WF m := by
  induction h with
  | self => exact hn
  | child hc _ ih => exact ih (hn.children _ hc)

end WellFormed

section Soundness

variable {H F : Type}

theorem find_of_nodup_path {cs : List (PathTreeNode H F)} {c : PathTreeNode H F}
    (hn : (cs.map PathTreeNode.path).Nodup) (hc : c ∈ cs) :
    cs.find? (fun node => decide (node.path = c.path)) = some c := by
  induction cs with
  | nil => cases hc
  | cons a as ih =>
    simp only [List.map_cons, List.nodup_cons] at hn
    rcases List.mem_cons.mp hc with h | h
    · subst h
      simp [List.find?]
    · have hne : a.path ≠ c.path := by
        intro e
        exact hn.1 (by rw [e]; exact List.mem_map_of_mem _ h)
      simp only [List.find?, hne, decide_False]
      exact ih hn.2 h

theorem wildcard_child_spec {n cur : PathTreeNode H F} (hn : WF n)
    (hw : n.matchChildNode (fun cnode => decide (cnode.wildcardName ≠ [])) = some cur) :
    n.findChildNode cur.path = some cur ∧ (isWildcard cur.path).2 = true ∧ WF cur := by
  unfold matchChildNode at hw
  have hmem : cur ∈ n.childrenNode := List.mem_of_find?_eq_some hw
  have hp := List.find?_some hw
  simp only [decide_eq_true_eq] at hp
  have hwf : WF cur := hn.children cur hmem
  refine ⟨find_of_nodup_path hn.nodup hmem, ?_, hwf⟩
  cases hb : (isWildcard cur.path).2 with
  | true => rfl
  | false =>
    exact absurd (by rw [hwf.wildcard]; exact isWildcard_false_name _ hb) hp

theorem findNode_nil (n : PathTreeNode H F) (params : Params) :
    findNode [] n params = (none, params) := rfl

theorem findNode_sound :
    ∀ (ps : List GoString) (n m : PathTreeNode H F) (params params1 : Params), WF n →
      findNode ps n params = (some m, params1) →
      ∃ qs, nodeAt qs n = some m ∧ List.Forall₂ segMatches qs ps := by
  intro ps
  induction ps with
  | nil =>
    intro n m params params1 _ h
    rw [findNode_nil] at h
    cases h
  | cons seg rest ih =>
    intro n m params params1 hn h
    cases hc : n.findChildNode seg with
    | some cur =>
      have hcur : WF cur := hn.children cur (List.mem_of_find?_eq_some hc)
      rw [findNode_literal seg rest n cur params hc] at h
      cases rest with
      | nil =>
        simp only [Prod.mk.injEq, Option.some.injEq] at h
        refine ⟨[seg], ?_, List.Forall₂.cons (Or.inl rfl) List.Forall₂.nil⟩
        rw [nodeAt, hc, ← h.1]
        rfl
      | cons s r =>
        obtain ⟨qs, h1, h2⟩ := ih cur m params params1 hcur h
        refine ⟨seg :: qs, ?_, List.Forall₂.cons (Or.inl rfl) h2⟩
        rw [nodeAt, hc]
        exact h1
    | none =>
      cases hw : n.matchChildNode (fun cnode => decide (cnode.wildcardName ≠ [])) with
      | none =>
        rw [findNode_no_child seg rest n params hc hw] at h
        cases h
      | some cur =>
        obtain ⟨hf, hwild, hcur⟩ := wildcard_child_spec hn hw
        rw [findNode_wildcard seg rest n cur params hc hw] at h
        cases rest with
        | nil =>
          simp only [Prod.mk.injEq, Option.some.injEq] at h
          refine ⟨[cur.path], ?_, List.Forall₂.cons (Or.inr hwild) List.Forall₂.nil⟩
          rw [nodeAt, hf, ← h.1]
          rfl
        | cons s r =>
          obtain ⟨qs, h1, h2⟩ := ih cur m _ params1 hcur h
          refine ⟨cur.path :: qs, ?_, List.Forall₂.cons (Or.inr hwild) h2⟩
          rw [nodeAt, hf]
          exact h1

theorem handlerAt_newTree (qs : List GoString) :
    handlerAt qs (NewPathTree : PathTree H F).root = none :=
  handlerAt_new ['/'] qs

theorem putStep_inert (t : PathTree H F) (c : PutCall H F)
    (h : c.handler = none ∨ address c.pattern = none) : putStep t c = t := by
  rcases putStep_cases t c with ⟨h1, _⟩ | ⟨h0, h1, h2, _⟩ | ⟨h0, rest, h1, h2, h3, _⟩
  · exact h1
  · rcases h with h | h
    · rw [h] at h1; cases h1
    · rw [h2] at h; cases h
  · rcases h with h | h
    · rw [h] at h1; cases h1
    · rcases address_cases c.pattern with ⟨e, _⟩ | ⟨_, r, _, e2⟩ | ⟨_, e⟩
      · exact absurd e h3
      · rw [h] at e2; cases e2
      · exact absurd h2 (e rest)

theorem registered_of_handlerAt (calls : List (PutCall H F)) :
    ∀ (qs : List GoString) (h : H), handlerAt qs (putAll calls NewPathTree).root = some h →
      ∃ P pre fs post, address P = some qs ∧ calls = pre ++ ⟨P, some h, fs⟩ :: post ∧
        ∀ c ∈ post, c.pattern = P → c.handler = none := by
  induction calls using List.reverseRecOn with
  | nil =>
    intro qs h hh
    rw [show putAll ([] : List (PutCall H F)) NewPathTree = NewPathTree from rfl,
      handlerAt_newTree] at hh
    cases hh
  | append_singleton cs c ih =>
    intro qs h hh
    rw [putAll_append, putAll_cons] at hh
    change handlerAt qs (putStep (putAll cs NewPathTree) c).root = some h at hh
    have keep : handlerAt qs (putAll cs NewPathTree).root = some h →
        (∀ P, address P = some qs → c.pattern = P → c.handler = none) →
        ∃ P pre fs post, address P = some qs ∧ cs ++ [c] = pre ++ ⟨P, some h, fs⟩ :: post ∧
          ∀ d ∈ post, d.pattern = P → d.handler = none := by
      intro h1 h2
      obtain ⟨P, pre, fs, post, hP, hcs, hpost⟩ := ih qs h h1
      refine ⟨P, pre, fs, post ++ [c], hP, by rw [hcs]; simp, ?_⟩
      intro d hd hdP
      rcases List.mem_append.mp hd with h3 | h3
      · exact hpost d h3 hdP
      · simp only [List.mem_singleton] at h3
        subst h3
        exact h2 P hP hdP
    cases hch : c.handler with
    | none =>
      rw [putStep_inert _ c (Or.inl hch)] at hh
      exact keep hh (fun _ _ _ => hch)
    | some h1 =>
      cases hca : address c.pattern with
      | none =>
        rw [putStep_inert _ c (Or.inr hca)] at hh
        refine keep hh ?_
        intro P hP hcP
        rw [hcP, hP] at hca
        cases hca
      | some segs =>
        rw [handlerAt_putStep_some _ c h1 segs qs hch hca] at hh
        by_cases hq : qs = segs
        · subst hq
          simp only [if_true, Option.some.injEq] at hh
          subst hh
          refine ⟨c.pattern, cs, c.filters, [], hca, ?_, by simp⟩
          cases c with
          | mk cp chd cf =>
            simp only at hch
            subst hch
            rfl
        · simp only [hq, if_false] at hh
          refine keep hh ?_
          intro P hP hcP
          rw [hcP, hP] at hca
          simp only [Option.some.injEq] at hca
          exact absurd hca hq

end Soundness

section Registered

variable {H F : Type}

theorem address_segments {P : GoString} {qs : List GoString} (h : address P = some qs) :
    P.head? = some '/' ∧ (qs = [] → P = ['/']) ∧ (qs ≠ [] → segments P = qs) := by
  rcases address_cases P with ⟨h1, h2⟩ | ⟨h1, rest, h2, h3⟩ | ⟨h2, _⟩
  · rw [h2] at h
    cases h
    exact ⟨by rw [h1]; rfl, fun _ => h1, fun e => absurd rfl e⟩
  · rw [h3] at h
    cases h
    refine ⟨by rw [h2]; rfl, fun e => absurd e (split_ne_nil rest), fun _ => ?_⟩
    rw [h2]
    rfl
  · rw [h2] at h; cases h

theorem forall₂_segMatches_refl (l : List GoString) : List.Forall₂ segMatches l l := by
  induction l with
  | nil => exact List.Forall₂.nil
  | cons a as ih => exact List.Forall₂.cons (Or.inl rfl) ih

end Registered

/-- **C7.** Soundness of matching.  For every tree built from `NewPathTree` by `Put` calls
and every path: when `FindHandler(path)` returns a non-nil handler `h`, some pattern `P`
starting with `'/'` was registered with `h` by a call that no later call of `Put(P, ...)`
with a non-nil handler follows, the segment list of `P` has exactly the length of the
segment list of the path, and every segment of `P` equals the path segment at the same
position or is a wildcard segment. -/
theorem FindHandler_sound {H F : Type} (calls : List (PutCall H F)) (path : GoString) (h : H)
    (fs : List F) (params : Option Params)
    (hfind : FindHandler path (putAll calls NewPathTree) = .ok (some h, fs, params)) :
    ∃ P pre fs0 post,
      calls = pre ++ ⟨P, some h, fs0⟩ :: post ∧
      (∀ c ∈ post, c.pattern = P → c.handler = none) ∧
      P.head? = some '/' ∧
      (segments P).length = (segments path).length ∧
      List.Forall₂ segMatches (segments P) (segments path) := by
  have key : ∀ qs : List GoString,
      handlerAt qs (putAll calls NewPathTree).root = some h →
      (qs = [] → path = ['/']) →
      (qs ≠ [] → List.Forall₂ segMatches qs (segments path)) →
      ∃ P pre fs0 post,
        calls = pre ++ ⟨P, some h, fs0⟩ :: post ∧
        (∀ c ∈ post, c.pattern = P → c.handler = none) ∧
        P.head? = some '/' ∧
        (segments P).length = (segments path).length ∧
        List.Forall₂ segMatches (segments P) (segments path) := by
    intro qs hh hnil hcons
    obtain ⟨P, pre, fs0, post, hP, hcalls, hpost⟩ := registered_of_handlerAt calls qs h hh
    obtain ⟨hhead, hPnil, hPcons⟩ := address_segments hP
    have hall : List.Forall₂ segMatches (segments P) (segments path) := by
      by_cases hq : qs = []
      · rw [hPnil hq, hnil hq]
        exact forall₂_segMatches_refl _
      · rw [hPcons hq]
        exact hcons hq
    exact ⟨P, pre, fs0, post, hcalls, hpost, hhead, hall.length_eq, hall⟩
  rcases address_cases path with ⟨h1, _⟩ | ⟨h1, rest, h2, _⟩ | ⟨_, h2⟩
  · rw [h1, FindHandler_root] at hfind
    simp only [Except.ok.injEq, Prod.mk.injEq] at hfind
    exact key [] (by rw [handlerAt_nil]; exact hfind.1) (fun _ => h1) (fun e => absurd rfl e)
  · have hne : rest ≠ [] := fun e => h1 (by rw [h2, e])
    rw [h2, FindHandler_slash rest hne] at hfind
    cases hf : findNode (split rest) (putAll calls NewPathTree).root [] with
    | mk found ps =>
      rw [hf] at hfind
      cases found with
      | none => simp at hfind
      | some m =>
        simp only [Except.ok.injEq, Prod.mk.injEq] at hfind
        obtain ⟨qs, hq1, hq2⟩ :=
          findNode_sound (split rest) _ m [] ps (wf_putAll calls _ wf_newTree) hf
        have hqne : qs ≠ [] := by
          intro e
          rw [e] at hq2
          cases hs : split rest with
          | nil => exact split_ne_nil rest hs
          | cons a as => rw [hs] at hq2; cases hq2
        refine key qs ?_ (fun e => absurd e hqne) (fun _ => ?_)
        · unfold handlerAt
          rw [hq1]
          exact hfind.1
        · rw [h2]
          exact hq2
  · cases path with
    | nil => simp [FindHandler] at hfind
    | cons c cs =>
      have hc : c ≠ '/' := fun e => h2 cs (by rw [e])
      have hne : ¬ (c :: cs = ['/']) := by
        intro e
        simp only [List.cons.injEq] at e
        exact hc e.1
      simp [FindHandler, hc, hne] at hfind

/-- Witness of `FindHandler_sound`: the routes of the package test and the path
`/api/v1/lisi/add`. -/
theorem FindHandler_sound_witness :
    ∃ P pre fs0 post,
      [⟨"/".toList, some 1, []⟩, ⟨"/api/v1/user".toList, some 2, []⟩,
        ⟨"/api/v1/\x7b:user\x7d/add".toList, some 3, []⟩,
        ⟨"/api/v1/user/".toList, some 4, []⟩] = pre ++ (⟨P, some 3, fs0⟩ : PutCall Nat Nat) :: post ∧
      (∀ c ∈ post, c.pattern = P → c.handler = none) ∧
      P.head? = some '/' ∧
      (segments P).length = (segments "/api/v1/lisi/add".toList).length ∧
      List.Forall₂ segMatches (segments P) (segments "/api/v1/lisi/add".toList) :=
  FindHandler_sound
    [⟨"/".toList, some 1, []⟩, ⟨"/api/v1/user".toList, some 2, []⟩,
      ⟨"/api/v1/\x7b:user\x7d/add".toList, some 3, []⟩,
      ⟨"/api/v1/user/".toList, some 4, []⟩]
    "/api/v1/lisi/add".toList 3 [] (some [("user".toList, "lisi".toList)]) rfl

/-- **C8 (failing input).** `Put` called with the empty pattern and a non-nil handler panics
at `urlStr[0]`: it does not complete. -/
theorem Put_empty_pattern_panics {H F : Type} (h : H) (fs : List F) (t : PathTree H F) :
    Put [] (some h) fs t = .error .indexOutOfRange := rfl

/-- A non-empty pattern that does not start with `'/'` is ignored: `Put` returns and the
tree is unchanged. -/
theorem Put_other_prefix_unchanged {H F : Type} (c : Char) (cs : GoString) (hc : c ≠ '/')
    (h : Option H) (fs : List F) (t : PathTree H F) :
    Put (c :: cs) h fs t = .ok t := by
  cases h with
  | none => rfl
  | some h0 =>
    have hne : ¬ (c :: cs = ['/']) := by
      intro e
      simp only [List.cons.injEq] at e
      exact hc e.1
    simp [Put, hc, hne]

section Size

variable {H F : Type}

theorem size_mk (p : GoString) (h : Option H) (f : List F) (w : GoString)
    (cs : List (PathTreeNode H F)) :
    (PathTreeNode.mk p h f w cs).size = 1 + sizeChildren cs := by
  rw [PathTreeNode.size]

theorem sizeChildren_cons (c : PathTreeNode H F) (cs : List (PathTreeNode H F)) :
    sizeChildren (c :: cs) = c.size + sizeChildren cs := by
  rw [sizeChildren]

theorem size_setHandler (h : Option H) (n : PathTreeNode H F) : (n.setHandler h).size = n.size := by
  cases n with
  | mk p h0 f w cs => rw [setHandler_mk, size_mk, size_mk]

theorem size_setRoute (h : H) (fs : List F) (n : PathTreeNode H F) :
    (setRoute h fs n).size = n.size := by
  cases n with
  | mk p h0 f w cs =>
    unfold setRoute
    split_ifs <;> simp only [setHandler_mk, setFilters_mk, size_mk]

theorem sizeChildren_modifyAt {g : PathTreeNode H F → PathTreeNode H F} :
    ∀ (cs : List (PathTreeNode H F)) (i : Nat) (c : PathTreeNode H F), cs[i]? = some c →
      (g c).size = c.size →
      sizeChildren (modifyAt g i cs) = sizeChildren cs := by
  intro cs
  induction cs with
  | nil => intro i c h; simp at h
  | cons a as ih =>
    intro i c h hg
    cases i with
    | zero =>
      simp only [List.getElem?_cons_zero, Option.some.injEq] at h
      subst h
      simp only [modifyAt, sizeChildren_cons, hg]
    | succ j =>
      simp only [List.getElem?_cons_succ] at h
      simp only [modifyAt, sizeChildren_cons, ih j c h hg]

theorem size_putNode_of_nodeAt (h : H) (fs : List F) :
    ∀ (ps : List GoString), ps ≠ [] → ∀ (n m : PathTreeNode H F), nodeAt ps n = some m →
      (putNode h fs ps n).size = n.size := by
  intro ps
  induction ps with
  | nil => intro hne; exact absurd rfl hne
  | cons seg rest ih =>
    intro _ n m hm
    rw [nodeAt] at hm
    cases hc : n.findChildNode seg with
    | none => rw [hc] at hm; cases hm
    | some cur =>
      rw [hc] at hm
      simp only [Option.some_bind] at hm
      obtain ⟨i, hi1, hi2⟩ := find_eq_some_firstIdx hc
      have hcur : (putCur h fs rest cur).size = cur.size := by
        cases rest with
        | nil => exact size_setRoute h fs cur
        | cons s r => exact ih (by simp) cur m hm
      rw [putNode_cons]
      cases n with
      | mk p h0 f0 w cs =>
        simp only [childrenNode_mk] at hi1 hi2
        simp only [findChildIdx, childrenNode_mk, hi1, updateChild, setChildrenNode_mk, size_mk,
          sizeChildren_modifyAt cs i cur hi2 hcur]

theorem handlerAt_isSome_putStep (t : PathTree H F) (c : PutCall H F) (qs : List GoString)
    (h : (handlerAt qs t.root).isSome = true) :
    (handlerAt qs (putStep t c).root).isSome = true := by
  cases hh : c.handler with
  | none => rw [putStep_inert t c (Or.inl hh)]; exact h
  | some h0 =>
    cases ha : address c.pattern with
    | none => rw [putStep_inert t c (Or.inr ha)]; exact h
    | some segs =>
      rw [handlerAt_putStep_some t c h0 segs qs hh ha]
      split_ifs
      · rfl
      · exact h

theorem handlerAt_isSome_putAll (qs : List GoString) :
    ∀ (calls : List (PutCall H F)) (t : PathTree H F), (handlerAt qs t.root).isSome = true →
      (handlerAt qs (putAll calls t).root).isSome = true := by
  intro calls
  induction calls with
  | nil => intro t h; exact h
  | cons c cs ih => intro t h; exact ih _ (handlerAt_isSome_putStep t c qs h)

theorem size_putStep_registered (t : PathTree H F) (P : GoString) (h2 : H) (fs2 : List F)
    (hreg : ∀ segs, address P = some segs → (handlerAt segs t.root).isSome = true) :
    (putStep t ⟨P, some h2, fs2⟩).root.size = t.root.size := by
  rcases putStep_cases t ⟨P, some h2, fs2⟩ with ⟨e, _⟩ | ⟨h0, _, _, e⟩ | ⟨h0, rest, _, e1, e2, e⟩
  · rw [e]
  · rw [e]
    exact size_setHandler _ _
  · rw [e]
    simp only at e1 e2
    have ha : address P = some (split rest) := by
      rcases address_cases P with ⟨a1, _⟩ | ⟨_, r, a1, a2⟩ | ⟨_, a1⟩
      · exact absurd a1 e2
      · rw [e1] at a1
        cases a1
        exact a2
      · exact absurd e1 (a1 rest)
    have hh := hreg (split rest) ha
    unfold handlerAt at hh
    cases hm : nodeAt (split rest) t.root with
    | none => rw [hm] at hh; cases hh
    | some m => exact size_putNode_of_nodeAt h0 _ (split rest) (split_ne_nil rest) _ m hm

theorem size_putAll_again (pre mid : List (PutCall H F)) (P : GoString) (h1 h2 : H)
    (fs1 fs2 : List F) (t : PathTree H F) :
    (putAll ((pre ++ ⟨P, some h1, fs1⟩ :: mid) ++ [⟨P, some h2, fs2⟩]) t).root.size =
      (putAll (pre ++ ⟨P, some h1, fs1⟩ :: mid) t).root.size := by
  rw [putAll_append (pre ++ ⟨P, some h1, fs1⟩ :: mid)]
  refine size_putStep_registered _ P h2 fs2 ?_
  intro segs hsegs
  rw [putAll_append, putAll_cons]
  refine handlerAt_isSome_putAll segs mid _ ?_
  rw [handlerAt_putStep_some _ ⟨P, some h1, fs1⟩ h1 segs segs rfl hsegs]
  simp

end Size

/-- **C9.** In every tree built from `NewPathTree` by `Put` calls no node has two children
with the same path; and when `Put` is called a second time with a pattern already
registered (other calls may lie in between), the second call creates no node (the tree has
as many nodes after it as before it) and, for a pattern starting with `'/'`, the handler of
the second call is the one `FindHandler` returns for that pattern. -/
theorem Put_no_duplicate_children (H F : Type) :
    (∀ (calls : List (PutCall H F)) (m : PathTreeNode H F),
      IsNodeOf m (putAll calls NewPathTree).root →
        (m.childrenNode.map PathTreeNode.path).Nodup) ∧
    (∀ (pre mid : List (PutCall H F)) (P : GoString) (h1 h2 : H) (fs1 fs2 : List F),
      (putAll ((pre ++ ⟨P, some h1, fs1⟩ :: mid) ++ [⟨P, some h2, fs2⟩]) NewPathTree).root.size =
        (putAll (pre ++ ⟨P, some h1, fs1⟩ :: mid) NewPathTree).root.size ∧
      (P.head? = some '/' →
        ∃ fs params,
          FindHandler P
            (putAll ((pre ++ ⟨P, some h1, fs1⟩ :: mid) ++ [⟨P, some h2, fs2⟩]) NewPathTree) =
            .ok (some h2, fs, params))) := by
  refine ⟨?_, ?_⟩
  · intro calls m hm
    exact (wf_of_isNodeOf hm (wf_putAll calls _ wf_newTree)).nodup
  · intro pre mid P h1 h2 fs1 fs2
    refine ⟨size_putAll_again pre mid P h1 h2 fs1 fs2 NewPathTree, ?_⟩
    intro hP
    exact FindHandler_returns_last_put_aux (pre ++ ⟨P, some h1, fs1⟩ :: mid) [] P h2 fs2 hP
      (by simp)

/-- Witness of `Put_no_duplicate_children`: after `/api/v1/user` is registered twice with
another route in between, the node `api` below the root has no two children with the same
path, and the lookup returns the second handler. -/
theorem Put_no_duplicate_children_witness :
    ((PathTreeNode.mk "api".toList none [] []
        [.mk "v1".toList none [] [] [.mk "user".toList (some 5) [] [] []],
         .mk "v2".toList (some 3) [] [] []] :
        PathTreeNode Nat Nat).childrenNode.map PathTreeNode.path).Nodup ∧
    ∃ fs params,
      FindHandler "/api/v1/user".toList
        (putAll (([] ++ ⟨"/api/v1/user".toList, some 2, []⟩ :: [⟨"/api/v2".toList, some 3, []⟩]) ++
          [⟨"/api/v1/user".toList, some 5, []⟩]) (NewPathTree : PathTree Nat Nat)) =
        .ok (some 5, fs, params) :=
  ⟨(Put_no_duplicate_children Nat Nat).1
      [⟨"/api/v1/user".toList, some 2, []⟩, ⟨"/api/v2".toList, some 3, []⟩,
        ⟨"/api/v1/user".toList, some 5, []⟩]
      (.mk "api".toList none [] []
        [.mk "v1".toList none [] [] [.mk "user".toList (some 5) [] [] []],
         .mk "v2".toList (some 3) [] [] []])
      (IsNodeOf.child (List.Mem.head _) (IsNodeOf.self _)),
    ((Put_no_duplicate_children Nat Nat).2 [] [⟨"/api/v2".toList, some 3, []⟩]
      "/api/v1/user".toList 2 5 [] []).2 (by decide)⟩

section Pipeline

open Context

theorem runBody_ret (n : Nat) (c : Context) : runBody (n + 1) .ret c = .done c := by
  rw [runBody]

theorem runBody_next (n : Nat) (k : Prog) (c : Context) :
    runBody (n + 1) (.next k) c =
      match execLoop n c.filters.length (c.emit .next).incr with
      | .done c1 => runBody n k c1
      | o => o := by
  rw [runBody]

theorem runBody_next_eq_Next (n : Nat) (k : Prog) (c : Context) :
    runBody (n + 1) (.next k) c =
      match c.Next n with
      | .done c1 => runBody n k c1
      | o => o :=
  runBody_next n k c

theorem runBody_abort (n : Nat) (k : Prog) (c : Context) :
    runBody (n + 1) (.abort k) c = runBody n k c.Abort := by
  rw [runBody]

theorem runBody_appendFilters (n : Nat) (fs : List Prog) (k : Prog) (c : Context) :
    runBody (n + 1) (.appendFilters fs k) c = runBody n k (c.AppendFilters fs) := by
  rw [runBody]

theorem runBody_writeStatus (n : Nat) (s : Nat) (k : Prog) (c : Context) :
    runBody (n + 1) (.writeStatus s k) c = runBody n k (c.WriteStatus s) := by
  rw [runBody]

theorem runBody_panic (n : Nat) (v : Panic) (c : Context) :
    runBody (n + 1) (.panic v) c = .panicked v c := by
  rw [runBody]

theorem runBody_branch (n : Nat) (k : View → Prog) (c : Context) :
    runBody (n + 1) (.branch k) c = runBody n (k c.view) c := by
  rw [runBody]

theorem runBody_zero (p : Prog) (c : Context) : runBody 0 p c = .outOfFuel c := by
  rw [runBody]

theorem execLoop_zero (l : Nat) (c : Context) : execLoop 0 l c = .outOfFuel c := by
  rw [execLoop]

theorem execLoop_succ (n l : Nat) (c : Context) :
    execLoop (n + 1) l c =
      if c.filterIndex < l then
        match c.filters[c.filterIndex]? with
        | none => .panicked .indexOutOfRange c
        | some fn =>
          match runBody n fn (c.emit (.start c.filterIndex)) with
          | .done c1 => execLoop n l c1.incr
          | o => o
      else .done c := by
  rw [execLoop]

theorem execLoop_exit (n l : Nat) (c : Context) (h : l ≤ c.filterIndex) :
    execLoop (n + 1) l c = .done c := by
  rw [execLoop_succ, if_neg (Nat.not_lt.mpr h)]

theorem execLoop_enter (n l : Nat) (c : Context) (fn : Prog) (h : c.filterIndex < l)
    (hfn : c.filters[c.filterIndex]? = some fn) :
    execLoop (n + 1) l c =
      match runBody n fn (c.emit (.start c.filterIndex)) with
      | .done c1 => execLoop n l c1.incr
      | o => o := by
  rw [execLoop_succ, if_pos h, hfn]

theorem execLoop_enter_done (n l : Nat) (c c1 : Context) (fn : Prog) (h : c.filterIndex < l)
    (hfn : c.filters[c.filterIndex]? = some fn)
    (ho : runBody n fn (c.emit (.start c.filterIndex)) = .done c1) :
    execLoop (n + 1) l c = execLoop n l c1.incr := by
  rw [execLoop_enter n l c fn h hfn, ho]

theorem execLoop_enter_panicked (n l : Nat) (c c1 : Context) (fn : Prog) (v : Panic)
    (h : c.filterIndex < l) (hfn : c.filters[c.filterIndex]? = some fn)
    (ho : runBody n fn (c.emit (.start c.filterIndex)) = .panicked v c1) :
    execLoop (n + 1) l c = .panicked v c1 := by
  rw [execLoop_enter n l c fn h hfn, ho]

theorem execLoop_enter_outOfFuel (n l : Nat) (c c1 : Context) (fn : Prog)
    (h : c.filterIndex < l) (hfn : c.filters[c.filterIndex]? = some fn)
    (ho : runBody n fn (c.emit (.start c.filterIndex)) = .outOfFuel c1) :
    execLoop (n + 1) l c = .outOfFuel c1 := by
  rw [execLoop_enter n l c fn h hfn, ho]

theorem execLoop_no_filter (n l : Nat) (c : Context) (h : c.filterIndex < l)
    (hfn : c.filters[c.filterIndex]? = none) :
    execLoop (n + 1) l c = .panicked .indexOutOfRange c := by
  rw [execLoop_succ, if_pos h, hfn]

theorem runBody_next_done (n : Nat) (k : Prog) (c c1 : Context)
    (ho : execLoop n c.filters.length (c.emit .next).incr = .done c1) :
    runBody (n + 1) (.next k) c = runBody n k c1 := by
  rw [runBody_next, ho]

theorem runBody_next_panicked (n : Nat) (k : Prog) (c c1 : Context) (v : Panic)
    (ho : execLoop n c.filters.length (c.emit .next).incr = .panicked v c1) :
    runBody (n + 1) (.next k) c = .panicked v c1 := by
  rw [runBody_next, ho]

theorem runBody_next_outOfFuel (n : Nat) (k : Prog) (c c1 : Context)
    (ho : execLoop n c.filters.length (c.emit .next).incr = .outOfFuel c1) :
    runBody (n + 1) (.next k) c = .outOfFuel c1 := by
  rw [runBody_next, ho]

theorem processWithFilters_done (fuel : Nat) (fn : Prog) (c c1 : Context)
    (ho : execFilters fuel (c.AppendFilters [fn]) = .done c1) :
    processWithFilters fuel fn c = .done c1 := by
  unfold processWithFilters
  rw [ho]

theorem processWithFilters_outOfFuel (fuel : Nat) (fn : Prog) (c c1 : Context)
    (ho : execFilters fuel (c.AppendFilters [fn]) = .outOfFuel c1) :
    processWithFilters fuel fn c = .outOfFuel c1 := by
  unfold processWithFilters
  rw [ho]

theorem processWithFilters_panicked (fuel : Nat) (fn : Prog) (c c1 : Context) (v : Panic)
    (ho : execFilters fuel (c.AppendFilters [fn]) = .panicked v c1) :
    processWithFilters fuel fn c = c1.Write500 v.asError := by
  unfold processWithFilters
  rw [ho]
  dsimp only
  cases h : v.asError <;> rfl

@[simp] theorem incr_filterIndex (c : Context) : c.incr.filterIndex = c.filterIndex + 1 := rfl

@[simp] theorem incr_filters (c : Context) : c.incr.filters = c.filters := rfl

@[simp] theorem incr_trace (c : Context) : c.incr.trace = c.trace := rfl

@[simp] theorem incr_statuses (c : Context) : c.incr.statuses = c.statuses := rfl

@[simp] theorem emit_filterIndex (e : Event) (c : Context) :
    (c.emit e).filterIndex = c.filterIndex := rfl

@[simp] theorem emit_filters (e : Event) (c : Context) : (c.emit e).filters = c.filters := rfl

@[simp] theorem emit_trace (e : Event) (c : Context) : (c.emit e).trace = c.trace ++ [e] := rfl

@[simp] theorem emit_statuses (e : Event) (c : Context) : (c.emit e).statuses = c.statuses := rfl

@[simp] theorem writeStatus_filterIndex (s : Nat) (c : Context) :
    (c.WriteStatus s).filterIndex = c.filterIndex := rfl

@[simp] theorem writeStatus_filters (s : Nat) (c : Context) :
    (c.WriteStatus s).filters = c.filters := rfl

@[simp] theorem writeStatus_trace (s : Nat) (c : Context) :
    (c.WriteStatus s).trace = c.trace := rfl

@[simp] theorem abort_filterIndex (c : Context) :
    c.Abort.filterIndex = c.filters.length + 1 := rfl

@[simp] theorem abort_filters (c : Context) : c.Abort.filters = c.filters := rfl

@[simp] theorem abort_trace (c : Context) : c.Abort.trace = c.trace ++ [.abort] := rfl

@[simp] theorem started_start (i : Nat) (es : List Event) :
    started (.start i :: es) = i :: started es := rfl

@[simp] theorem started_next (es : List Event) : started (.next :: es) = started es := rfl

@[simp] theorem started_abort (es : List Event) : started (.abort :: es) = started es := rfl

@[simp] theorem started_appendEv (n : Nat) (es : List Event) :
    started (.append n :: es) = started es := rfl

@[simp] theorem started_nil : started [] = [] := rfl

theorem started_append (xs ys : List Event) : started (xs ++ ys) = started xs ++ started ys := by
  induction xs with
  | nil => rfl
  | cons e es ih => cases e <;> simp [started, ih]

end Pipeline

section TameChain

open Context

theorem tame_body (chain : List Prog) (i : Nat) (t0 : List Nat)
    (hloop : ∀ c : Context, c.filters = chain → c.filterIndex = i + 1 →
      ∃ N c1, (∀ fuel, N ≤ fuel → execLoop fuel chain.length c = .done c1) ∧
        ChainRan chain c c1) :
    ∀ p, Tame p → ∀ c, InFilter chain i t0 c →
      ∃ N c1, (∀ fuel, N ≤ fuel → runBody fuel p c = .done c1) ∧ InFilter chain i t0 c1 := by
  intro p hp
  induction hp with
  | ret =>
    intro c hc
    refine ⟨1, c, ?_, hc⟩
    intro fuel hf
    obtain ⟨f, rfl⟩ : ∃ f, fuel = f + 1 := ⟨fuel - 1, by omega⟩
    exact runBody_ret f c
  | @next k _ ih =>
    intro c hc
    obtain ⟨hfil, hc⟩ := hc
    have hmid : ∃ N c1, (∀ fuel, N ≤ fuel →
        execLoop fuel c.filters.length (c.emit .next).incr = .done c1) ∧
        InFilter chain i t0 c1 := by
      rcases hc with ⟨hidx, htr⟩ | ⟨hidx, htr⟩
      · obtain ⟨N1, c1, h1, h2, h3, h4⟩ := hloop (c.emit .next).incr hfil (by
          show c.filterIndex + 1 = i + 1
          rw [hidx])
        refine ⟨N1, c1, by rw [hfil]; exact h1, h2, Or.inr ⟨h3, ?_⟩⟩
        rw [h4]
        simp only [incr_trace, emit_trace, incr_filterIndex, emit_filterIndex, started_append,
          htr, hidx, started_next, started_nil, List.append_nil]
      · refine ⟨1, (c.emit .next).incr, ?_, hfil, Or.inr ⟨?_, ?_⟩⟩
        · intro fuel hf
          obtain ⟨f, rfl⟩ : ∃ f, fuel = f + 1 := ⟨fuel - 1, by omega⟩
          refine execLoop_exit f _ _ ?_
          show c.filters.length ≤ c.filterIndex + 1
          rw [hfil]
          omega
        · show chain.length ≤ c.filterIndex + 1
          omega
        · show started (c.trace ++ [Event.next]) = _
          rw [started_append, htr]
          simp [started]
    obtain ⟨N1, c1, h1, hc1⟩ := hmid
    obtain ⟨N2, c2, h2, hc2⟩ := ih c1 hc1
    refine ⟨max N1 N2 + 1, c2, ?_, hc2⟩
    intro fuel hf
    obtain ⟨f, rfl⟩ : ∃ f, fuel = f + 1 := ⟨fuel - 1, by omega⟩
    rw [runBody_next, h1 f (by omega)]
    exact h2 f (by omega)
  | @writeStatus s k _ ih =>
    intro c hc
    obtain ⟨N1, c1, h1, hc1⟩ := ih (c.WriteStatus s) hc
    refine ⟨N1 + 1, c1, ?_, hc1⟩
    intro fuel hf
    obtain ⟨f, rfl⟩ : ∃ f, fuel = f + 1 := ⟨fuel - 1, by omega⟩
    rw [runBody_writeStatus]
    exact h1 f (by omega)
  | @branch k _ ih =>
    intro c hc
    obtain ⟨N1, c1, h1, hc1⟩ := ih c.view c hc
    refine ⟨N1 + 1, c1, ?_, hc1⟩
    intro fuel hf
    obtain ⟨f, rfl⟩ : ∃ f, fuel = f + 1 := ⟨fuel - 1, by omega⟩
    rw [runBody_branch]
    exact h1 f (by omega)

theorem tame_loop (chain : List Prog) (hall : ∀ p ∈ chain, Tame p) :
    ∀ (k : Nat) (c : Context), c.filters = chain → chain.length - c.filterIndex ≤ k →
      ∃ N c1, (∀ fuel, N ≤ fuel → execLoop fuel chain.length c = .done c1) ∧
        ChainRan chain c c1 := by
  intro k
  induction k with
  | zero =>
    intro c hfil hk
    refine ⟨1, c, ?_, hfil, by omega, ?_⟩
    · intro fuel hf
      obtain ⟨f, rfl⟩ : ∃ f, fuel = f + 1 := ⟨fuel - 1, by omega⟩
      exact execLoop_exit f _ _ (by omega)
    · have : chain.length - c.filterIndex = 0 := by omega
      rw [this]
      simp
  | succ k ih =>
    intro c hfil hk
    by_cases hlt : c.filterIndex < chain.length
    · have hget : c.filters[c.filterIndex]? = some (chain[c.filterIndex]) := by
        subst hfil
        exact List.getElem?_eq_getElem hlt
      have htame : Tame (chain[c.filterIndex]) := hall _ (List.getElem_mem hlt)
      have hbody := tame_body chain c.filterIndex (started c.trace ++ [c.filterIndex])
        (fun c2 h1 h2 => ih c2 h1 (by omega)) _ htame (c.emit (.start c.filterIndex))
        ⟨hfil, Or.inl ⟨rfl, by
          show started (c.trace ++ [Event.start c.filterIndex]) = _
          rw [started_append]
          rfl⟩⟩
      obtain ⟨N1, c1, h1, hfil1, hc1⟩ := hbody
      have hrange : List.range' c.filterIndex (chain.length - c.filterIndex) =
          c.filterIndex :: List.range' (c.filterIndex + 1) (chain.length - (c.filterIndex + 1)) := by
        have : chain.length - c.filterIndex = (chain.length - (c.filterIndex + 1)) + 1 := by omega
        rw [this, List.range'_succ]
      rcases hc1 with ⟨hidx, htr⟩ | ⟨hidx, htr⟩
      · obtain ⟨N2, c2, h2, hfil2, hidx2, htr2⟩ := ih c1.incr hfil1 (by
          show chain.length - (c1.filterIndex + 1) ≤ k
          omega)
        refine ⟨max N1 N2 + 1, c2, ?_, hfil2, hidx2, ?_⟩
        · intro fuel hf
          obtain ⟨f, rfl⟩ : ∃ f, fuel = f + 1 := ⟨fuel - 1, by omega⟩
          rw [execLoop_enter f _ c _ hlt hget, h1 f (by omega)]
          exact h2 f (by omega)
        · rw [htr2, hrange]
          simp only [incr_trace, incr_filterIndex, htr, hidx, List.append_assoc,
            List.singleton_append]
      · refine ⟨max N1 1 + 1, c1.incr, ?_, hfil1, ?_, ?_⟩
        · intro fuel hf
          obtain ⟨f, rfl⟩ : ∃ f, fuel = f + 1 := ⟨fuel - 1, by omega⟩
          rw [execLoop_enter f _ c _ hlt hget, h1 f (by omega)]
          obtain ⟨g, rfl⟩ : ∃ g, f = g + 1 := ⟨f - 1, by omega⟩
          refine execLoop_exit g _ _ ?_
          show chain.length ≤ c1.filterIndex + 1
          omega
        · show chain.length ≤ c1.filterIndex + 1
          omega
        · rw [hrange]
          show started c1.trace = _
          rw [htr]
          simp
    · refine ⟨1, c, ?_, hfil, by omega, ?_⟩
      · intro fuel hf
        obtain ⟨f, rfl⟩ : ∃ f, fuel = f + 1 := ⟨fuel - 1, by omega⟩
        exact execLoop_exit f _ _ (by omega)
      · have : chain.length - c.filterIndex = 0 := by omega
        rw [this]
        simp

theorem tame_of_simple {p : Prog} (h : Simple p) : Tame p := by
  induction h with
  | ret => exact Tame.ret
  | @next k hk =>
    refine Tame.next ?_
    induction hk with
    | ret => exact Tame.ret
    | writeStatus s _ ih => exact Tame.writeStatus s ih
    | branch _ ih => exact Tame.branch ih
  | writeStatus s _ ih => exact Tame.writeStatus s ih
  | branch _ ih => exact Tame.branch ih

end TameChain

section Dispatch

open Context

theorem map_getElem?_range {α : Type} (l : List α) :
    (List.range l.length).map (fun i => l[i]?) = l.map some := by
  apply List.ext_getElem
  · simp
  · intro i h1 h2
    simp only [List.length_map, List.length_range] at h1
    simp only [List.getElem_map, List.getElem_range]
    exact List.getElem?_eq_getElem h1

theorem newContext_ok (req : Request) (filters : List Prog) (h : req.parseFormErr = none) :
    NewContext req filters =
      .ok { filters := filters, filterIndex := 0, pathParams := none, statuses := [],
            written := [], trace := [] } := by
  unfold NewContext
  rw [h]
  cases filters with
  | nil => rfl
  | cons a as => simp

theorem processWithFilters_tame (chain : List Prog) (fn : Prog) (c : Context)
    (hall : ∀ p ∈ chain ++ [fn], Tame p) (hfil : c.filters = chain) :
    ∃ N c1, (∀ fuel, N ≤ fuel → processWithFilters fuel fn c = .done c1) ∧
      ChainRan (chain ++ [fn]) (c.AppendFilters [fn]) c1 := by
  have hfil1 : (c.AppendFilters [fn]).filters = chain ++ [fn] := by
    simp [AppendFilters, hfil]
  obtain ⟨N, c1, h1, h2⟩ := tame_loop (chain ++ [fn]) hall _ (c.AppendFilters [fn]) hfil1
    (le_refl _)
  refine ⟨N, c1, ?_, h2⟩
  intro fuel hf
  unfold processWithFilters execFilters
  rw [hfil1, h1 fuel hf]

end Dispatch

/-- **C10 (as amended).** For every default filter list `D` (the filters of the `ServeMux`),
route filter list `R` and handler `h` that `FindHandler` returns for the request path, when
`ParseForm` succeeds on the request, so that `NewContext` returns a context, and every filter
and the handler either simply returns or calls `Next()` at most once and none calls `Abort`
or `AppendFilters` or panics, `ServeHTTP` returns normally (for every large enough
evaluation budget) after running the chain `D ++ R ++ [h]`: the positions
`0, 1, ..., len(D ++ R)` of that chain start executing once each, in that order. -/
theorem ServeHTTP_runs_chain_in_order (m : ServeMux) (req : Request) (h : Prog)
    (R : List Prog) (params : Option Params)
    (hfind : m.mux.FindHandler req.path = .ok (some h, R, params))
    (hform : req.parseFormErr = none)
    (hsimple : ∀ p ∈ m.filters ++ R ++ [h], Simple p) :
    ∃ N c,
      (∀ fuel, N ≤ fuel → m.ServeHTTP fuel req = .ok (.processed (.done c))) ∧
      c.filters = m.filters ++ R ++ [h] ∧
      started c.trace = List.range (m.filters ++ R ++ [h]).length ∧
      (started c.trace).map (fun i => c.filters[i]?) = (m.filters ++ R ++ [h]).map some := by
  have htame : ∀ p ∈ (m.filters ++ R) ++ [h], Tame p := fun p hp => tame_of_simple (hsimple p hp)
  obtain ⟨N, c, h1, h2, _, h4⟩ := processWithFilters_tame (m.filters ++ R) h
    { filters := m.filters ++ R, filterIndex := 0, pathParams := params, statuses := [],
      written := [], trace := [] } htame rfl
  have htr : started c.trace = List.range (m.filters ++ R ++ [h]).length := by
    rw [h4, List.range_eq_range']
    simp [Context.AppendFilters]
  refine ⟨N, c, ?_, h2, htr, ?_⟩
  · intro fuel hf
    unfold ServeMux.ServeHTTP
    rw [hfind]
    simp only [List.nil_append]
    rw [newContext_ok req _ hform]
    simp only
    rw [h1 fuel hf]
  · rw [htr, h2]
    exact map_getElem?_range _

/-- Witness of `ServeHTTP_runs_chain_in_order`: one default filter that calls `Next`, one
route filter and a handler that return. -/
theorem ServeHTTP_runs_chain_in_order_witness :
    ∃ N c,
      (∀ fuel, N ≤ fuel →
        ServeMux.ServeHTTP fuel
          ⟨putStep NewPathTree ⟨"/x".toList, some Prog.ret, [Prog.ret]⟩, [Prog.next Prog.ret]⟩
          ⟨"/x".toList, none⟩ = .ok (.processed (.done c))) ∧
      c.filters = [Prog.next Prog.ret] ++ [Prog.ret] ++ [Prog.ret] ∧
      started c.trace = List.range ([Prog.next Prog.ret] ++ [Prog.ret] ++ [Prog.ret]).length ∧
      (started c.trace).map (fun i => c.filters[i]?) =
        ([Prog.next Prog.ret] ++ [Prog.ret] ++ [Prog.ret]).map some :=
  ServeHTTP_runs_chain_in_order
    ⟨putStep NewPathTree ⟨"/x".toList, some Prog.ret, [Prog.ret]⟩, [Prog.next Prog.ret]⟩
    ⟨"/x".toList, none⟩ Prog.ret [Prog.ret] (some []) rfl rfl
    (by
      intro p hp
      simp only [List.mem_append, List.mem_singleton] at hp
      rcases hp with (hp | hp) | hp
      · rw [hp]; exact Simple.next Quiet.ret
      · rw [hp]; exact Simple.ret
      · rw [hp]; exact Simple.ret)

/-- **C10 (counterexample).** The path `/x` is matched, with a handler and a route filter that
return and a default filter that calls `Next()`, but `ParseForm` fails on the request:
`NewContext` writes a 500 response and returns nil, and `ServeHTTP` runs nothing of
`D ++ R ++ [h]`, whatever the evaluation budget. -/
theorem ServeHTTP_runs_nothing_when_ParseForm_fails :
    PathTree.FindHandler "/x".toList
        (putStep NewPathTree ⟨"/x".toList, some Prog.ret, [Prog.ret]⟩) =
      .ok (some Prog.ret, [Prog.ret], some []) ∧
    ∀ fuel, ∃ c,
      ServeMux.ServeHTTP fuel
          ⟨putStep NewPathTree ⟨"/x".toList, some Prog.ret, [Prog.ret]⟩, [Prog.next Prog.ret]⟩
          ⟨"/x".toList, some "invalid URL escape"⟩ = .ok (.noContext c) ∧
        started c.trace = [] ∧ c.trace = [] ∧ c.statuses = [500] :=
  ⟨rfl, fun _ => ⟨_, rfl, rfl, rfl, rfl⟩⟩

section AbortInvariant

open Context

theorem abortRespected_append (d : Bool) (xs ys : List Event) :
    abortRespected d (xs ++ ys) ↔
      abortRespected d xs ∧ abortRespected (abortedAfter d xs) ys := by
  induction xs generalizing d with
  | nil => simp [abortRespected, abortedAfter]
  | cons e es ih =>
    cases e with
    | start i => simp [abortRespected, abortedAfter, ih, and_assoc]
    | next => simp [abortRespected, abortedAfter, ih]
    | abort => simp [abortRespected, abortedAfter, ih]
    | append n => simp [abortRespected, abortedAfter, ih]

theorem abortedAfter_append (d : Bool) (xs ys : List Event) :
    abortedAfter d (xs ++ ys) = abortedAfter (abortedAfter d xs) ys := by
  induction xs generalizing d with
  | nil => rfl
  | cons e es ih => cases e <;> simp [abortedAfter, ih]

theorem advances_refl (c : Context) : Advances c c := by
  refine ⟨le_refl _, [], by simp, ?_⟩
  intro d hd
  refine ⟨trivial, ?_⟩
  intro h
  exact hd h

theorem advances_trans {c c1 c2 : Context} (h1 : Advances c c1) (h2 : Advances c1 c2) :
    Advances c c2 := by
  obtain ⟨hl1, d1, ht1, hd1⟩ := h1
  obtain ⟨hl2, d2, ht2, hd2⟩ := h2
  refine ⟨le_trans hl1 hl2, d1 ++ d2, by rw [ht2, ht1, List.append_assoc], ?_⟩
  intro d hd
  obtain ⟨ha, hb⟩ := hd1 d hd
  obtain ⟨hc, he⟩ := hd2 (abortedAfter d d1) hb
  exact ⟨(abortRespected_append d d1 d2).mpr ⟨ha, hc⟩, by rw [abortedAfter_append]; exact he⟩

/-- A step that adds no event and keeps a terminated chain terminated. -/
theorem advances_silent {c c1 : Context} (hl : c.filters.length ≤ c1.filters.length)
    (ht : c1.trace = c.trace) (hd : c.Dead → c1.Dead) : Advances c c1 := by
  refine ⟨hl, [], by rw [ht]; simp, ?_⟩
  intro d h
  exact ⟨trivial, fun e => hd (h e)⟩

theorem advances_incr (c : Context) : Advances c c.incr :=
  advances_silent (le_refl _) rfl (fun h => Nat.lt_succ_of_lt h)

theorem advances_writeStatus (s : Nat) (c : Context) : Advances c (c.WriteStatus s) :=
  advances_silent (le_refl _) rfl (fun h => h)

theorem advances_emit_next (c : Context) : Advances c (c.emit .next) := by
  refine ⟨le_refl _, [.next], rfl, ?_⟩
  intro d h
  exact ⟨trivial, fun e => h e⟩

theorem advances_emit_start (c : Context) (i : Nat) (h : ¬ c.Dead) :
    Advances c (c.emit (.start i)) := by
  refine ⟨le_refl _, [.start i], rfl, ?_⟩
  intro d hd
  cases d with
  | false => exact ⟨⟨rfl, trivial⟩, fun e => by cases e⟩
  | true => exact absurd (hd rfl) h

theorem advances_abort (c : Context) : Advances c c.Abort := by
  refine ⟨le_refl _, [.abort], rfl, ?_⟩
  intro d _
  refine ⟨trivial, fun _ => ?_⟩
  show c.filters.length < c.filters.length + 1
  exact Nat.lt_succ_self _

theorem advances_appendFilters (fs : List Prog) (c : Context) :
    Advances c (c.AppendFilters fs) := by
  unfold AppendFilters
  split_ifs with h
  · refine ⟨by simp, [.append fs.length], rfl, ?_⟩
    intro d _
    exact ⟨trivial, fun e => by cases e⟩
  · exact advances_refl c

theorem advances_run :
    ∀ n : Nat,
      (∀ (p : Prog) (c : Context), Advances c (runBody n p c).ctx) ∧
      (∀ (l : Nat) (c : Context), l ≤ c.filters.length → Advances c (execLoop n l c).ctx) := by
  intro n
  induction n with
  | zero =>
    refine ⟨fun p c => ?_, fun l c _ => ?_⟩
    · rw [runBody_zero]; exact advances_refl c
    · rw [execLoop_zero]; exact advances_refl c
  | succ n ih =>
    obtain ⟨ihb, ihl⟩ := ih
    refine ⟨fun p c => ?_, fun l c hl => ?_⟩
    · cases p with
      | ret => rw [runBody_ret]; exact advances_refl c
      | next k =>
        have h0 : Advances c (c.emit .next).incr :=
          advances_trans (advances_emit_next c) (advances_incr _)
        have h1 := ihl c.filters.length (c.emit .next).incr (le_refl _)
        cases ho : execLoop n c.filters.length (c.emit .next).incr with
        | done c1 =>
          rw [ho] at h1
          rw [runBody_next_done n k c c1 ho]
          exact advances_trans h0 (advances_trans h1 (ihb k c1))
        | panicked v c1 =>
          rw [ho] at h1
          rw [runBody_next_panicked n k c c1 v ho]
          exact advances_trans h0 h1
        | outOfFuel c1 =>
          rw [ho] at h1
          rw [runBody_next_outOfFuel n k c c1 ho]
          exact advances_trans h0 h1
      | abort k =>
        rw [runBody_abort]
        exact advances_trans (advances_abort c) (ihb k _)
      | appendFilters fs k =>
        rw [runBody_appendFilters]
        exact advances_trans (advances_appendFilters fs c) (ihb k _)
      | writeStatus s k =>
        rw [runBody_writeStatus]
        exact advances_trans (advances_writeStatus s c) (ihb k _)
      | panic v => rw [runBody_panic]; exact advances_refl c
      | branch k => rw [runBody_branch]; exact ihb _ c
    · by_cases hlt : c.filterIndex < l
      · cases hget : c.filters[c.filterIndex]? with
        | none =>
          rw [execLoop_no_filter n l c hlt hget]
          exact advances_refl c
        | some fn =>
          have hnd : ¬ c.Dead := by
            unfold Dead
            omega
          have h0 := advances_emit_start c c.filterIndex hnd
          have h1 := ihb fn (c.emit (.start c.filterIndex))
          cases ho : runBody n fn (c.emit (.start c.filterIndex)) with
          | done c1 =>
            rw [ho] at h1
            rw [execLoop_enter_done n l c c1 fn hlt hget ho]
            have hlen : l ≤ c1.incr.filters.length := le_trans hl (le_trans h0.1 h1.1)
            exact advances_trans h0 (advances_trans h1
              (advances_trans (advances_incr c1) (ihl l c1.incr hlen)))
          | panicked v c1 =>
            rw [ho] at h1
            rw [execLoop_enter_panicked n l c c1 fn v hlt hget ho]
            exact advances_trans h0 h1
          | outOfFuel c1 =>
            rw [ho] at h1
            rw [execLoop_enter_outOfFuel n l c c1 fn hlt hget ho]
            exact advances_trans h0 h1
      · rw [execLoop_exit n l c (Nat.not_lt.mp hlt)]
        exact advances_refl c

theorem advances_write500 (err : Option String) (c : Context) :
    Advances c (c.Write500 err).ctx := by
  cases err with
  | none => exact advances_silent (le_refl _) rfl (fun h => h)
  | some msg => exact advances_silent (le_refl _) rfl (fun h => h)

theorem advances_processWithFilters (fuel : Nat) (fn : Prog) (c : Context) :
    Advances c (processWithFilters fuel fn c).ctx := by
  have h0 := advances_appendFilters [fn] c
  have h1 : Advances (c.AppendFilters [fn]) (execFilters fuel (c.AppendFilters [fn])).ctx :=
    (advances_run fuel).2 (c.AppendFilters [fn]).filters.length (c.AppendFilters [fn])
      (le_refl _)
  cases ho : execFilters fuel (c.AppendFilters [fn]) with
  | done c1 =>
    rw [ho] at h1
    rw [processWithFilters_done fuel fn c c1 ho]
    exact advances_trans h0 h1
  | outOfFuel c1 =>
    rw [ho] at h1
    rw [processWithFilters_outOfFuel fuel fn c c1 ho]
    exact advances_trans h0 h1
  | panicked v c1 =>
    rw [ho] at h1
    rw [processWithFilters_panicked fuel fn c c1 v ho]
    exact advances_trans h0 (advances_trans h1 (advances_write500 _ c1))

theorem no_start_of_aborted :
    ∀ (post : List Event), abortRespected true post → (∀ n, Event.append n ∉ post) →
      ∀ i, Event.start i ∉ post := by
  intro post
  induction post with
  | nil => intro _ _ i h; cases h
  | cons e es ih =>
    intro h1 h2 i hi
    have h2t : ∀ n, Event.append n ∉ es := fun n hn => h2 n (List.mem_cons_of_mem _ hn)
    cases e with
    | start j => exact absurd h1.1 (by simp)
    | next =>
      rcases List.mem_cons.mp hi with h | h
      · cases h
      · exact ih h1 h2t i h
    | abort =>
      rcases List.mem_cons.mp hi with h | h
      · cases h
      · exact ih h1 h2t i h
    | append n => exact h2 n (List.mem_cons_self _ _)

end AbortInvariant

/-- **C4.** For every chain run by `processWithFilters` on a fresh context, whatever the
filters and the handler do and however far the run gets: once a filter has called `Abort()`,
and as long as the chain is not extended by `AppendFilters` afterwards, no filter (so none
at a greater index, nor the terminal handler) starts executing, whether the aborting filter
was invoked by the outer `execFilters` loop or below a nested `Next()`. -/
theorem no_filter_starts_after_Abort (fuel : Nat) (fn : Prog) (c : Context)
    (pre post : List Event) (hfresh : c.trace = [])
    (htrace : (Context.processWithFilters fuel fn c).ctx.trace = pre ++ Event.abort :: post)
    (hext : ∀ n, Event.append n ∉ post) :
    ∀ i, Event.start i ∉ post := by
  obtain ⟨_, delta, hd, hinv⟩ := advances_processWithFilters fuel fn c
  rw [hfresh, List.nil_append] at hd
  rw [hd] at htrace
  have h1 := (hinv false (fun e => by cases e)).1
  rw [htrace, abortRespected_append] at h1
  exact no_start_of_aborted post h1.2 hext

/-- Witness of `no_filter_starts_after_Abort`: the second filter, reached through the `Next()`
of the first, calls `Abort()` and then `Next()`; the handler at index 2 never starts. -/
theorem no_filter_starts_after_Abort_witness :
    (Context.processWithFilters 10 Prog.ret
        ⟨[Prog.next Prog.ret, Prog.abort (Prog.next Prog.ret)], 0, none, [], [], []⟩).ctx.trace =
      [Event.append 1, Event.start 0, Event.next, Event.start 1] ++
        Event.abort :: [Event.next] ∧
    ∀ i, Event.start i ∉ [Event.next] :=
  ⟨by decide,
    no_filter_starts_after_Abort 10 Prog.ret
      ⟨[Prog.next Prog.ret, Prog.abort (Prog.next Prog.ret)], 0, none, [], [], []⟩
      [Event.append 1, Event.start 0, Event.next, Event.start 1] [Event.next] rfl (by decide)
      (by simp)⟩

section QuietFilter

open Context

theorem quiet_run {p : Prog} (hp : Quiet p) :
    ∀ c : Context, ∃ N c1, (∀ fuel, N ≤ fuel → runBody fuel p c = .done c1) ∧
      c1.filters = c.filters ∧ c1.filterIndex = c.filterIndex ∧ c1.trace = c.trace := by
  induction hp with
  | ret =>
    intro c
    refine ⟨1, c, ?_, rfl, rfl, rfl⟩
    intro fuel hf
    obtain ⟨f, rfl⟩ : ∃ f, fuel = f + 1 := ⟨fuel - 1, by omega⟩
    exact runBody_ret f c
  | @writeStatus s k _ ih =>
    intro c
    obtain ⟨N, c1, h1, h2, h3, h4⟩ := ih (c.WriteStatus s)
    refine ⟨N + 1, c1, ?_, h2, h3, h4⟩
    intro fuel hf
    obtain ⟨f, rfl⟩ : ∃ f, fuel = f + 1 := ⟨fuel - 1, by omega⟩
    rw [runBody_writeStatus]
    exact h1 f (by omega)
  | @branch k _ ih =>
    intro c
    obtain ⟨N, c1, h1, h2, h3, h4⟩ := ih c.view c
    refine ⟨N + 1, c1, ?_, h2, h3, h4⟩
    intro fuel hf
    obtain ⟨f, rfl⟩ : ∃ f, fuel = f + 1 := ⟨fuel - 1, by omega⟩
    rw [runBody_branch]
    exact h1 f (by omega)

theorem trace_prefix_of_advances {c c1 : Context} (h : Advances c c1) :
    c.trace <+: c1.trace := by
  obtain ⟨_, delta, hd, _⟩ := h
  exact ⟨delta, hd.symm⟩

theorem execLoop_enter_advances (n l : Nat) (c : Context) (fn : Prog)
    (hl : l ≤ c.filters.length) (hlt : c.filterIndex < l)
    (hget : c.filters[c.filterIndex]? = some fn) :
    Advances (c.emit (.start c.filterIndex)) (execLoop (n + 1) l c).ctx := by
  have h1 := (advances_run n).1 fn (c.emit (.start c.filterIndex))
  cases ho : runBody n fn (c.emit (.start c.filterIndex)) with
  | done c1 =>
    rw [ho] at h1
    rw [execLoop_enter_done n l c c1 fn hlt hget ho]
    have hlen : l ≤ c1.incr.filters.length := le_trans hl h1.1
    exact advances_trans h1 (advances_trans (advances_incr c1)
      ((advances_run n).2 l c1.incr hlen))
  | panicked v c1 =>
    rw [ho] at h1
    rw [execLoop_enter_panicked n l c c1 fn v hlt hget ho]
    exact h1
  | outOfFuel c1 =>
    rw [ho] at h1
    rw [execLoop_enter_outOfFuel n l c c1 fn hlt hget ho]
    exact h1

end QuietFilter

/-- **C2 (as amended).** When the loop of `execFilters`, with a bound `l` that is at most the
chain length, invokes the filter at index `k`, that filter returns without calling `Next`,
`Abort` or `AppendFilters` and without a panic, and `k + 1` is below the bound, the chain is
not stopped: the loop advances the cursor and the filter at index `k + 1` (the terminal
handler when it is the last) is the next one to start. -/
theorem execFilters_continues_after_return (l : Nat) (c : Context) (p : Prog)
    (hl : l ≤ c.filters.length) (hk : c.filterIndex + 1 < l)
    (hp : c.filters[c.filterIndex]? = some p) (hq : Quiet p) :
    ∃ N, ∀ fuel, N ≤ fuel →
      (c.trace ++ [Event.start c.filterIndex, Event.start (c.filterIndex + 1)]) <+:
        (Context.execLoop fuel l c).ctx.trace := by
  obtain ⟨N, c1, h1, hfil, hidx, htr⟩ := quiet_run hq (c.emit (.start c.filterIndex))
  refine ⟨N + 2, ?_⟩
  intro fuel hf
  obtain ⟨f, rfl⟩ : ∃ f, fuel = f + 2 := ⟨fuel - 2, by omega⟩
  rw [execLoop_enter_done (f + 1) l c c1 p (by omega) hp (h1 (f + 1) (by omega))]
  have hfil1 : c1.incr.filters = c.filters := hfil
  have hidx1 : c1.incr.filterIndex = c.filterIndex + 1 := by
    show c1.filterIndex + 1 = _
    rw [hidx]
    rfl
  have hlt : c1.incr.filterIndex < c1.incr.filters.length := by
    rw [hidx1, hfil1]
    omega
  have hget : c1.incr.filters[c1.incr.filterIndex]? =
      some (c1.incr.filters[c1.incr.filterIndex]) := List.getElem?_eq_getElem hlt
  have hadv := execLoop_enter_advances f l c1.incr _ (by rw [hfil1]; exact hl)
    (by rw [hidx1]; exact hk) hget
  have hpre := trace_prefix_of_advances hadv
  have he : (c1.incr.emit (.start c1.incr.filterIndex)).trace =
      c.trace ++ [Event.start c.filterIndex, Event.start (c.filterIndex + 1)] := by
    show c1.trace ++ [Event.start c1.incr.filterIndex] = _
    rw [hidx1, htr]
    show (c.trace ++ [Event.start c.filterIndex]) ++ _ = _
    simp
  rw [he] at hpre
  exact hpre

/-- Witness of `execFilters_continues_after_return`: a chain of three returning filters,
entered at index 0. -/
theorem execFilters_continues_after_return_witness :
    ∃ N, ∀ fuel, N ≤ fuel →
      ([] ++ [Event.start 0, Event.start (0 + 1)]) <+:
        (Context.execLoop fuel 3
          ⟨[Prog.ret, Prog.ret, Prog.ret], 0, none, [], [], []⟩).ctx.trace :=
  execFilters_continues_after_return 3
    ⟨[Prog.ret, Prog.ret, Prog.ret], 0, none, [], [], []⟩ Prog.ret (by decide) (by decide) rfl
    Quiet.ret

/-- **C2 (counterexample).** In the chain of one filter that returns at once, without calling
`Next()`, followed by the handler, `Next` is never called and yet the terminal handler, at
index 1, executes. -/
theorem handler_runs_without_Next :
    Quiet Prog.ret ∧
    Event.next ∉
      (Context.processWithFilters 3 Prog.ret ⟨[Prog.ret], 0, none, [], [], []⟩).ctx.trace ∧
    started
      (Context.processWithFilters 3 Prog.ret ⟨[Prog.ret], 0, none, [], [], []⟩).ctx.trace =
      [0, 1] :=
  ⟨Quiet.ret, by decide, by decide⟩

/-- **C5 (failing input).** A handler that panics with a value that is not an error: the function
deferred by `processWithFilters` recovers it and calls `Write500(nil)`, which writes
the status 500 and then panics on `err.Error()`; that panic leaves `processWithFilters`. -/
theorem processWithFilters_value_panic_escapes (fuel : Nat) (v : String) :
    Context.processWithFilters (fuel + 2) (Prog.panic (Panic.value v))
        ⟨[], 0, none, [], [], []⟩ =
      .panicked .nilDereference
        ⟨[Prog.panic (Panic.value v)], 0, none, [500], [], [Event.append 1, Event.start 0]⟩ :=
  rfl

/-- A handler that panics with an error: the panic is recovered, one 500 response with the
message of the error is written, and `processWithFilters` returns. -/
theorem processWithFilters_error_panic_recovered (fuel : Nat) (msg : String) :
    Context.processWithFilters (fuel + 2) (Prog.panic (Panic.error msg))
        ⟨[], 0, none, [], [], []⟩ =
      .done
        ⟨[Prog.panic (Panic.error msg)], 0, none, [500], [msg],
          [Event.append 1, Event.start 0]⟩ :=
  rfl

section Filters

variable {H F : Type}

theorem filters_setRoute (h : H) (fs : List F) (c : PathTreeNode H F) :
    (setRoute h fs c).filters = if 0 < fs.length then fs else c.filters := by
  cases c; unfold setRoute; split_ifs <;> rfl

theorem filters_putNode (h : H) (fs : List F) (ps : List GoString) (n : PathTreeNode H F) :
    (putNode h fs ps n).filters = n.filters := by
  cases ps with
  | nil => rfl
  | cons seg rest =>
    rw [putNode_cons]
    cases n with
    | mk p h0 f0 w cs => cases (PathTreeNode.mk p h0 f0 w cs).findChildIdx seg <;> rfl

theorem filters_setHandler (h : Option H) (n : PathTreeNode H F) :
    (n.setHandler h).filters = n.filters := by
  cases n; rfl

theorem nodeAt_new (p : GoString) (q : GoString) (r : List GoString) :
    nodeAt (q :: r) (NewPathTreeNode p : PathTreeNode H F) = none := by
  rw [nodeAt, findChildNode_new]; rfl

theorem filtersAt_cons_curOf (seg : GoString) (r : List GoString) (n : PathTreeNode H F) :
    filtersAt (seg :: r) n = filtersAt r (curOf n seg) := by
  unfold filtersAt curOf
  rw [nodeAt]
  cases n.findChildNode seg with
  | some c => rfl
  | none =>
    cases r with
    | nil => simp [nodeAt, newPathTreeNode_eq]
    | cons s t => simp [nodeAt_new]

/-- The node `putNode` ends on: it is reached by the segments of the pattern, and carries the
handler and, when filters were given, the filters of the call. -/
theorem nodeAt_putNode_self (h : H) (fs : List F) :
    ∀ (ps : List GoString), ps ≠ [] → ∀ (n : PathTreeNode H F),
      ∃ m, nodeAt ps (putNode h fs ps n) = some m ∧ m.handler = some h ∧
        m.filters = if 0 < fs.length then fs else filtersAt ps n := by
  intro ps
  induction ps with
  | nil => intro hne; exact absurd rfl hne
  | cons seg rest ih =>
    intro _ n
    rw [nodeAt, findChildNode_putNode, if_pos rfl, Option.some_bind, filtersAt_cons_curOf]
    cases rest with
    | nil =>
      refine ⟨setRoute h fs (curOf n seg), rfl, handler_setRoute h fs _, ?_⟩
      rw [filters_setRoute]
      rfl
    | cons s t => exact ih (by simp) (curOf n seg)

theorem Put_slash (rest : GoString) (hne : rest ≠ []) (h : H) (fs : List F)
    (t : PathTree H F) :
    Put ('/' :: rest) (some h) fs t = .ok ⟨putNode h fs (split rest) t.root⟩ := by
  simp [Put, hne]

theorem FindHandler_of_nodeAt (rest : GoString) (hne : rest ≠ []) (t : PathTree H F)
    (m : PathTreeNode H F) (hm : nodeAt (split rest) t.root = some m) :
    FindHandler ('/' :: rest) t = .ok (m.handler, m.filters, some []) := by
  rw [FindHandler_slash rest hne,
    findNode_of_nodeAt (split rest) t.root m [] (split_ne_nil rest) hm]

end Filters

/-- **C11.** For every pattern `P` other than `"/"` that starts with `'/'`, every non-empty
filter list `fs` and handlers `h1`, `h2`, on every tree: `Put(P, h1, fs...)` followed by
`Put(P, h2)` without filters both return, and afterwards `FindHandler(P)` returns the
handler `h2` together with the filter list `fs` (and an empty params map). -/
theorem Put_without_filters_keeps_filters {H F : Type} (t : PathTree H F) (P : GoString)
    (h1 h2 : H) (fs : List F) (hslash : P.head? = some '/') (hroot : P ≠ ['/'])
    (hfs : fs ≠ []) :
    ∃ t1 t2, Put P (some h1) fs t = .ok t1 ∧ Put P (some h2) [] t1 = .ok t2 ∧
      FindHandler P t2 = .ok (some h2, fs, some []) := by
  cases P with
  | nil => cases hslash
  | cons c rest =>
    simp only [List.head?_cons, Option.some.injEq] at hslash
    subst hslash
    have hne : rest ≠ [] := fun e => hroot (by rw [e])
    have hpos : 0 < fs.length := List.length_pos.mpr hfs
    obtain ⟨m1, hm1, _, hf1⟩ := nodeAt_putNode_self h1 fs (split rest) (split_ne_nil rest) t.root
    obtain ⟨m2, hm2, hh2, hf2⟩ := nodeAt_putNode_self h2 ([] : List F) (split rest)
      (split_ne_nil rest) (putNode h1 fs (split rest) t.root)
    refine ⟨_, _, Put_slash rest hne h1 fs t, Put_slash rest hne h2 [] _, ?_⟩
    rw [FindHandler_of_nodeAt rest hne _ m2 hm2, hh2, hf2]
    simp only [List.length_nil, Nat.lt_irrefl, if_false]
    unfold filtersAt
    rw [hm1, Option.map_some', Option.getD_some, hf1, if_pos hpos]

/-- Witness of `Put_without_filters_keeps_filters`: `/api/v1/user` registered with two
filters, then again without filters. -/
theorem Put_without_filters_keeps_filters_witness :
    ∃ t1 t2, Put "/api/v1/user".toList (some 1) [7, 8] (NewPathTree : PathTree Nat Nat) = .ok t1 ∧
      Put "/api/v1/user".toList (some 2) [] t1 = .ok t2 ∧
      FindHandler "/api/v1/user".toList t2 = .ok (some 2, [7, 8], some []) :=
  Put_without_filters_keeps_filters NewPathTree "/api/v1/user".toList 1 2 [7, 8] (by decide)
    (by decide) (by decide)

section RootFilters

variable {H F : Type}

theorem root_filters_putStep (t : PathTree H F) (c : PutCall H F) :
    (putStep t c).root.filters = t.root.filters := by
  rcases putStep_cases t c with ⟨h1, _⟩ | ⟨h0, _, _, h3⟩ | ⟨h0, rest, _, _, _, h4⟩
  · rw [h1]
  · rw [h3]; exact filters_setHandler _ _
  · rw [h4]; exact filters_putNode h0 c.filters _ _

theorem root_filters_putAll (calls : List (PutCall H F)) :
    ∀ (t : PathTree H F), (putAll calls t).root.filters = t.root.filters := by
  induction calls with
  | nil => intro t; rfl
  | cons c cs ih => intro t; rw [putAll_cons, ih, root_filters_putStep]

theorem root_filters_newTree : (NewPathTree : PathTree H F).root.filters = [] := by
  show (NewPathTreeNode ['/'] : PathTreeNode H F).filters = []
  rw [newPathTreeNode_eq]
  rfl

theorem handlerAt_putStep_nil_or_other (t : PathTree H F) (c : PutCall H F) (p : GoString)
    (qs : List GoString) (hp : address p = some qs) (hc : c.pattern = p → c.handler = none) :
    handlerAt qs (putStep t c).root = handlerAt qs t.root := by
  by_cases he : c.pattern = p
  · rw [putStep_inert t c (Or.inl (hc he))]
  · exact handlerAt_putStep_other t c p qs hp he

theorem handlerAt_putAll_nil_or_other (p : GoString) (qs : List GoString)
    (hp : address p = some qs) :
    ∀ (post : List (PutCall H F)) (t : PathTree H F),
      (∀ c ∈ post, c.pattern = p → c.handler = none) →
      handlerAt qs (putAll post t).root = handlerAt qs t.root := by
  intro post
  induction post with
  | nil => intro t _; rfl
  | cons c cs ih =>
    intro t hall
    rw [putAll_cons, ih _ (fun d hd => hall d (List.mem_cons_of_mem _ hd)),
      handlerAt_putStep_nil_or_other t c p qs hp (hall c (List.mem_cons_self _ _))]

end RootFilters

/-- **C12.** For every sequence of `Put` calls starting from `NewPathTree`, `FindHandler("/")`
returns a nil filter list and nil params, and the handler it returns is the one of the most
recent `Put("/", ...)` with a non-nil handler, also when that call passed filters: the root
never stores filters. -/
theorem FindHandler_root_never_has_filters (H F : Type) :
    (∀ calls : List (PutCall H F),
      ∃ h, FindHandler ['/'] (putAll calls NewPathTree) = .ok (h, [], none)) ∧
    (∀ (pre post : List (PutCall H F)) (h0 : H) (fs : List F),
      (∀ c ∈ post, c.pattern = ['/'] → c.handler = none) →
        FindHandler ['/'] (putAll (pre ++ ⟨['/'], some h0, fs⟩ :: post) NewPathTree) =
          .ok (some h0, [], none)) := by
  refine ⟨?_, ?_⟩
  · intro calls
    refine ⟨(putAll calls NewPathTree).root.handler, ?_⟩
    rw [FindHandler_root, root_filters_putAll, root_filters_newTree]
  · intro pre post h0 fs hpost
    rw [FindHandler_root, root_filters_putAll, root_filters_newTree]
    have hh : handlerAt [] (putAll (pre ++ ⟨['/'], some h0, fs⟩ :: post) NewPathTree).root =
        some h0 := by
      rw [putAll_append, putAll_cons,
        handlerAt_putAll_nil_or_other ['/'] [] address_root post _ hpost,
        handlerAt_putStep_some _ ⟨['/'], some h0, fs⟩ h0 [] [] rfl address_root]
      simp
    rw [handlerAt_nil] at hh
    rw [hh]

/-- Witness of `FindHandler_root_never_has_filters`: `Put("/", 1, 7, 8)` followed by another
route and by a `Put("/", nil)`. -/
theorem FindHandler_root_never_has_filters_witness :
    FindHandler ['/']
      (putAll ([⟨"/x".toList, some 5, [9]⟩] ++ ⟨['/'], some 1, [7, 8]⟩ ::
        [⟨"/api".toList, some 2, [3]⟩, ⟨['/'], none, [4]⟩]) (NewPathTree : PathTree Nat Nat)) =
      .ok (some 1, [], none) :=
  (FindHandler_root_never_has_filters Nat Nat).2 [⟨"/x".toList, some 5, [9]⟩]
    [⟨"/api".toList, some 2, [3]⟩, ⟨['/'], none, [4]⟩] 1 [7, 8] (by decide)

section WildcardSyntax

theorem getElem?_last_iff_suffix (s : GoString) (x : Char) :
    s[s.length - 1]? = some x ↔ [x] <:+ s := by
  rcases List.eq_nil_or_concat s with rfl | ⟨init, y, rfl⟩
  · simp
  · simp [List.suffix_iff_eq_append, eq_comm]

theorem isWildcard_eq (s : GoString) :
    isWildcard s =
      if 4 ≤ s.length ∧ ['{', ':'] <+: s ∧ ['}'] <:+ s then
        ((s.take (s.length - 1)).drop 2, true)
      else ([], false) := by
  unfold isWildcard
  have h2 : s.take 2 = ['{', ':'] ↔ ['{', ':'] <+: s := by
    rw [List.prefix_iff_eq_take]
    exact eq_comm
  simp only [h2, getElem?_last_iff_suffix]
  by_cases h4 : 3 < s.length
  · have h4b : 4 ≤ s.length := h4
    simp only [h4, h4b, if_true, true_and]
  · have h4b : ¬ 4 ≤ s.length := h4
    simp only [h4, h4b, if_false, false_and]

end WildcardSyntax

/-- **C13.** For every segment `s`, `isWildcard(s)` returns `(s[2 : len(s)-1], true)` if and
only if `len(s) >= 4`, `s` starts with `"{:"` and `s` ends with `"}"`; otherwise it returns
`("", false)`.  Hence the capture name of a wildcard is never empty, and a node created by
`NewPathTreeNode` has a non-empty `wildcardName` exactly when its segment is a wildcard. -/
theorem isWildcard_spec (H F : Type) (s : GoString) :
    (isWildcard s = ((s.take (s.length - 1)).drop 2, true) ↔
      (4 ≤ s.length ∧ ['{', ':'] <+: s ∧ ['}'] <:+ s)) ∧
    (¬ (4 ≤ s.length ∧ ['{', ':'] <+: s ∧ ['}'] <:+ s) → isWildcard s = ([], false)) ∧
    ((isWildcard s).2 = true → (isWildcard s).1 ≠ []) ∧
    ((NewPathTreeNode s : PathTreeNode H F).wildcardName ≠ [] ↔ (isWildcard s).2 = true) := by
  have hname : (isWildcard s).2 = true → (isWildcard s).1 ≠ [] := by
    rw [isWildcard_eq]
    split_ifs with h
    · intro _ e
      have hl := congrArg List.length e
      simp only [List.length_drop, List.length_take, List.length_nil] at hl
      omega
    · intro e; cases e
  refine ⟨?_, ?_, hname, ?_⟩
  · rw [isWildcard_eq]
    split_ifs with h
    · simp [h]
    · simp [h]
  · intro h
    rw [isWildcard_eq, if_neg h]
  · rw [newPathTreeNode_eq, wildcardName_mk]
    constructor
    · intro hne
      cases hb : (isWildcard s).2 with
      | true => rfl
      | false => exact absurd (isWildcard_false_name s hb) hne
    · exact hname

/-- Witness of `isWildcard_spec`: the segment `{:x}`, of length 4. -/
theorem isWildcard_spec_witness :
    isWildcard "\x7b:x\x7d".toList =
      (("\x7b:x\x7d".toList.take ("\x7b:x\x7d".toList.length - 1)).drop 2, true) ∧
    (isWildcard "\x7b:x\x7d".toList).1 ≠ [] ∧
    isWildcard "\x7b:\x7d".toList = ([], false) :=
  ⟨(isWildcard_spec Nat Nat "\x7b:x\x7d".toList).1.mpr ⟨by decide, by decide, by decide⟩,
    (isWildcard_spec Nat Nat "\x7b:x\x7d".toList).2.2.1 (by decide),
    (isWildcard_spec Nat Nat "\x7b:\x7d".toList).2.1 (by decide)⟩

/-- **C14 (failing input).** `FindHandler` called with the empty path panics at `urlStr[0]`:
it does not complete. -/
theorem FindHandler_empty_path_panics {H F : Type} (t : PathTree H F) :
    FindHandler [] t = .error .indexOutOfRange := rfl

/-- A non-empty path that does not start with `'/'` resolves to nothing: `FindHandler`
returns `(nil, nil, nil)`. -/
theorem FindHandler_other_prefix_nil {H F : Type} (c : Char) (cs : GoString) (hc : c ≠ '/')
    (t : PathTree H F) : FindHandler (c :: cs) t = .ok (none, [], none) := by
  have hne : ¬ (c :: cs = ['/']) := by
    intro e
    simp only [List.cons.injEq] at e
    exact hc e.1
  simp [FindHandler, hc, hne]

/-- **C18 (failing input).** The segments `{:a b}` and `{:a}b}` are classified as wildcards,
with the capture names `a b` and `a}b`, although these names are not made of word
characters; the route `/{:a b}` then matches the path `/zzz` and binds `a b` to `zzz`. -/
theorem isWildcard_accepts_any_name :
    isWildcard "\x7b:a b\x7d".toList = ("a b".toList, true) ∧
    isWildcard "\x7b:a\x7db\x7d".toList = ("a\x7db".toList, true) ∧
    FindHandler "/zzz".toList
      (putAll [⟨"/\x7b:a b\x7d".toList, some 1, []⟩] (NewPathTree : PathTree Nat Nat)) =
      .ok (some 1, [], some [("a b".toList, "zzz".toList)]) :=
  ⟨by decide, by decide, rfl⟩

section LaterWildcard

variable {H F : Type}

theorem findNode_congr (seg : GoString) (rest : List GoString) (n n1 : PathTreeNode H F)
    (params : Params) (h1 : n.findChildNode seg = n1.findChildNode seg)
    (h2 : n.matchChildNode (fun cnode => decide (cnode.wildcardName ≠ [])) =
      n1.matchChildNode (fun cnode => decide (cnode.wildcardName ≠ []))) :
    findNode (seg :: rest) n params = findNode (seg :: rest) n1 params := by
  rw [findNode, findNode, h1, h2]

end LaterWildcard

/-- **C19 (as amended).** At a node that has a wildcard child `w1` declared before another
child `w2`, the lookup of a segment different from the path of `w2` is the same as if `w2`
were not there: the wildcard used for matching is never the later-declared one, which takes
part only in the lookup of a segment equal to its own text.  This holds for every node, in
particular for those of a tree built by `Put`. -/
theorem later_wildcard_sibling_unused {H F : Type} (n w1 w2 : PathTreeNode H F)
    (before mid after : List (PathTreeNode H F)) (seg : GoString) (rest : List GoString)
    (params : Params)
    (hch : n.childrenNode = before ++ w1 :: (mid ++ w2 :: after))
    (hw1 : w1.wildcardName ≠ []) (hseg : w2.path ≠ seg) :
    findNode (seg :: rest) n params =
      findNode (seg :: rest) (n.setChildrenNode (before ++ w1 :: (mid ++ after))) params := by
  cases n with
  | mk p h f w cs =>
    simp only [childrenNode_mk] at hch
    subst hch
    apply findNode_congr
    · simp only [findChildNode, matchChildNode, childrenNode_mk, setChildrenNode_mk,
        List.find?_append, List.find?_cons, hseg, decide_False]
    · simp only [findChildNode, matchChildNode, childrenNode_mk, setChildrenNode_mk,
        List.find?_append, List.find?_cons, hw1, ne_eq, not_false_eq_true, decide_True]

/-- Witness of `later_wildcard_sibling_unused`: below the root of the tree with the routes
`/{:a}` and `/{:b}`, the segment `zzz`. -/
theorem later_wildcard_sibling_unused_witness :
    findNode ["zzz".toList]
        (putAll [⟨"/\x7b:a\x7d".toList, some 1, []⟩, ⟨"/\x7b:b\x7d".toList, some 2, []⟩]
          (NewPathTree : PathTree Nat Nat)).root [] =
      findNode ["zzz".toList]
        ((putAll [⟨"/\x7b:a\x7d".toList, some 1, []⟩, ⟨"/\x7b:b\x7d".toList, some 2, []⟩]
          (NewPathTree : PathTree Nat Nat)).root.setChildrenNode
          ([] ++ PathTreeNode.mk "\x7b:a\x7d".toList (some 1) [] "a".toList [] :: ([] ++ []))) [] :=
  later_wildcard_sibling_unused _
    (.mk "\x7b:a\x7d".toList (some 1) [] "a".toList [])
    (.mk "\x7b:b\x7d".toList (some 2) [] "b".toList []) [] [] [] "zzz".toList [] [] rfl
    (by decide) (by decide)

/-- **C19 (counterexample).** In the tree built by `Put("/{:a}", 1)` and `Put("/{:b}", 2)` the
root has two wildcard children; the lookup of the path `/{:b}` returns the handler of the
later-declared one, which is matched as a literal. -/
theorem FindHandler_returns_later_wildcard :
    ((putAll [⟨"/\x7b:a\x7d".toList, some 1, []⟩, ⟨"/\x7b:b\x7d".toList, some 2, []⟩]
        (NewPathTree : PathTree Nat Nat)).root.childrenNode.map PathTreeNode.wildcardName) =
      ["a".toList, "b".toList] ∧
    FindHandler "/\x7b:b\x7d".toList
      (putAll [⟨"/\x7b:a\x7d".toList, some 1, []⟩, ⟨"/\x7b:b\x7d".toList, some 2, []⟩]
        (NewPathTree : PathTree Nat Nat)) = .ok (some 2, [], some []) :=
  ⟨by decide, rfl⟩

/-- **C20.** Registration is not monotone: there are a tree built by `Put`, a path for which
`FindHandler` returns a non-nil handler, and a further `Put` of a different pattern after
which `FindHandler` returns a nil handler for that path.  With `Put("/{:x}/a", 1)` the path
`/foo/a` resolves to `1`; after `Put("/foo/b", 2)` the literal child `foo` shadows the
wildcard and `/foo/a` resolves to nothing. -/
theorem registration_not_monotone :
    ∃ (calls : List (PutCall Nat Nat)) (p : GoString) (h : Nat) (fs : List Nat)
      (params : Option Params) (extra : PutCall Nat Nat),
      calls = [⟨"/\x7b:x\x7d/a".toList, some 1, []⟩] ∧ p = "/foo/a".toList ∧
      extra = ⟨"/foo/b".toList, some 2, []⟩ ∧
      (∀ c ∈ calls, c.pattern ≠ extra.pattern) ∧
      FindHandler p (putAll calls NewPathTree) = .ok (some h, fs, params) ∧
      FindHandler p (putAll (calls ++ [extra]) NewPathTree) = .ok (none, [], none) :=
  ⟨[⟨"/\x7b:x\x7d/a".toList, some 1, []⟩], "/foo/a".toList, 1, [],
    some [("x".toList, "foo".toList)], ⟨"/foo/b".toList, some 2, []⟩, rfl, rfl, rfl,
    by decide, rfl, rfl⟩

section TrackInvariant

open Context

theorem appended_append (xs ys : List Event) :
    appended (xs ++ ys) = appended xs + appended ys := by
  induction xs with
  | nil => simp [appended]
  | cons e es ih => cases e <;> simp [appended, ih, Nat.add_assoc]

theorem trackOK_append (len floor : Nat) (xs ys : List Event) :
    trackOK len floor (xs ++ ys) ↔
      trackOK len floor xs ∧
        trackOK (len + appended xs) (floorAfter len floor xs) ys := by
  induction xs generalizing len floor with
  | nil => simp [trackOK, appended, floorAfter]
  | cons e es ih =>
    cases e with
    | start i => simp [trackOK, appended, floorAfter, ih, and_assoc]
    | next => simp [trackOK, appended, floorAfter, ih]
    | abort => simp [trackOK, appended, floorAfter, ih]
    | append n => simp [trackOK, appended, floorAfter, ih, Nat.add_assoc]

theorem floorAfter_append (len floor : Nat) (xs ys : List Event) :
    floorAfter len floor (xs ++ ys) =
      floorAfter (len + appended xs) (floorAfter len floor xs) ys := by
  induction xs generalizing len floor with
  | nil => simp [appended, floorAfter]
  | cons e es ih => cases e <;> simp [appended, floorAfter, ih, Nat.add_assoc]

theorem tracks_refl (s : Nat) (hs : s ≤ 1) (c : Context) : Tracks s c c := by
  refine ⟨[], by simp, by simp [appended], fun _ => le_refl _, Or.inl (le_refl _), ?_⟩
  intro floor hf
  exact ⟨trivial, by show floor ≤ _; omega⟩

theorem tracks_trans {s : Nat} {c c1 c2 : Context} (h1 : Tracks s c c1)
    (h2 : Tracks 1 c1 c2) : Tracks s c c2 := by
  obtain ⟨d1, ht1, hl1, ha1, hm1, hf1⟩ := h1
  obtain ⟨d2, ht2, hl2, ha2, hm2, hf2⟩ := h2
  refine ⟨d1 ++ d2, by rw [ht2, ht1, List.append_assoc], ?_, ?_, ?_, ?_⟩
  · rw [hl2, hl1, appended_append, Nat.add_assoc]
  · intro hab
    have hab1 : Event.abort ∉ d1 := fun e => hab (List.mem_append_left _ e)
    have hab2 : Event.abort ∉ d2 := fun e => hab (List.mem_append_right _ e)
    exact le_trans (ha1 hab1) (ha2 hab2)
  · rcases hm1 with h | h <;> rcases hm2 with h' | h' <;> omega
  · intro floor hf
    obtain ⟨ho1, hp1⟩ := hf1 floor hf
    obtain ⟨ho2, hp2⟩ := hf2 _ hp1
    rw [trackOK_append, floorAfter_append, ← hl1]
    exact ⟨⟨ho1, ho2⟩, hp2⟩

theorem tracks_trans_incr {s : Nat} {c c1 c2 : Context} (h1 : Tracks s c c1)
    (h2 : Tracks 0 c1.incr c2) : Tracks s c c2 := by
  obtain ⟨d1, ht1, hl1, ha1, hm1, hf1⟩ := h1
  obtain ⟨d2, ht2, hl2, ha2, hm2, hf2⟩ := h2
  simp only [incr_trace, incr_filters, incr_filterIndex] at ht2 hl2 ha2 hm2 hf2
  refine ⟨d1 ++ d2, by rw [ht2, ht1, List.append_assoc], ?_, ?_, ?_, ?_⟩
  · rw [hl2, hl1, appended_append, Nat.add_assoc]
  · intro hab
    have hab1 : Event.abort ∉ d1 := fun e => hab (List.mem_append_left _ e)
    have hab2 : Event.abort ∉ d2 := fun e => hab (List.mem_append_right _ e)
    have := ha1 hab1
    have := ha2 hab2
    omega
  · rcases hm1 with h | h <;> rcases hm2 with h' | h' <;> omega
  · intro floor hf
    obtain ⟨ho1, hp1⟩ := hf1 floor hf
    obtain ⟨ho2, hp2⟩ := hf2 (floorAfter c.filters.length floor d1) (by omega)
    rw [trackOK_append, floorAfter_append, ← hl1]
    exact ⟨⟨ho1, ho2⟩, hp2⟩

theorem tracks_pre_next {c c1 : Context} (h : Tracks 0 (c.emit .next).incr c1) :
    Tracks 1 c c1 := by
  obtain ⟨d, ht, hl, ha, hm, hf⟩ := h
  simp only [incr_trace, incr_filters, incr_filterIndex, emit_trace, emit_filters,
    emit_filterIndex] at ht hl ha hm hf
  refine ⟨.next :: d, by rw [ht]; simp, by simpa [appended] using hl, ?_, ?_, ?_⟩
  · intro hab
    have := ha (fun e => hab (List.mem_cons_of_mem _ e))
    omega
  · rcases hm with h | h <;> omega
  · intro floor hfl
    obtain ⟨ho, hp⟩ := hf floor (by omega)
    exact ⟨ho, hp⟩

theorem tracks_pre_abort {s : Nat} {c c1 : Context} (h : Tracks 1 c.Abort c1) :
    Tracks s c c1 := by
  obtain ⟨d, ht, hl, _, hm, hf⟩ := h
  simp only [abort_trace, abort_filters, abort_filterIndex] at ht hl hm hf
  refine ⟨.abort :: d, by rw [ht]; simp, by simpa [appended] using hl, ?_, ?_, ?_⟩
  · intro hab
    exact absurd (List.mem_cons_self _ _) hab
  · rcases hm with h | h <;> omega
  · intro floor _
    obtain ⟨ho, hp⟩ := hf (c.filters.length + 2) (by omega)
    exact ⟨ho, hp⟩

theorem tracks_pre_append {s : Nat} {c c1 : Context} (fs : List Prog)
    (h : Tracks s (c.AppendFilters fs) c1) : Tracks s c c1 := by
  unfold AppendFilters at h
  split_ifs at h with hpos
  · obtain ⟨d, ht, hl, ha, hm, hf⟩ := h
    simp only [List.length_append] at hl hm hf
    refine ⟨.append fs.length :: d, by rw [ht]; simp, ?_, ?_, ?_, ?_⟩
    · rw [hl]
      simp [appended, Nat.add_assoc]
    · intro hab
      exact ha (fun e => hab (List.mem_cons_of_mem _ e))
    · rcases hm with h | h
      · exact Or.inl h
      · exact Or.inr (by omega)
    · intro floor hfl
      obtain ⟨ho, hp⟩ := hf floor hfl
      exact ⟨ho, hp⟩
  · exact h

theorem tracks_pre_writeStatus {s : Nat} {c c1 : Context} (x : Nat)
    (h : Tracks s (c.WriteStatus x) c1) : Tracks s c c1 := h

theorem tracks_pre_start {c c1 : Context} (hlt : c.filterIndex < c.filters.length)
    (h : Tracks 1 (c.emit (.start c.filterIndex)) c1) : Tracks 0 c c1 := by
  obtain ⟨d, ht, hl, ha, hm, hf⟩ := h
  simp only [emit_trace, emit_filters, emit_filterIndex] at ht hl ha hm hf
  refine ⟨.start c.filterIndex :: d, by rw [ht]; simp, by simpa [appended] using hl, ?_,
    hm, ?_⟩
  · intro hab
    exact ha (fun e => hab (List.mem_cons_of_mem _ e))
  · intro floor hfl
    obtain ⟨ho, hp⟩ := hf floor (by omega)
    exact ⟨⟨by omega, hlt, ho⟩, hp⟩

theorem tracks_write500 (s : Nat) (hs : s ≤ 1) (err : Option String) (c : Context) :
    Tracks s c (c.Write500 err).ctx := by
  cases err with
  | none => exact tracks_refl s hs c
  | some msg => exact tracks_refl s hs c

theorem tracks_run :
    ∀ n : Nat,
      (∀ (p : Prog) (c : Context), Tracks 1 c (runBody n p c).ctx) ∧
      (∀ (l : Nat) (c : Context), l ≤ c.filters.length → Tracks 0 c (execLoop n l c).ctx) := by
  intro n
  induction n with
  | zero =>
    refine ⟨fun p c => ?_, fun l c _ => ?_⟩
    · rw [runBody_zero]; exact tracks_refl 1 (le_refl _) c
    · rw [execLoop_zero]; exact tracks_refl 0 (Nat.zero_le _) c
  | succ n ih =>
    obtain ⟨ihb, ihl⟩ := ih
    refine ⟨fun p c => ?_, fun l c hl => ?_⟩
    · cases p with
      | ret => rw [runBody_ret]; exact tracks_refl 1 (le_refl _) c
      | next k =>
        have h1 := tracks_pre_next (ihl c.filters.length (c.emit .next).incr (le_refl _))
        cases ho : execLoop n c.filters.length (c.emit .next).incr with
        | done c1 =>
          rw [ho] at h1
          rw [runBody_next_done n k c c1 ho]
          exact tracks_trans h1 (ihb k c1)
        | panicked v c1 =>
          rw [ho] at h1
          rw [runBody_next_panicked n k c c1 v ho]
          exact h1
        | outOfFuel c1 =>
          rw [ho] at h1
          rw [runBody_next_outOfFuel n k c c1 ho]
          exact h1
      | abort k =>
        rw [runBody_abort]
        exact tracks_pre_abort (ihb k _)
      | appendFilters fs k =>
        rw [runBody_appendFilters]
        exact tracks_pre_append fs (ihb k _)
      | writeStatus s k =>
        rw [runBody_writeStatus]
        exact tracks_pre_writeStatus s (ihb k _)
      | panic v => rw [runBody_panic]; exact tracks_refl 1 (le_refl _) c
      | branch k => rw [runBody_branch]; exact ihb _ c
    · by_cases hlt : c.filterIndex < l
      · cases hget : c.filters[c.filterIndex]? with
        | none =>
          rw [execLoop_no_filter n l c hlt hget]
          exact tracks_refl 0 (Nat.zero_le _) c
        | some fn =>
          have h1 := tracks_pre_start (lt_of_lt_of_le hlt hl)
            (ihb fn (c.emit (.start c.filterIndex)))
          cases ho : runBody n fn (c.emit (.start c.filterIndex)) with
          | done c1 =>
            rw [ho] at h1
            rw [execLoop_enter_done n l c c1 fn hlt hget ho]
            have hlen : l ≤ c1.incr.filters.length := by
              obtain ⟨d, _, hl1, _⟩ := h1
              show l ≤ c1.filters.length
              have : (Outcome.done c1).ctx.filters.length = c1.filters.length := rfl
              omega
            exact tracks_trans_incr h1 (ihl l c1.incr hlen)
          | panicked v c1 =>
            rw [ho] at h1
            rw [execLoop_enter_panicked n l c c1 fn v hlt hget ho]
            exact h1
          | outOfFuel c1 =>
            rw [ho] at h1
            rw [execLoop_enter_outOfFuel n l c c1 fn hlt hget ho]
            exact h1
      · rw [execLoop_exit n l c (Nat.not_lt.mp hlt)]
        exact tracks_refl 0 (Nat.zero_le _) c

theorem tracks_processWithFilters (fuel : Nat) (fn : Prog) (c : Context) :
    Tracks 0 c (processWithFilters fuel fn c).ctx := by
  have h1 : Tracks 0 (c.AppendFilters [fn]) (execFilters fuel (c.AppendFilters [fn])).ctx :=
    (tracks_run fuel).2 (c.AppendFilters [fn]).filters.length (c.AppendFilters [fn])
      (le_refl _)
  cases ho : execFilters fuel (c.AppendFilters [fn]) with
  | done c1 =>
    rw [ho] at h1
    rw [processWithFilters_done fuel fn c c1 ho]
    exact tracks_pre_append [fn] h1
  | outOfFuel c1 =>
    rw [ho] at h1
    rw [processWithFilters_outOfFuel fuel fn c c1 ho]
    exact tracks_pre_append [fn] h1
  | panicked v c1 =>
    rw [ho] at h1
    rw [processWithFilters_panicked fuel fn c c1 v ho]
    exact tracks_trans (tracks_pre_append [fn] h1) (tracks_write500 1 (le_refl _) _ c1)

theorem trackOK_start_bounds :
    ∀ (es : List Event) (len floor : Nat), trackOK len floor es → floor ≤ len + 2 →
      ∀ i, Event.start i ∈ es → floor ≤ i ∧ i < len + appended es := by
  intro es
  induction es with
  | nil => intro len floor _ _ i hi; cases hi
  | cons e es ih =>
    intro len floor hok hfl i hi
    cases e with
    | start j =>
      obtain ⟨h1, h2, h3⟩ := hok
      rcases List.mem_cons.mp hi with h | h
      · cases h
        exact ⟨h1, by simp only [appended]; omega⟩
      · have := ih len floor h3 hfl i h
        simpa [appended] using this
    | next =>
      rcases List.mem_cons.mp hi with h | h
      · cases h
      · have := ih len floor hok hfl i h
        simpa [appended] using this
    | abort =>
      rcases List.mem_cons.mp hi with h | h
      · cases h
      · have := ih len (len + 2) hok (le_refl _) i h
        simp only [appended]
        exact ⟨by omega, this.2⟩
    | append n =>
      rcases List.mem_cons.mp hi with h | h
      · cases h
      · have := ih (len + n) floor hok (by omega) i h
        simp only [appended]
        exact ⟨this.1, by omega⟩

end TrackInvariant

/-- **C15 (as amended).** After a filter has called `Abort()` with the chain at length `L`,
no filter at an index below `L + 2` starts executing any more, whatever is appended and
however often `Next()` is called: the first two filters appended after the `Abort` never
execute.  When at most two filters are appended after the `Abort`, every subsequent
`Next()` runs nothing and no further filter executes. -/
theorem after_Abort_first_two_appended_never_run (fuel : Nat) (fn : Prog) (c : Context)
    (pre post : List Event) (hfresh : c.trace = [])
    (htrace : (Context.processWithFilters fuel fn c).ctx.trace = pre ++ Event.abort :: post) :
    (∀ i, Event.start i ∈ post → c.filters.length + appended pre + 2 ≤ i) ∧
    (appended post ≤ 2 → ∀ i, Event.start i ∉ post) := by
  obtain ⟨delta, hd, _, _, _, hf⟩ := tracks_processWithFilters fuel fn c
  rw [hfresh, List.nil_append] at hd
  rw [hd] at htrace
  have h1 := (hf 0 (Nat.zero_le _)).1
  rw [htrace, trackOK_append] at h1
  have h2 : trackOK (c.filters.length + appended pre) (c.filters.length + appended pre + 2)
      post := h1.2
  have h3 := trackOK_start_bounds post _ _ h2 (le_refl _)
  refine ⟨fun i hi => (h3 i hi).1, ?_⟩
  intro happ i hi
  have := h3 i hi
  omega

/-- Witness of `after_Abort_first_two_appended_never_run`: a filter that calls `Abort()`,
appends two filters and calls `Next()`. -/
theorem after_Abort_first_two_appended_never_run_witness :
    (Context.processWithFilters 10 Prog.ret
        ⟨[Prog.abort (Prog.appendFilters [Prog.ret, Prog.ret] (Prog.next Prog.ret))], 0, none,
          [], [], []⟩).ctx.trace =
      [Event.append 1, Event.start 0] ++ Event.abort :: [Event.append 2, Event.next] ∧
    ∀ i, Event.start i ∉ [Event.append 2, Event.next] :=
  ⟨by decide,
    (after_Abort_first_two_appended_never_run 10 Prog.ret
      ⟨[Prog.abort (Prog.appendFilters [Prog.ret, Prog.ret] (Prog.next Prog.ret))], 0, none,
        [], [], []⟩
      [Event.append 1, Event.start 0] [Event.append 2, Event.next] rfl (by decide)).2
      (by decide)⟩

/-- **C15 (counterexample).** A filter calls `Abort()`, appends three filters and calls
`Next()`: the chain has length 2 at the `Abort`, the cursor is set to 3, `Next()` moves it to
4 and runs the loop with bound 5, so the third appended filter, at index 4, executes. -/
theorem appended_filter_runs_after_Abort :
    (Context.processWithFilters 10 Prog.ret
        ⟨[Prog.abort (Prog.appendFilters [Prog.ret, Prog.ret, Prog.ret] (Prog.next Prog.ret))],
          0, none, [], [], []⟩).ctx.trace =
      [Event.append 1, Event.start 0, Event.abort, Event.append 3, Event.next,
        Event.start 4] := by
  decide

section CursorFacts

open Context

theorem floorAfter_ge :
    ∀ (es : List Event) (len floor x : Nat), x ≤ floor → x ≤ len + 2 →
      x ≤ floorAfter len floor es := by
  intro es
  induction es with
  | nil => intro len floor x h1 _; exact h1
  | cons e es ih =>
    intro len floor x h1 h2
    cases e with
    | start i => exact ih len floor x h1 h2
    | next => exact ih len floor x h1 h2
    | abort => exact ih len (len + 2) x h2 h2
    | append n => exact ih (len + n) floor x h1 (by omega)

theorem floorAfter_of_abort :
    ∀ (es : List Event) (len floor : Nat), Event.abort ∈ es →
      len + 2 ≤ floorAfter len floor es := by
  intro es
  induction es with
  | nil => intro len floor h; cases h
  | cons e es ih =>
    intro len floor h
    cases e with
    | start i =>
      rcases List.mem_cons.mp h with h1 | h1
      · cases h1
      · exact ih len floor h1
    | next =>
      rcases List.mem_cons.mp h with h1 | h1
      · cases h1
      · exact ih len floor h1
    | abort => exact floorAfter_ge es len (len + 2) (len + 2) (le_refl _) (le_refl _)
    | append n =>
      rcases List.mem_cons.mp h with h1 | h1
      · cases h1
      · have := ih (len + n) floor h1
        show len + 2 ≤ floorAfter (len + n) floor es
        omega

theorem cursor_facts {s : Nat} {c c1 : Context} (ht : Tracks s c c1) (ha : Advances c c1)
    (delta : List Event) (hd : c1.trace = c.trace ++ delta) :
    (Event.abort ∉ delta → c.filterIndex ≤ c1.filterIndex) ∧
    (Event.abort ∈ delta → c.filters.length + 1 ≤ c1.filterIndex) ∧
    (c.Dead → (∀ n, Event.append n ∉ delta) → ∀ i, Event.start i ∉ delta) := by
  obtain ⟨d1, hd1, _, hab, _, hf⟩ := ht
  obtain ⟨_, d2, hd2, hinv⟩ := ha
  have e1 : d1 = delta := List.append_cancel_left (hd1.symm.trans hd)
  have e2 : d2 = delta := List.append_cancel_left (hd2.symm.trans hd)
  subst e1
  subst e2
  refine ⟨hab, ?_, ?_⟩
  · intro hmem
    have h1 := (hf 0 (Nat.zero_le _)).2
    have h2 := floorAfter_of_abort _ c.filters.length 0 hmem
    omega
  · intro hdead hno
    exact no_start_of_aborted _ (hinv true (fun _ => hdead)).1 hno

end CursorFacts

/-- **C17 (as amended).** `Abort()` sets the cursor to the chain length plus one, whatever its
value.  Over every part of a request, made of calls by a filter (`runBody`) or of steps of
the loop of `execFilters` (`execLoop`), with `delta` the events of that part: when `Abort()`
is not called in that part, the cursor does not decrease; when `Abort()` is called in it, the
cursor ends above the chain length the part started from; and when the cursor exceeds the
chain length at the start, no filter starts as long as the chain is not extended by
`AppendFilters`. -/
theorem cursor_decreases_only_by_Abort :
    (∀ c : Context, c.Abort.filterIndex = c.filters.length + 1) ∧
    (∀ (fuel : Nat) (p : Prog) (c : Context) (delta : List Event),
      (Context.runBody fuel p c).ctx.trace = c.trace ++ delta →
        (Event.abort ∉ delta → c.filterIndex ≤ (Context.runBody fuel p c).ctx.filterIndex) ∧
        (Event.abort ∈ delta →
          c.filters.length + 1 ≤ (Context.runBody fuel p c).ctx.filterIndex) ∧
        (c.Dead → (∀ n, Event.append n ∉ delta) → ∀ i, Event.start i ∉ delta)) ∧
    (∀ (fuel l : Nat) (c : Context) (delta : List Event), l ≤ c.filters.length →
      (Context.execLoop fuel l c).ctx.trace = c.trace ++ delta →
        (Event.abort ∉ delta → c.filterIndex ≤ (Context.execLoop fuel l c).ctx.filterIndex) ∧
        (Event.abort ∈ delta →
          c.filters.length + 1 ≤ (Context.execLoop fuel l c).ctx.filterIndex) ∧
        (c.Dead → (∀ n, Event.append n ∉ delta) → ∀ i, Event.start i ∉ delta)) := by
  refine ⟨fun _ => rfl, ?_, ?_⟩
  · intro fuel p c delta hd
    exact cursor_facts ((tracks_run fuel).1 p c) ((advances_run fuel).1 p c) delta hd
  · intro fuel l c delta hl hd
    exact cursor_facts ((tracks_run fuel).2 l c hl) ((advances_run fuel).2 l c hl) delta hd

/-- Witness of `cursor_decreases_only_by_Abort`.  In a chain of three filters with the cursor
at 1, the executing filter calls `Next()`: no `Abort`, and the cursor goes from 1 to 3.  In a
chain of two filters with the cursor at 0, the executing filter calls `Abort()` and
`Next()`: the cursor ends at 4, above the chain length 2.  In a chain of two filters with the
cursor at 3, above the chain length, a call of `Next()` starts no filter. -/
theorem cursor_decreases_only_by_Abort_witness :
    ((Context.runBody 10 (Prog.next Prog.ret)
        ⟨[Prog.ret, Prog.next Prog.ret, Prog.ret], 1, none, [], [], []⟩).ctx.trace =
      [] ++ [Event.next, Event.start 2] ∧
     (Context.runBody 10 (Prog.next Prog.ret)
        ⟨[Prog.ret, Prog.next Prog.ret, Prog.ret], 1, none, [], [], []⟩).ctx.filterIndex = 3 ∧
     1 ≤ (Context.runBody 10 (Prog.next Prog.ret)
        ⟨[Prog.ret, Prog.next Prog.ret, Prog.ret], 1, none, [], [], []⟩).ctx.filterIndex) ∧
    ((Context.runBody 10 (Prog.abort (Prog.next Prog.ret))
        ⟨[Prog.ret, Prog.ret], 0, none, [], [], []⟩).ctx.trace =
      [] ++ [Event.abort, Event.next] ∧
     (Context.runBody 10 (Prog.abort (Prog.next Prog.ret))
        ⟨[Prog.ret, Prog.ret], 0, none, [], [], []⟩).ctx.filterIndex = 4 ∧
     2 + 1 ≤ (Context.runBody 10 (Prog.abort (Prog.next Prog.ret))
        ⟨[Prog.ret, Prog.ret], 0, none, [], [], []⟩).ctx.filterIndex) ∧
    ((Context.runBody 10 (Prog.next Prog.ret)
        ⟨[Prog.ret, Prog.ret], 3, none, [], [], []⟩).ctx.trace = [] ++ [Event.next] ∧
     ∀ i, Event.start i ∉ [Event.next]) :=
  ⟨⟨by decide, by decide,
      (cursor_decreases_only_by_Abort.2.1 10 (Prog.next Prog.ret)
        ⟨[Prog.ret, Prog.next Prog.ret, Prog.ret], 1, none, [], [], []⟩
        [Event.next, Event.start 2] (by decide)).1 (by decide)⟩,
    ⟨by decide, by decide,
      (cursor_decreases_only_by_Abort.2.1 10 (Prog.abort (Prog.next Prog.ret))
        ⟨[Prog.ret, Prog.ret], 0, none, [], [], []⟩
        [Event.abort, Event.next] (by decide)).2.1 (by decide)⟩,
    ⟨by decide,
      (cursor_decreases_only_by_Abort.2.1 10 (Prog.next Prog.ret)
        ⟨[Prog.ret, Prog.ret], 3, none, [], [], []⟩
        [Event.next] (by decide)).2.2 (show (2 : Nat) < 3 by decide) (by simp)⟩⟩

/-- **C17 (counterexample).** In a chain of length 2 a filter calls `Abort()` and `Next()`: the
cursor is 4.  When it then calls `Abort()` again, the cursor is set to 3: it has
decreased. -/
theorem Abort_moves_cursor_back :
    (Context.runBody 10 (Prog.abort (Prog.next Prog.ret))
        ⟨[Prog.ret, Prog.ret], 0, none, [], [], []⟩).ctx.filterIndex = 4 ∧
    (Context.runBody 10 (Prog.abort (Prog.next (Prog.abort Prog.ret)))
        ⟨[Prog.ret, Prog.ret], 0, none, [], [], []⟩).ctx.filterIndex = 3 ∧
    (Context.runBody 10 (Prog.abort (Prog.next Prog.ret))
        ⟨[Prog.ret, Prog.ret], 0, none, [], [], []⟩).ctx.Abort.filterIndex = 3 := by
  decide

section AppendedFilters

open Context

/-- The loop of `execFilters` on a chain whose filters from the cursor on are tame: it runs
them all, once each and in order. -/
theorem tame_loop_from (chain : List Prog) :
    ∀ (k : Nat) (c : Context), c.filters = chain →
      (∀ j p, c.filterIndex ≤ j → chain[j]? = some p → Tame p) →
      chain.length - c.filterIndex ≤ k →
      ∃ N c1, (∀ fuel, N ≤ fuel → execLoop fuel chain.length c = .done c1) ∧
        ChainRan chain c c1 := by
  intro k
  induction k with
  | zero =>
    intro c hfil _ hk
    refine ⟨1, c, ?_, hfil, by omega, ?_⟩
    · intro fuel hf
      obtain ⟨f, rfl⟩ : ∃ f, fuel = f + 1 := ⟨fuel - 1, by omega⟩
      exact execLoop_exit f _ _ (by omega)
    · have : chain.length - c.filterIndex = 0 := by omega
      rw [this]
      simp
  | succ k ih =>
    intro c hfil hall hk
    by_cases hlt : c.filterIndex < chain.length
    · have hget0 : chain[c.filterIndex]? = some (chain[c.filterIndex]) :=
        List.getElem?_eq_getElem hlt
      have hget : c.filters[c.filterIndex]? = some (chain[c.filterIndex]) := by
        rw [hfil]
        exact hget0
      have htame : Tame (chain[c.filterIndex]) := hall _ _ (le_refl _) hget0
      have hbody := tame_body chain c.filterIndex (started c.trace ++ [c.filterIndex])
        (fun c2 h1 h2 => ih c2 h1
          (fun j p hj hp => hall j p (by omega) hp) (by omega)) _ htame
        (c.emit (.start c.filterIndex))
        ⟨hfil, Or.inl ⟨rfl, by
          show started (c.trace ++ [Event.start c.filterIndex]) = _
          rw [started_append]
          rfl⟩⟩
      obtain ⟨N1, c1, h1, hfil1, hc1⟩ := hbody
      have hrange : List.range' c.filterIndex (chain.length - c.filterIndex) =
          c.filterIndex ::
            List.range' (c.filterIndex + 1) (chain.length - (c.filterIndex + 1)) := by
        have : chain.length - c.filterIndex = (chain.length - (c.filterIndex + 1)) + 1 := by
          omega
        rw [this, List.range'_succ]
      rcases hc1 with ⟨hidx, htr⟩ | ⟨hidx, htr⟩
      · obtain ⟨N2, c2, h2, hfil2, hidx2, htr2⟩ := ih c1.incr hfil1
          (fun j p hj hp => hall j p (by
            have : c1.incr.filterIndex = c1.filterIndex + 1 := rfl
            omega) hp)
          (by
            show chain.length - (c1.filterIndex + 1) ≤ k
            omega)
        refine ⟨max N1 N2 + 1, c2, ?_, hfil2, hidx2, ?_⟩
        · intro fuel hf
          obtain ⟨f, rfl⟩ : ∃ f, fuel = f + 1 := ⟨fuel - 1, by omega⟩
          rw [execLoop_enter f _ c _ hlt hget, h1 f (by omega)]
          exact h2 f (by omega)
        · rw [htr2, hrange]
          simp only [incr_trace, incr_filterIndex, htr, hidx, List.append_assoc,
            List.singleton_append]
      · refine ⟨max N1 1 + 1, c1.incr, ?_, hfil1, ?_, ?_⟩
        · intro fuel hf
          obtain ⟨f, rfl⟩ : ∃ f, fuel = f + 1 := ⟨fuel - 1, by omega⟩
          rw [execLoop_enter f _ c _ hlt hget, h1 f (by omega)]
          obtain ⟨g, rfl⟩ : ∃ g, f = g + 1 := ⟨f - 1, by omega⟩
          refine execLoop_exit g _ _ ?_
          show chain.length ≤ c1.filterIndex + 1
          omega
        · show chain.length ≤ c1.filterIndex + 1
          omega
        · rw [hrange]
          show started c1.trace = _
          rw [htr]
          simp
    · refine ⟨1, c, ?_, hfil, by omega, ?_⟩
      · intro fuel hf
        obtain ⟨f, rfl⟩ : ∃ f, fuel = f + 1 := ⟨fuel - 1, by omega⟩
        exact execLoop_exit f _ _ (by omega)
      · have : chain.length - c.filterIndex = 0 := by omega
        rw [this]
        simp

theorem appendFilters_extends_filters (fs : List Prog) (c : Context) :
    c.filters <+: (c.AppendFilters fs).filters := by
  unfold AppendFilters
  split_ifs
  · exact List.prefix_append _ _
  · exact List.prefix_refl _

theorem started_appendFilters (fs : List Prog) (c : Context) :
    started (c.AppendFilters fs).trace = started c.trace := by
  unfold AppendFilters
  split_ifs
  · show started (c.trace ++ [Event.append fs.length]) = _
    rw [started_append]
    simp
  · rfl

theorem nonext_body {p : Prog} (hp : NoNext p) :
    ∀ (n : Nat) (c : Context),
      started (runBody n p c).ctx.trace = started c.trace ∧
        c.filters <+: (runBody n p c).ctx.filters := by
  induction hp with
  | ret =>
    intro n c
    cases n with
    | zero => rw [runBody_zero]; exact ⟨rfl, List.prefix_refl _⟩
    | succ n => rw [runBody_ret]; exact ⟨rfl, List.prefix_refl _⟩
  | @abort k _ ih =>
    intro n c
    cases n with
    | zero => rw [runBody_zero]; exact ⟨rfl, List.prefix_refl _⟩
    | succ n =>
      rw [runBody_abort]
      obtain ⟨h1, h2⟩ := ih n c.Abort
      refine ⟨?_, h2⟩
      rw [h1, abort_trace, started_append]
      simp
  | @appendFilters fs k _ ih =>
    intro n c
    cases n with
    | zero => rw [runBody_zero]; exact ⟨rfl, List.prefix_refl _⟩
    | succ n =>
      rw [runBody_appendFilters]
      obtain ⟨h1, h2⟩ := ih n (c.AppendFilters fs)
      exact ⟨by rw [h1, started_appendFilters],
        List.IsPrefix.trans (appendFilters_extends_filters fs c) h2⟩
  | @writeStatus s k _ ih =>
    intro n c
    cases n with
    | zero => rw [runBody_zero]; exact ⟨rfl, List.prefix_refl _⟩
    | succ n =>
      rw [runBody_writeStatus]
      exact ih n (c.WriteStatus s)
  | panic v =>
    intro n c
    cases n with
    | zero => rw [runBody_zero]; exact ⟨rfl, List.prefix_refl _⟩
    | succ n => rw [runBody_panic]; exact ⟨rfl, List.prefix_refl _⟩
  | @branch k _ ih =>
    intro n c
    cases n with
    | zero => rw [runBody_zero]; exact ⟨rfl, List.prefix_refl _⟩
    | succ n =>
      rw [runBody_branch]
      exact ih c.view n c

theorem nonext_loop :
    ∀ (n l : Nat) (c : Context), l ≤ c.filters.length →
      (∀ j p, j < l → c.filters[j]? = some p → NoNext p) →
      ∀ i ∈ started (execLoop n l c).ctx.trace, i ∈ started c.trace ∨ i < l := by
  intro n
  induction n with
  | zero =>
    intro l c _ _ i hi
    rw [execLoop_zero] at hi
    exact Or.inl hi
  | succ n ih =>
    intro l c hl hall i hi
    by_cases hlt : c.filterIndex < l
    · cases hget : c.filters[c.filterIndex]? with
      | none =>
        rw [execLoop_no_filter n l c hlt hget] at hi
        exact Or.inl hi
      | some fn =>
        obtain ⟨h1, h2⟩ := nonext_body (hall _ fn hlt hget) n (c.emit (.start c.filterIndex))
        have hst : ∀ x, x ∈ started (runBody n fn (c.emit (.start c.filterIndex))).ctx.trace →
            x ∈ started c.trace ∨ x < l := by
          intro x hx
          rw [h1, emit_trace, started_append] at hx
          rcases List.mem_append.mp hx with h | h
          · exact Or.inl h
          · simp only [started_start, started_nil, List.mem_singleton] at h
            exact Or.inr (by omega)
        cases ho : runBody n fn (c.emit (.start c.filterIndex)) with
        | done c1 =>
          rw [ho] at h2 hst
          rw [execLoop_enter_done n l c c1 fn hlt hget ho] at hi
          have hpre : c.filters <+: c1.filters := h2
          obtain ⟨t, ht⟩ := hpre
          have hlen : l ≤ c1.incr.filters.length := by
            show l ≤ c1.filters.length
            rw [← ht, List.length_append]
            omega
          have hall1 : ∀ j p, j < l → c1.incr.filters[j]? = some p → NoNext p := by
            intro j p hj hp
            refine hall j p hj ?_
            have : c1.incr.filters[j]? = c.filters[j]? := by
              show c1.filters[j]? = _
              rw [← ht]
              exact List.getElem?_append_left (by omega)
            rw [← this]
            exact hp
          rcases ih l c1.incr hlen hall1 i hi with h | h
          · exact hst i h
          · exact Or.inr h
        | panicked v c1 =>
          rw [ho] at hst
          rw [execLoop_enter_panicked n l c c1 fn v hlt hget ho] at hi
          exact hst i hi
        | outOfFuel c1 =>
          rw [ho] at hst
          rw [execLoop_enter_outOfFuel n l c c1 fn hlt hget ho] at hi
          exact hst i hi
    · rw [execLoop_exit n l c (Nat.not_lt.mp hlt)] at hi
      exact Or.inl hi

theorem trace_write500 (err : Option String) (c : Context) :
    (c.Write500 err).ctx.trace = c.trace := by
  cases err <;> rfl

theorem processWithFilters_trace (fuel : Nat) (fn : Prog) (c : Context) :
    (processWithFilters fuel fn c).ctx.trace =
      (execFilters fuel (c.AppendFilters [fn])).ctx.trace := by
  cases ho : execFilters fuel (c.AppendFilters [fn]) with
  | done c1 => rw [processWithFilters_done fuel fn c c1 ho]
  | outOfFuel c1 => rw [processWithFilters_outOfFuel fuel fn c c1 ho]
  | panicked v c1 =>
    rw [processWithFilters_panicked fuel fn c c1 v ho, trace_write500]
    rfl

end AppendedFilters

/-- **C16 (as amended).** `execFilters` reads the chain length once, when it is entered.
When the filter executing at cursor position `i` calls `AppendFilters(gs)` and then `Next()`,
and the filters after position `i`, those of `gs` included, neither abort, append nor panic,
`Next()` returns after running the positions `i + 1` to the end of the extended chain, once
each and in order: every appended filter is executed.  When no filter or handler of a
request calls `Next`, no appended filter is executed: only positions of the chain as it was
when `processWithFilters` entered `execFilters` start. -/
theorem appended_filters_run_by_Next :
    (∀ (c : Context) (gs : List Prog), c.filterIndex < c.filters.length →
      (∀ j p, c.filterIndex < j → (c.filters ++ gs)[j]? = some p → Tame p) →
      ∃ N c1,
        (∀ fuel, N ≤ fuel → (c.AppendFilters gs).Next fuel = .done c1) ∧
        c1.filters = c.filters ++ gs ∧
        started c1.trace = started c.trace ++
          List.range' (c.filterIndex + 1) (c.filters.length + gs.length - (c.filterIndex + 1)) ∧
        ∀ j, c.filters.length ≤ j → j < c.filters.length + gs.length →
          j ∈ started c1.trace) ∧
    (∀ (fuel : Nat) (fn : Prog) (c : Context), c.trace = [] →
      (∀ p ∈ c.filters ++ [fn], NoNext p) →
      ∀ i ∈ started (Context.processWithFilters fuel fn c).ctx.trace,
        i < c.filters.length + 1) := by
  refine ⟨?_, ?_⟩
  · intro c gs hlt hall
    have hfil : ((c.AppendFilters gs).emit .next).incr.filters = c.filters ++ gs := by
      unfold Context.AppendFilters
      split_ifs with h
      · rfl
      · have : gs = [] := List.length_eq_zero.mp (by omega)
        rw [this]
        simp
    have hidx : ((c.AppendFilters gs).emit .next).incr.filterIndex = c.filterIndex + 1 := by
      unfold Context.AppendFilters
      split_ifs <;> rfl
    have hst : started ((c.AppendFilters gs).emit .next).incr.trace = started c.trace := by
      show started ((c.AppendFilters gs).trace ++ [Event.next]) = _
      rw [started_append, started_appendFilters]
      simp
    obtain ⟨N, c1, h1, h2, _, h4⟩ := tame_loop_from (c.filters ++ gs) (c.filters ++ gs).length
      ((c.AppendFilters gs).emit .next).incr hfil
      (fun j p hj hp => hall j p (by rw [hidx] at hj; omega) hp) (by omega)
    rw [hst, hidx, List.length_append] at h4
    refine ⟨N, c1, ?_, h2, h4, ?_⟩
    · intro fuel hf
      unfold Context.Next Context.execFilters
      rw [hfil]
      exact h1 fuel hf
    · intro j hj1 hj2
      rw [h4]
      refine List.mem_append_right _ ?_
      rw [List.mem_range'_1]
      omega
  · intro fuel fn c hfresh hall i hi
    rw [processWithFilters_trace] at hi
    have hfil : (c.AppendFilters [fn]).filters = c.filters ++ [fn] := by
      simp [Context.AppendFilters]
    have hall1 : ∀ j p, j < (c.AppendFilters [fn]).filters.length →
        (c.AppendFilters [fn]).filters[j]? = some p → NoNext p := by
      intro j p _ hp
      rw [hfil] at hp
      exact hall p (List.getElem?_mem hp)
    rcases nonext_loop fuel _ (c.AppendFilters [fn]) (le_refl _) hall1 i hi with h | h
    · rw [started_appendFilters, hfresh] at h
      cases h
    · rw [hfil, List.length_append] at h
      exact h

/-- Witness of `appended_filters_run_by_Next`: in a chain of two filters the first appends one
filter and calls `Next()`, which runs the positions 1 and 2; and in the chain of a filter
that appends one filter and returns, followed by the handler, only positions below 2
start. -/
theorem appended_filters_run_by_Next_witness :
    (∃ N c1,
      (∀ fuel, N ≤ fuel →
        (Context.AppendFilters [Prog.ret]
          ⟨[Prog.ret, Prog.ret], 0, none, [], [], []⟩).Next fuel = .done c1) ∧
      c1.filters = [Prog.ret, Prog.ret] ++ [Prog.ret] ∧
      started c1.trace = started [] ++ List.range' (0 + 1) (2 + 1 - (0 + 1)) ∧
      ∀ j, 2 ≤ j → j < 2 + 1 → j ∈ started c1.trace) ∧
    ∀ i ∈ started (Context.processWithFilters 10 Prog.ret
        ⟨[Prog.appendFilters [Prog.ret] Prog.ret], 0, none, [], [], []⟩).ctx.trace,
      i < 1 + 1 :=
  ⟨appended_filters_run_by_Next.1 ⟨[Prog.ret, Prog.ret], 0, none, [], [], []⟩ [Prog.ret]
      (by decide)
      (by
        intro j p _ hp
        have hmem := List.getElem?_mem hp
        simp only [List.cons_append, List.nil_append, List.mem_cons, List.mem_singleton,
          List.not_mem_nil, or_false, or_self] at hmem
        rw [hmem]
        exact Tame.ret),
    appended_filters_run_by_Next.2 10 Prog.ret
      ⟨[Prog.appendFilters [Prog.ret] Prog.ret], 0, none, [], [], []⟩ rfl
      (by
        intro p hp
        simp only [List.cons_append, List.nil_append, List.mem_cons, List.mem_singleton,
          List.not_mem_nil, or_false] at hp
        rcases hp with hp | hp
        · rw [hp]; exact NoNext.appendFilters _ NoNext.ret
        · rw [hp]; exact NoNext.ret)⟩

/-- **C16 (counterexample).** The filter at position 0 calls `AppendFilters(g)`, which places
`g` at position 2, and returns without calling `Next` or `Abort`; the loop then runs the
handler at position 1 and stops at its bound 2: `g` is never executed. -/
theorem appended_filter_not_run_without_Next :
    ∃ c1,
      Context.processWithFilters 10 Prog.ret
        ⟨[Prog.appendFilters [Prog.ret] Prog.ret], 0, none, [], [], []⟩ = .done c1 ∧
      c1.trace = [Event.append 1, Event.start 0, Event.append 1, Event.start 1] ∧
      c1.filters.length = 3 ∧ c1.filterIndex = 2 ∧ 2 ∉ started c1.trace :=
  ⟨_, rfl, by decide, by decide, by decide, by decide⟩

end HttpContext
